import Mathlib

/-!
bake: node graph, build evaluator and template expander.

A shallow embedding of `src/language.c` and of the template expander of
`src/project.c`.

Conventions of the embedding.

* A C string is the list of its characters (`CStr`); a pointer into a string
  is the suffix that starts at the pointer, so `strchr` returns a suffix and
  the characters between two pointers `a <= b` into one string are the first
  `a.length - b.length` characters of `a`.
* Node objects live in a heap (`bake_language.heap`); a `bake_node*` is the
  index of the object in the heap.  `l->nodes` and every `deps` list hold such
  pointers, so an append to the `deps` of a node is seen through every pointer
  to that node, as in C.
* `corto_ll` lists are Lean lists; a NULL `deps` list is the empty list (the
  code allocates the list on the first append and iterates it only when it is
  not NULL, so the two cannot be told apart).
* `int16_t` results are integers: `0` for success and `-1` for failure.
-/

namespace Bake

/-- A C string: the characters before the terminating NUL. -/
abbrev CStr := List Char

/-! ## Collaborators that are not part of `language.c` / `project.c` -/

/-- Modelled from the spec: the Filelist collaborator (`bake_filelist`, not
under `src/`).  It is "constructed from `(basePath, pattern)` or empty;
supports count, iteration, and append".  File matching is lazy and out of
scope, so a new list holds no file yet. -/
structure bake_filelist where
  basePath : Option CStr
  pattern : Option CStr
  files : List CStr
  deriving DecidableEq, Repr

/-- Modelled from the spec: `bake_filelist_new(basePath, pattern)`. -/
def bake_filelist_new (basePath pattern : Option CStr) : bake_filelist :=
  { basePath := basePath, pattern := pattern, files := [] }

/-- Modelled from the spec: `bake_filelist_count(fl)`. -/
def bake_filelist_count (fl : bake_filelist) : Nat := fl.files.length

/-- Modelled from the spec: appending one file path to a Filelist. -/
def bake_filelist_add (fl : bake_filelist) (file : CStr) : bake_filelist :=
  { fl with files := fl.files ++ [file] }

/-- Project kinds (`bake_project_kind`). -/
inductive bake_project_kind where
  | BAKE_APPLICATION
  | BAKE_PACKAGE
  | BAKE_TOOL
  deriving DecidableEq, Repr

/-- A JSON number.  The code only copies the `double`; it is carried here as
the decimal it was written as. -/
structure JSON_Number where
  mantissa : Int
  exponent : Int
  deriving DecidableEq, Repr

/-- A project attribute (`bake_project_attr`): a tagged value with the name of
the member it was parsed from (NULL for the element of an array). -/
inductive bake_project_attr where
  | BAKE_ATTR_STRING (name : Option CStr) (string : Option CStr)
  | BAKE_ATTR_NUMBER (name : Option CStr) (number : JSON_Number)
  | BAKE_ATTR_BOOLEAN (name : Option CStr) (boolean : Bool)
  | BAKE_ATTR_ARRAY (name : Option CStr) (array : List bake_project_attr)
  deriving Repr

/-- The project object (`bake_project`), without its callback pointers and
without `cfg`.  A field is zero after `corto_calloc`; for `kind` that is taken
to be the first enumerator, `BAKE_APPLICATION`.  A NULL `attributes` list is
the empty list. -/
structure bake_project where
  path : Option CStr := none
  id : Option CStr := none
  kind : bake_project_kind := bake_project_kind.BAKE_APPLICATION
  language : Option CStr := none
  version : Option CStr := none
  managed : Bool := true
  is_public : Bool := true
  use_generated_api : Bool := true
  sources : List CStr := []
  includes : List CStr := []
  use : List CStr := []
  use_build : List CStr := []
  error : Bool := false
  freshly_baked : Bool := false
  link : List CStr := []
  files_to_clean : List CStr := []
  attributes : List bake_project_attr := []
  dependee_json : Option CStr := none
  model : Option CStr := none
  artefact_outdated : Bool := false
  sources_outdated : Bool := false
  built : Bool := false
  deriving Repr

/-! ## Data model of `language.c` -/

/-- The two kinds of rule target (`bake_rule_target`): a pattern naming a node,
or a mapping callback (an opaque function pointer, here a number).  The
assertion in `bake_node_addToTarget` excludes a NULL pattern, so the pattern is
a string. -/
inductive bake_rule_target where
  | BAKE_RULE_TARGET_PATTERN (pattern : CStr)
  | BAKE_RULE_TARGET_MAP (map : Nat)
  deriving DecidableEq, Repr

/-- The test `target.kind == BAKE_RULE_TARGET_MAP`. -/
def bake_rule_target.is_map : bake_rule_target → Bool
  | bake_rule_target.BAKE_RULE_TARGET_MAP _ => true
  | bake_rule_target.BAKE_RULE_TARGET_PATTERN _ => false

/-- Node kinds: `n->kind`. -/
inductive bake_rule_kind where
  | BAKE_RULE_PATTERN
  | BAKE_RULE_RULE
  | BAKE_RULE_DEPENDENCY
  deriving DecidableEq, Repr

/-- A node object (`bake_node` and its variants `bake_pattern`, `bake_rule`,
`bake_dependency_rule`).  `deps` holds pointers (heap indices). -/
structure bake_node where
  kind : bake_rule_kind
  name : Option CStr
  deps : List Nat
  pattern : Option CStr
  source : Option CStr
  target : Option bake_rule_target
  action : Option Nat
  deriving DecidableEq, Repr

/-- The artefact callback `bake_rule_artefact_cb`: it receives the root
Filelist and the project and populates the Filelist. -/
abbrev bake_rule_artefact_cb := bake_filelist → bake_project → bake_filelist

/-- The language object, together with the heap of the node objects that were
allocated for it. -/
structure bake_language where
  name : Option CStr
  package : Option CStr
  heap : List bake_node
  nodes : List Nat
  error : Bool
  artefact_cb : Option bake_rule_artefact_cb

/-- Modelled from the spec: `bake_pattern_new(name, pattern)` (not under
`src/`) allocates a Pattern node with the given name and pattern and no
dependency.  Returns the language with the extended heap and the pointer. -/
def bake_pattern_new (l : bake_language) (name : Option CStr) (pattern : Option CStr) :
    bake_language × Nat :=
  ({ l with heap := l.heap ++
      [bake_node.mk bake_rule_kind.BAKE_RULE_PATTERN name [] pattern none none none] },
   l.heap.length)

/-- Modelled from the spec: `bake_rule_new(name, source, target, action)` (not
under `src/`) allocates a Rule node with no dependency yet. -/
def bake_rule_new (l : bake_language) (name : CStr) (source : Option CStr)
    (target : bake_rule_target) (action : Nat) : bake_language × Nat :=
  ({ l with heap := l.heap ++
      [bake_node.mk bake_rule_kind.BAKE_RULE_RULE (some name) [] none source (some target)
        (some action)] },
   l.heap.length)

/-- Modelled from the spec: `bake_dependency_rule_new(name, deps, dep_mapping,
action)` (not under `src/`) allocates a DependencyRule node with no dependency
edge. -/
def bake_dependency_rule_new (l : bake_language) (name : CStr) (deps : Option CStr)
    (dep_mapping : bake_rule_target) (action : Nat) : bake_language × Nat :=
  ({ l with heap := l.heap ++
      [bake_node.mk bake_rule_kind.BAKE_RULE_DEPENDENCY (some name) [] none deps
        (some dep_mapping) (some action)] },
   l.heap.length)

/-! ## Node lookup and wiring (`language.c`, lines 90-189) -/

/-- The name test of `bake_node_find`: `!strcmp(e->name, name)` for the node
that `e` points to.  (Every node of `l->nodes` is created with a name; a
dangling pointer or a NULL name does not match.) -/
def bake_node_named (l : bake_language) (name : CStr) (e : Nat) : Bool :=
  match l.heap[e]? with
  | some n => n.name == some name
  | none => false

/-- `bake_node_find`: the first node of `l->nodes` with the given name, or
NULL. -/
def bake_node_find (l : bake_language) (name : CStr) : Option Nat :=
  l.nodes.find? (bake_node_named l name)

/-- `bake_node_add`: append the node pointer to `l->nodes`. -/
def bake_node_add (l : bake_language) (n : Nat) : bake_language × Nat :=
  ({ l with nodes := l.nodes ++ [n] }, n)

/-- The two statements `if (!node->deps) node->deps = corto_ll_new();
corto_ll_append(node->deps, dep);`. -/
def bake_node_deps_append (l : bake_language) (node dep : Nat) : bake_language :=
  { l with heap := l.heap.modify (fun n => { n with deps := n.deps ++ [dep] }) node }

/-- The tokens that the `strtok(str, ",")` / `strtok(NULL, ",")` loop yields:
the non-empty maximal comma-free pieces of the string, in order. -/
def strtok_tokens (str : CStr) : List CStr :=
  (str.splitOn ',').filter (fun t => t ≠ [])

/-- The `while (ptr)` loop of `bake_node_addDependencies` over the remaining
tokens. -/
def bake_node_addDependencies_loop (l : bake_language) (node : Nat) :
    List CStr → bake_language × Int
  | [] => (l, 0)
  | ptr :: rest =>
    if ptr.head? = some '$' then
      match bake_node_find l ptr.tail with
      | none => (l, -1)
      | some dep => bake_node_addDependencies_loop (bake_node_deps_append l node dep) node rest
    else
      let r := bake_pattern_new l none (some ptr)
      bake_node_addDependencies_loop (bake_node_deps_append r.1 node r.2) node rest

/-- `bake_node_addDependencies`.  The function hands `pattern` to
`corto_strdup` and `strtok` without a test, so a NULL `pattern` is undefined
behaviour: the result is `none`. -/
def bake_node_addDependencies (l : bake_language) (node : Nat) (pattern : Option CStr) :
    Option (bake_language × Int) :=
  match pattern with
  | none => none
  | some str => some (bake_node_addDependencies_loop l node (strtok_tokens str))

/-- `bake_node_addToTarget`. -/
def bake_node_addToTarget (l : bake_language) (node : Nat) (target : bake_rule_target) :
    bake_language × Int :=
  match target with
  | bake_rule_target.BAKE_RULE_TARGET_MAP _ => (l, 0)
  | bake_rule_target.BAKE_RULE_TARGET_PATTERN pattern =>
    if pattern.head? ≠ some '$' then (l, -1)
    else
      match bake_node_find l pattern.tail with
      | none => (l, -1)
      | some targetNode => (bake_node_deps_append l targetNode node, 0)

/-! ## The DSL callbacks (`language.c`, lines 191-237) -/

/-- `bake_language_pattern`. -/
def bake_language_pattern (l : bake_language) (name : CStr) (pattern : Option CStr) :
    bake_language :=
  if (bake_node_find l name).isSome then
    { l with error := true }
  else
    let r := bake_pattern_new l (some name) pattern
    (bake_node_add r.1 r.2).1

/-- `bake_language_rule`.  The result is `none` where the behaviour is
undefined: a NULL `source` with a pattern target and a new name reaches
`bake_node_addDependencies`. -/
def bake_language_rule (l : bake_language) (name : CStr) (source : Option CStr)
    (target : bake_rule_target) (action : Nat) : Option bake_language :=
  if source.isNone ∧ target.is_map then
    some { l with error := true }
  else if (bake_node_find l name).isSome then
    some { l with error := true }
  else
    let r := bake_rule_new l name source target action
    let a := bake_node_add r.1 r.2
    match bake_node_addDependencies a.1 a.2 source with
    | none => none
    | some d =>
      let l1 := if d.2 ≠ 0 then { d.1 with error := true } else d.1
      let t := bake_node_addToTarget l1 a.2 target
      some (if t.2 ≠ 0 then { t.1 with error := true } else t.1)

/-- `bake_language_dependency_rule`. -/
def bake_language_dependency_rule (l : bake_language) (name : CStr) (deps : Option CStr)
    (dep_mapping : bake_rule_target) (action : Nat) : bake_language :=
  if (bake_node_find l name).isSome then
    { l with error := true }
  else
    let r := bake_dependency_rule_new l name deps dep_mapping action
    (bake_node_add r.1 r.2).1

/-- `bake_language_artefact_cb`: register the artefact callback. -/
def bake_language_artefact (l : bake_language) (artefact : bake_rule_artefact_cb) :
    bake_language :=
  { l with artefact_cb := some artefact }

/-! ## The build evaluator (`language.c`, lines 239-339) -/

/-- `bake_node_eval_pattern`: a fresh Filelist for the pattern of the node. -/
def bake_node_eval_pattern (n : bake_node) : Option bake_filelist :=
  some (bake_filelist_new none n.pattern)

/-- `bake_node_eval_rule`: returns NULL. -/
def bake_node_eval_rule (_n : bake_node) : Option bake_filelist := none

/-- The loop of `bake_node_eval` over `n->deps`; `ev e` is the recursive call
`bake_node_eval(l, e, p, target_fl)`.  The result is the status of the loop
(`-1` after the `goto error`) and the nodes visited by the calls. -/
def bake_node_eval_deps (ev : Nat → Option (Int × List Nat)) :
    List Nat → Option (Int × List Nat)
  | [] => some (0, [])
  | e :: es =>
    match ev e with
    | none => none
    | some (r, v) =>
      if r ≠ 0 then some (-1, v)
      else
        match bake_node_eval_deps ev es with
        | none => none
        | some (r2, v2) => some (r2, v ++ v2)

/-- `bake_node_eval`, with the nodes it was invoked on, in call order.  The
recursion of the C function follows the dependency edges and need not
terminate; the first argument bounds its depth and the result is `none` when
the bound is reached (or when the pointer is not a node). -/
def bake_node_eval (l : bake_language) (p : bake_project) :
    Nat → Nat → Option bake_filelist → Option (Int × List Nat)
  | 0, _, _ => none
  | fuel + 1, n, targets =>
    match l.heap[n]? with
    | none => none
    | some node =>
      let target_fl :=
        if node.kind = bake_rule_kind.BAKE_RULE_PATTERN then bake_node_eval_pattern node
        else if node.kind = bake_rule_kind.BAKE_RULE_RULE then bake_node_eval_rule node
        else none
      let target_fl := if target_fl.isNone then targets else target_fl
      match target_fl with
      | some fl =>
        match bake_node_eval_deps (fun e => bake_node_eval l p fuel e (some fl)) node.deps with
        | none => none
        | some (r, v) => some (r, n :: v)
      | none => some (0, [n])

/-- `bake_project_binaryPath` (`project.c`, lines 701-711).  `corto_envparse`
belongs to the corto library and is a parameter: it receives the format and
its arguments. -/
def bake_project_binaryPath (corto_envparse : CStr → List (Option CStr) → Option CStr)
    (p : bake_project) : Option CStr :=
  if p.kind ≠ bake_project_kind.BAKE_TOOL then
    corto_envparse "$BAKE_TARGET/lib/corto/$BAKE_VERSION/%s".toList [p.id]
  else
    corto_envparse "$BAKE_TARGET/bin".toList []

/-- How a call of `bake_language_build` ends: it returns a status, or the
process is stopped (`corto_critical` on a missing root, or the call through a
NULL `artefact_cb`). -/
inductive bake_build_outcome where
  | returned (status : Int)
  | aborted
  deriving DecidableEq, Repr

/-- `bake_language_build`: the outcome and the nodes that `bake_node_eval` was
invoked on.  `none` when the evaluation does not finish within `fuel`. -/
def bake_language_build (corto_envparse : CStr → List (Option CStr) → Option CStr)
    (fuel : Nat) (l : bake_language) (p : bake_project) :
    Option (bake_build_outcome × List Nat) :=
  match bake_node_find l "ARTEFACT".toList with
  | none => some (bake_build_outcome.aborted, [])
  | some root =>
    let binaryPath := bake_project_binaryPath corto_envparse p
    let artefact_fl := bake_filelist_new binaryPath none
    match l.artefact_cb with
    | none => some (bake_build_outcome.aborted, [])
    | some cb =>
      let artefact_fl := cb artefact_fl p
      if bake_filelist_count artefact_fl = 0 then
        some (bake_build_outcome.returned (-1), [])
      else
        match bake_node_eval l p fuel root (some artefact_fl) with
        | none => none
        | some (r, visited) =>
          if r ≠ 0 then some (bake_build_outcome.returned (-1), visited)
          else some (bake_build_outcome.returned 0, visited)

/-! ## Drivers and the language registry (`language.c`, lines 341-420) -/

/-- One call of a driver through the DSL callbacks of the language object. -/
inductive bake_dsl_call where
  | pattern (name : CStr) (pattern : Option CStr)
  | rule (name : CStr) (source : Option CStr) (target : bake_rule_target) (action : Nat)
  | dependency_rule (name : CStr) (deps : Option CStr) (dep_mapping : bake_rule_target)
      (action : Nat)
  | artefact (cb : bake_rule_artefact_cb)

/-- The effect of one DSL call on the current language; `none` where the
behaviour of the call is undefined. -/
def bake_dsl_apply (l : bake_language) : bake_dsl_call → Option bake_language
  | bake_dsl_call.pattern name pattern => some (bake_language_pattern l name pattern)
  | bake_dsl_call.rule name source target action =>
    bake_language_rule l name source target action
  | bake_dsl_call.dependency_rule name deps dep_mapping action =>
    some (bake_language_dependency_rule l name deps dep_mapping action)
  | bake_dsl_call.artefact cb => some (bake_language_artefact l cb)

/-- A sequence of DSL calls, applied in order; `none` when the behaviour of
one of the calls is undefined. -/
def bake_dsl_run (l : bake_language) : List bake_dsl_call → Option bake_language
  | [] => some l
  | c :: cs =>
    match bake_dsl_apply l c with
    | none => none
    | some l1 => bake_dsl_run l1 cs

/-- A driver entry point (`bakemain`): it populates the language through the
DSL callbacks only and returns a status. -/
structure bake_driver where
  calls : List bake_dsl_call
  status : Int

/-- The language object right after `corto_calloc` and `l->nodes =
corto_ll_new(); l->error = 0;`. -/
def bake_language_alloc : bake_language :=
  { name := none, package := none, heap := [], nodes := [], error := false,
    artefact_cb := none }

/-- The language after the two built-in nodes were created (lines 391-392). -/
def bake_language_seed : bake_language :=
  bake_language_pattern (bake_language_pattern bake_language_alloc "ARTEFACT".toList none)
    "DEFINITION".toList none

/-- `bake_language_get`.  `corto_load_sym` (corto library) is a parameter: the
entry point of the driver package, if any.  The static list `languages` is
passed in and returned; the result is the language, or NULL.  The whole is
`none` when the behaviour of a call of the entry point is undefined. -/
def bake_language_get (corto_load_sym : CStr → Option bake_driver)
    (languages : List bake_language) (language : CStr) :
    Option (Option bake_language × List bake_language) :=
  let package := "driver/bake/".toList ++ language
  match languages.find? (fun e => e.package == some package) with
  | some l => some (some l, languages ++ [l])
  | none =>
    match corto_load_sym package with
    | none => some (none, languages)
    | some main =>
      match bake_dsl_run bake_language_seed main.calls with
      | none => none
      | some l =>
        if main.status ≠ 0 then some (none, languages)
        else if l.error then some (none, languages)
        else
          let l := { l with name := some language, package := some package }
          some (some l, (languages ++ [l]) ++ [l])

/-! ## The template expander (`project.c`, lines 33-168) -/

/-- `strchr(s, c)` for a character `c` other than NUL: the pointer to the
first `c` in `s` (the suffix that starts there), or NULL. -/
def strchr : CStr → Char → Option CStr
  | [], _ => none
  | x :: xs, c => if x = c then some (x :: xs) else strchr xs c

/-- The characters from pointer `a` up to pointer `b` of the same string
(`b - a` characters starting at `a`). -/
def cstr_between (a b : CStr) : CStr := a.take (a.length - b.length)

/-- The character test of the two identifier loops: the loop fails on a
character for which `!isalpha(c) && c != '_' && !isdigit(c)`. -/
def bake_id_char (c : Char) : Bool := c.isAlpha || c == '_' || c.isDigit

/-- The places `corto_locate` can be asked for. -/
inductive corto_locate_kind where
  | CORTO_LOCATE_PACKAGE
  | CORTO_LOCATE_INCLUDE
  | CORTO_LOCATE_ETC
  | CORTO_LOCATE_ENV
  | CORTO_LOCATE_LIB
  | CORTO_LOCATE_APP
  | CORTO_LOCATE_BIN
  deriving DecidableEq, Repr

/-- `bake_project_func_locate`.  `corto_locate` (corto library) is a
parameter.  The result is the buffer after the append, or `none` for `-1`. -/
def bake_project_func_locate (corto_locate : CStr → corto_locate_kind → Option CStr)
    (_p : bake_project) (package_id : CStr) (buffer : CStr) (argument : CStr) : Option CStr :=
  let value : Option CStr :=
    if argument = "package".toList then
      corto_locate package_id corto_locate_kind.CORTO_LOCATE_PACKAGE
    else if argument = "include".toList then
      corto_locate package_id corto_locate_kind.CORTO_LOCATE_INCLUDE
    else if argument = "etc".toList then
      corto_locate package_id corto_locate_kind.CORTO_LOCATE_ETC
    else if argument = "env".toList then
      corto_locate package_id corto_locate_kind.CORTO_LOCATE_ENV
    else if argument = "lib".toList then
      corto_locate package_id corto_locate_kind.CORTO_LOCATE_LIB
    else if argument = "app".toList then
      corto_locate package_id corto_locate_kind.CORTO_LOCATE_APP
    else if argument = "bin".toList then
      corto_locate package_id corto_locate_kind.CORTO_LOCATE_BIN
    else none
  match value with
  | some v => some (buffer ++ v)
  | none => none

/-- `bake_project_func_call`: the buffer after the call, or `none` for `-1`. -/
def bake_project_func_call (corto_locate : CStr → corto_locate_kind → Option CStr)
    (p : bake_project) (package_id : CStr) (buffer : CStr) (function argument : CStr) :
    Option CStr :=
  if function = "locate".toList then
    bake_project_func_locate corto_locate p package_id buffer argument
  else none

/-- One of the two copy loops of `bake_project_replace` (lines 113-120 and
127-134) with the write of the terminator after it (lines 121 and 135), on the
characters `id` from `start` up to `end`; `i` is the index `ptr - start`.
`corto_id` (corto library) is an array of characters; its size is the
parameter `corto_id_size`.  The loop tests the character and then writes it at
`func_id[ptr - start]` with no test of the index.  The result is `some true`
when the loop has copied `id` and the terminator, `some false` for the
`goto error` at a character that is not allowed, and `none` for a write past
the end of the array, which is undefined. -/
def bake_project_replace_copy (corto_id_size : Nat) : CStr → Nat → Option Bool
  | [], i => if i < corto_id_size then some true else none
  | c :: rest, i =>
    if bake_id_char c = false then some false
    else if i < corto_id_size then bake_project_replace_copy corto_id_size rest (i + 1)
    else none

/-- The body of `if (next[1] == '{')` in `bake_project_replace` (lines
100-145): `next` points to the dollar sign.  The result is `some (some r)`
with the new value of `func` and the buffer, `some none` after a `goto error`,
and `none` when an identifier is written past the end of its `corto_id`. -/
def bake_project_replace_func (corto_id_size : Nat)
    (corto_locate : CStr → corto_locate_kind → Option CStr)
    (p : bake_project) (package_id : CStr) (next output : CStr) :
    Option (Option (CStr × CStr)) :=
  let start := next.drop 2
  let end0 := strchr next ' '
  let func_end := strchr (match end0 with | some e => e | none => start) '}'
  let end1 := match end0 with | some e => some e | none => func_end
  match end1 with
  | none => some none
  | some end_ =>
    let func_id := cstr_between start end_
    match bake_project_replace_copy corto_id_size func_id 0 with
    | none => none
    | some false => some none
    | some true =>
      -- `if (*end == ' ')`: with `func_end` NULL the test `ptr < end` fails at
      -- once and only the terminator is written; without the space `arg_id`
      -- keeps its initial value, the empty string
      let arg_id : CStr :=
        if end_.head? = some ' ' then
          match func_end with
          | some fe => cstr_between (end_.drop 1) fe
          | none => []
        else []
      let arg_copied : Option Bool :=
        if end_.head? = some ' ' then bake_project_replace_copy corto_id_size arg_id 0
        else some true
      match arg_copied with
      | none => none
      | some false => some none
      | some true =>
        match bake_project_func_call corto_locate p package_id output func_id arg_id with
        | none => some none
        | some output1 =>
          match func_end with
          | some fe => some (some (fe.drop 1, output1))
          -- not reached: the call has failed on the empty argument
          | none => some none

/-- The `while ((next = strchr(func, '$')))` loop of `bake_project_replace`
with the final `if (replaced)`: `some (some s)` is the returned string,
`some none` the NULL after `goto error`, `none` undefined behaviour.  Every
iteration moves `func` forward, so the loop is run with more fuel than `func`
has characters (with such fuel the result does not depend on the fuel, and the
branch for no fuel is not taken). -/
def bake_project_replace_loop (corto_id_size : Nat)
    (corto_locate : CStr → corto_locate_kind → Option CStr)
    (p : bake_project) (package_id : CStr) (input : CStr) :
    Nat → CStr → CStr → Bool → Option (Option CStr)
  | 0, _, _, _ => none
  | fuel + 1, func, output, replaced =>
    match strchr func '$' with
    | none => if replaced then some (some output) else some (some input)
    | some next =>
      let output := output ++ cstr_between func next
      if next[1]? = some '{' then
        match bake_project_replace_func corto_id_size corto_locate p package_id next output with
        | none => none
        | some none => some none
        | some (some (func1, output1)) =>
          bake_project_replace_loop corto_id_size corto_locate p package_id input fuel func1
            output1 true
      else
        match strchr (func.drop 1) '$' with
        | some ptr =>
          bake_project_replace_loop corto_id_size corto_locate p package_id input fuel ptr
            (output ++ cstr_between func ptr) true
        | none => some (some (output ++ next))

/-- `bake_project_replace`: `some (some s)` is the expanded string, `some none`
the NULL result, `none` undefined behaviour (an identifier of a placeholder
that does not fit `corto_id`). -/
def bake_project_replace (corto_id_size : Nat)
    (corto_locate : CStr → corto_locate_kind → Option CStr)
    (p : bake_project) (package_id : CStr) (input : CStr) : Option (Option CStr) :=
  bake_project_replace_loop corto_id_size corto_locate p package_id input (input.length + 1)
    input [] false

/-! ## Project configuration (`project.c`, lines 170-773)

The JSON library (parson) and the file system are collaborators: a parsed
file is a `JSON_Value`, `json_parse_file` and the directory scan are inputs of
the functions that use them.  A function that returns `int16_t` and updates
the project returns the updated project with the status; the result is `none`
where the C code passes NULL to `strchr` or `strcmp`, or writes an identifier
of a placeholder past the end of its `corto_id` (undefined behaviour). -/

/-- A parsed JSON value (`JSON_Value` of parson) with the members of an object
in file order. -/
inductive JSON_Value where
  | JSONNull
  | JSONString (string : CStr)
  | JSONNumber (number : JSON_Number)
  | JSONObject (members : List (CStr × JSON_Value))
  | JSONArray (items : List JSON_Value)
  | JSONBoolean (boolean : Bool)
  deriving Repr

/-- `json_value_get_string`: the string, or NULL for another type. -/
def json_value_get_string : JSON_Value → Option CStr
  | JSON_Value.JSONString string => some string
  | _ => none

/-- `json_value_get_object`: the object, or NULL for another type. -/
def json_value_get_object : JSON_Value → Option (List (CStr × JSON_Value))
  | JSON_Value.JSONObject members => some members
  | _ => none

/-- `json_object_get_value`: the value of the member with the name, or NULL. -/
def json_object_get_value (jo : List (CStr × JSON_Value)) (name : CStr) : Option JSON_Value :=
  (jo.find? (fun m => m.1 == name)).map (fun m => m.2)

/-- `json_object_get_string`: the string value of the member with the name,
or NULL when there is no such member or it is not a string. -/
def json_object_get_string (jo : List (CStr × JSON_Value)) (name : CStr) : Option CStr :=
  (json_object_get_value jo name).bind json_value_get_string

/-- `bake_project_addSource`. -/
def bake_project_addSource (p : bake_project) (source : CStr) : bake_project :=
  if p.sources.any (fun project_source => project_source == source) then p
  else { p with sources := p.sources ++ [source] }

/-- `bake_project_addInclude`. -/
def bake_project_addInclude (p : bake_project) (incl : CStr) : bake_project :=
  if p.includes.any (fun project_include => project_include == incl) then p
  else { p with includes := p.includes ++ [incl] }

/-- `bake_project_use`. -/
def bake_project_use (p : bake_project) (use : CStr) : bake_project :=
  if p.use.any (fun project_use => project_use == use) then p
  else { p with use := p.use ++ [use] }

/-- `bake_project_parseString` for a string that is not NULL: the attribute
holds the expanded string, or NULL when the expansion fails; `none` when the
expansion is undefined. -/
def bake_project_parseString (corto_id_size : Nat)
    (corto_locate : CStr → corto_locate_kind → Option CStr)
    (p : bake_project) (package_id : CStr) (str : CStr) : Option bake_project_attr :=
  (bake_project_replace corto_id_size corto_locate p package_id str).map
    (fun string => bake_project_attr.BAKE_ATTR_STRING none string)

/-- `bake_project_parseNumber`. -/
def bake_project_parseNumber (v : JSON_Number) : bake_project_attr :=
  bake_project_attr.BAKE_ATTR_NUMBER none v

/-- `bake_project_parseBoolean`. -/
def bake_project_parseBoolean (v : Bool) : bake_project_attr :=
  bake_project_attr.BAKE_ATTR_BOOLEAN none v

mutual
/-- `bake_project_parseValue`: `some (some attr)` is the attribute for a value,
`some none` the NULL for an object or null, `none` undefined behaviour in the
expansion of a string of the value. -/
def bake_project_parseValue (corto_id_size : Nat)
    (corto_locate : CStr → corto_locate_kind → Option CStr)
    (p : bake_project) (package_id : CStr) : JSON_Value → Option (Option bake_project_attr)
  | JSON_Value.JSONArray items =>
    match bake_project_parseArray corto_id_size corto_locate p package_id items with
    | none => none
    | some array => some (some (bake_project_attr.BAKE_ATTR_ARRAY none array))
  | JSON_Value.JSONString string =>
    match bake_project_parseString corto_id_size corto_locate p package_id string with
    | none => none
    | some attr => some (some attr)
  | JSON_Value.JSONNumber number => some (some (bake_project_parseNumber number))
  | JSON_Value.JSONBoolean boolean => some (some (bake_project_parseBoolean boolean))
  | JSON_Value.JSONObject _ => some none
  | JSON_Value.JSONNull => some none

/-- `bake_project_parseArray`: the list of the attributes of the elements that
have one, in order; `none` when the parse of an element is undefined. -/
def bake_project_parseArray (corto_id_size : Nat)
    (corto_locate : CStr → corto_locate_kind → Option CStr)
    (p : bake_project) (package_id : CStr) : List JSON_Value → Option (List bake_project_attr)
  | [] => some []
  | v :: rest =>
    match bake_project_parseValue corto_id_size corto_locate p package_id v with
    | none => none
    | some attr =>
      match bake_project_parseArray corto_id_size corto_locate p package_id rest with
      | none => none
      | some array =>
        some (match attr with
          | some attr => attr :: array
          | none => array)
end

/-- The assignment `attr->name = corto_strdup(name)`. -/
def bake_project_attr.set_name (name : CStr) : bake_project_attr → bake_project_attr
  | bake_project_attr.BAKE_ATTR_STRING _ string =>
    bake_project_attr.BAKE_ATTR_STRING (some name) string
  | bake_project_attr.BAKE_ATTR_NUMBER _ number =>
    bake_project_attr.BAKE_ATTR_NUMBER (some name) number
  | bake_project_attr.BAKE_ATTR_BOOLEAN _ boolean =>
    bake_project_attr.BAKE_ATTR_BOOLEAN (some name) boolean
  | bake_project_attr.BAKE_ATTR_ARRAY _ array =>
    bake_project_attr.BAKE_ATTR_ARRAY (some name) array

/-- The name of an attribute. -/
def bake_project_attr.name : bake_project_attr → Option CStr
  | bake_project_attr.BAKE_ATTR_STRING name _ => name
  | bake_project_attr.BAKE_ATTR_NUMBER name _ => name
  | bake_project_attr.BAKE_ATTR_BOOLEAN name _ => name
  | bake_project_attr.BAKE_ATTR_ARRAY name _ => name

/-- The loop over the elements of a `sources`, `includes` or `use` array in
`bake_project_parseMember`; `add` is the accumulator of the member.  An
element that is not a string makes `json_value_get_string` return NULL, which
`bake_project_replace` hands to `strchr`; a failed expansion hands NULL to the
accumulator: both are undefined, as is an expansion that is undefined itself. -/
def bake_project_parseMember_array (corto_id_size : Nat)
    (corto_locate : CStr → corto_locate_kind → Option CStr)
    (package_id : CStr) (add : bake_project → CStr → bake_project) :
    List JSON_Value → bake_project → Option bake_project
  | [], p => some p
  | v :: rest, p =>
    match json_value_get_string v with
    | none => none
    | some str =>
      match bake_project_replace corto_id_size corto_locate p package_id str with
      | none => none
      | some none => none
      | some (some src) =>
        bake_project_parseMember_array corto_id_size corto_locate package_id add rest
          (add p src)

/-- `bake_project_parseMember`.  The C function tests the name against each
recognized name in turn; the names differ, so at most one test holds. -/
def bake_project_parseMember (corto_id_size : Nat)
    (corto_locate : CStr → corto_locate_kind → Option CStr)
    (p : bake_project) (package_id : CStr) (name : CStr) (v : JSON_Value) :
    Option (bake_project × Int) :=
  if name = "language".toList then
    match v with
    | JSON_Value.JSONString string =>
      some ({ p with language := if string = "none".toList then none else some string }, 0)
    | _ => some (p, -1)
  else if name = "version".toList then
    match v with
    | JSON_Value.JSONString string => some ({ p with version := some string }, 0)
    | _ => some (p, -1)
  else if name = "managed".toList then
    match v with
    | JSON_Value.JSONBoolean boolean => some ({ p with managed := boolean }, 0)
    | _ => some (p, -1)
  else if name = "public".toList then
    match v with
    | JSON_Value.JSONBoolean boolean => some ({ p with is_public := boolean }, 0)
    | _ => some (p, -1)
  else if name = "sources".toList then
    match v with
    | JSON_Value.JSONArray a =>
      (bake_project_parseMember_array corto_id_size corto_locate package_id bake_project_addSource a p).map
        (fun p1 => (p1, 0))
    | _ => some (p, 0)
  else if name = "includes".toList then
    match v with
    | JSON_Value.JSONArray a =>
      (bake_project_parseMember_array corto_id_size corto_locate package_id bake_project_addInclude a p).map
        (fun p1 => (p1, 0))
    | _ => some (p, 0)
  else if name = "use".toList then
    match v with
    | JSON_Value.JSONArray a =>
      (bake_project_parseMember_array corto_id_size corto_locate package_id bake_project_use a p).map
        (fun p1 => (p1, 0))
    | _ => some (p, 0)
  else if name = "use_generated_api".toList then
    match v with
    | JSON_Value.JSONBoolean boolean => some ({ p with use_generated_api := boolean }, 0)
    | _ => some (p, -1)
  else some (p, 0)

/-- The `for` loop of `bake_project_parseMembers` over the remaining members.
`json_serialize_to_string` (parson) is a parameter. -/
def bake_project_parseMembers_loop (corto_id_size : Nat)
    (corto_locate : CStr → corto_locate_kind → Option CStr)
    (json_serialize_to_string : JSON_Value → Option CStr) (package_id : CStr) :
    List (CStr × JSON_Value) → bake_project → Option (bake_project × Int)
  | [], p => some (p, 0)
  | m :: rest, p =>
    let r : Option (bake_project × Int) :=
      if m.1 = "dependee".toList then
        some ({ p with dependee_json := json_serialize_to_string m.2 }, 0)
      else bake_project_parseMember corto_id_size corto_locate p package_id m.1 m.2
    match r with
    | none => none
    | some (p1, status) =>
      if status ≠ 0 then some (p1, -1)
      else
        match bake_project_parseValue corto_id_size corto_locate p1 package_id m.2 with
        | none => none
        | some attr =>
          let p2 : bake_project :=
            match attr with
            | some attr => { p1 with attributes := p1.attributes ++ [attr.set_name m.1] }
            | none => p1
          bake_project_parseMembers_loop corto_id_size corto_locate json_serialize_to_string
            package_id rest p2

/-- `bake_project_parseMembers`. -/
def bake_project_parseMembers (corto_id_size : Nat)
    (corto_locate : CStr → corto_locate_kind → Option CStr)
    (json_serialize_to_string : JSON_Value → Option CStr)
    (p : bake_project) (package_id : CStr) (jo : List (CStr × JSON_Value)) :
    Option (bake_project × Int) :=
  bake_project_parseMembers_loop corto_id_size corto_locate json_serialize_to_string package_id jo p

/-- The `strcmp` chain of `bake_project_parseConfig` on the `type` member
(lines 439-445): another string leaves the kind as it is. -/
def bake_project_parseConfig_kind (p : bake_project) (j_type_member : CStr) : bake_project :=
  if j_type_member = "application".toList then
    { p with kind := bake_project_kind.BAKE_APPLICATION }
  else if j_type_member = "package".toList then
    { p with kind := bake_project_kind.BAKE_PACKAGE }
  else if j_type_member = "tool".toList then
    { p with kind := bake_project_kind.BAKE_TOOL }
  else p

/-- `bake_project_parseConfig`.  `project_json` is what the file system holds:
`none` when there is no `project.json`, `some none` when `json_parse_file`
fails on it, and the parsed value otherwise. -/
def bake_project_parseConfig (corto_id_size : Nat)
    (corto_locate : CStr → corto_locate_kind → Option CStr)
    (json_serialize_to_string : JSON_Value → Option CStr)
    (project_json : Option (Option JSON_Value)) (p : bake_project) :
    Option (bake_project × Int) :=
  match project_json with
  | none => some ({ p with freshly_baked := true }, 0)
  | some none => some (p, -1)
  | some (some j) =>
    match json_value_get_object j with
    | none => some (p, -1)
    | some jo =>
      match json_object_get_string jo "id".toList with
      | none => some (p, -1)
      | some j_id_member =>
        let p1 : bake_project := { p with id := some j_id_member }
        match json_object_get_string jo "type".toList with
        | none => some (p1, -1)
        | some j_type_member =>
          let p2 : bake_project := bake_project_parseConfig_kind p1 j_type_member
          match json_object_get_value jo "value".toList with
          | some j_value_member =>
            match json_value_get_object j_value_member with
            | none => some (p2, -1)
            | some jvo =>
              match bake_project_parseMembers corto_id_size corto_locate json_serialize_to_string p2
                  j_id_member jvo with
              | none => none
              | some (p3, status) => if status ≠ 0 then some (p3, -1) else some (p3, 0)
          | none => some (p2, 0)

/-- `bake_project_getattr`: the first attribute with the name, or NULL. -/
def bake_project_getattr (p : bake_project) (name : CStr) : Option bake_project_attr :=
  p.attributes.find? (fun attr => attr.name == some name)

/-- `strrchr(s, c)`: the pointer to the last `c` in `s`, or NULL. -/
def strrchr : CStr → Char → Option CStr
  | [], _ => none
  | x :: xs, c =>
    match strrchr xs c with
    | some r => some r
    | none => if x = c then some (x :: xs) else none

/-- `bake_project_modelFile`.  `dir` is the content of the current directory,
or `none` when `corto_dir_iter` fails.  The result is the project (with the
error flag set on failure) and the name of the first file that starts with
`model.`. -/
def bake_project_modelFile (dir : Option (List CStr)) (p : bake_project) :
    bake_project × Option CStr :=
  match dir with
  | none => ({ p with error := true }, none)
  | some files => (p, files.find? (fun file => file.take 6 == "model.".toList))

/-- The block `if (result->language && result->managed)` of `bake_project_new`
(lines 651-669); `none` is the `goto error`. -/
def bake_project_new_managed (dir : Option (List CStr)) (result : bake_project) :
    Option bake_project :=
  if result.language.isSome ∧ result.managed = true then
    let m := bake_project_modelFile dir result
    let r : bake_project := { m.1 with model := m.2 }
    match m.2 with
    | some model =>
      let r2 : bake_project :=
        match strrchr model '.' with
        | some ext =>
          { r with use_build := r.use_build ++ ["driver/ext/".toList ++ ext.drop 1] }
        | none => r
      some (bake_project_use
        { r2 with use_build := r2.use_build ++ ["driver/tool/pp".toList] } "corto".toList)
    | none =>
      if r.error then none
      else
        some (bake_project_use
          { r with use_build := r.use_build ++ ["driver/tool/pp".toList] } "corto".toList)
  else some result

/-- The end of `bake_project_new` (lines 671-681). -/
def bake_project_new_defaults (r3 : bake_project) : bake_project :=
  let r4 : bake_project :=
    if r3.use_generated_api then
      if r3.managed then bake_project_use r3 "corto/c".toList else r3
    else r3
  if r4.version.isNone then { r4 with version := some "0.0.0".toList } else r4

/-- The part of `bake_project_new` after the configuration was parsed (lines
651-681); `none` is the `goto error`. -/
def bake_project_new_finish (dir : Option (List CStr)) (result : bake_project) :
    Option bake_project :=
  (bake_project_new_managed dir result).map bake_project_new_defaults

/-- The project right after allocation and the default values of
`bake_project_new` (lines 617-638). -/
def bake_project_default (path : Option CStr) : bake_project :=
  { path := path, is_public := true, managed := true, use_generated_api := true,
    language := some "c".toList, error := false, freshly_baked := false,
    artefact_outdated := false, sources_outdated := false, built := false,
    includes := ["include".toList], sources := ["src".toList] }

/-- `bake_project_new`: `some none` is the NULL result, `none` undefined
behaviour during parsing. -/
def bake_project_new (corto_id_size : Nat)
    (corto_locate : CStr → corto_locate_kind → Option CStr)
    (json_serialize_to_string : JSON_Value → Option CStr)
    (project_json : Option (Option JSON_Value)) (dir : Option (List CStr))
    (path : Option CStr) : Option (Option bake_project) :=
  match bake_project_parseConfig corto_id_size corto_locate json_serialize_to_string project_json
      (bake_project_default path) with
  | none => none
  | some (result, status) =>
    if status ≠ 0 then some none
    else some (bake_project_new_finish dir result)

/-! ## Predicates used in the statements and invariants -/

/-- Every run of identifier characters in `s` is shorter than `corto_id`: an
identifier that the expander copies out of `s` fits the array together with
its terminator. -/
def bake_id_fit (corto_id_size : Nat) (s : CStr) : Prop :=
  ∀ pre run post, s = pre ++ (run ++ post) → run.all bake_id_char = true →
    run.length < corto_id_size

/-- The arguments that `bake_project_func_locate` knows. -/
def bake_locate_arguments : List CStr :=
  ["package".toList, "include".toList, "etc".toList, "env".toList, "lib".toList,
   "app".toList, "bin".toList]

/-- A placeholder body that the expander accepts: `locate`, one space, one of
the known arguments and the closing brace. -/
def bake_placeholder_ok (body : CStr) : Prop :=
  ∃ a rest, a ∈ bake_locate_arguments ∧ body = "locate".toList ++ ' ' :: (a ++ '}' :: rest)

/-- The dependency relation of a language: `b` is a member of the `deps` list
of the node `a`. -/
def bake_node_dep (l : bake_language) (a b : Nat) : Prop :=
  ∃ node, l.heap[a]? = some node ∧ b ∈ node.deps

/-- The dependency relation has a cycle. -/
def bake_language_cyclic (l : bake_language) : Prop :=
  ∃ a, Relation.TransGen (bake_node_dep l) a a

/-- The names that the source of a rule call refers to with a dollar token. -/
def bake_dsl_call.source_names : bake_dsl_call → List CStr
  | bake_dsl_call.rule _ (some source) _ _ =>
    ((strtok_tokens source).filter (fun t => t.head? = some '$')).map List.tail
  | _ => []

/-- The name that the target of a rule call refers to, if it is a pattern that
starts with a dollar sign. -/
def bake_dsl_call.target_names : bake_dsl_call → List CStr
  | bake_dsl_call.rule _ _ (bake_rule_target.BAKE_RULE_TARGET_PATTERN pat) _ =>
    if pat.head? = some '$' then [pat.tail] else []
  | _ => []

/-- A rule call that names itself in its source or as its target. -/
def bake_dsl_call.names_itself : bake_dsl_call → Bool
  | bake_dsl_call.rule name source target action =>
    decide (name ∈ (bake_dsl_call.rule name source target action).source_names) ||
    decide (name ∈ (bake_dsl_call.rule name source target action).target_names)
  | _ => false

/-- The call hands a string to the tokenizer wherever it reaches it: a rule
has a source that is not NULL, or a mapping target (which a NULL source turns
into an error before the tokenizer); the other calls do not tokenize. -/
def bake_dsl_call.sourced : bake_dsl_call → Bool
  | bake_dsl_call.rule _ source target _ => source.isSome || target.is_map
  | _ => true

/-- All dollar names of the sources of a call sequence. -/
def bake_dsl_sources : List bake_dsl_call → List CStr
  | [] => []
  | c :: cs => c.source_names ++ bake_dsl_sources cs

/-- All dollar names of the targets of a call sequence. -/
def bake_dsl_targets : List bake_dsl_call → List CStr
  | [] => []
  | c :: cs => c.target_names ++ bake_dsl_targets cs

/-- The name of the node a pointer refers to: `none` for a dangling pointer,
`some none` for an anonymous node. -/
def bake_heap_name (heap : List bake_node) (b : Nat) : Option (Option CStr) :=
  (heap[b]?).map (fun n => n.name)

/-- The shape of a dependency edge `a -> b`: a source edge to a node declared
before `a` whose name is in `S`, a source edge to an anonymous pattern, or a
target edge from a node whose name is in `T` to a node created after it. -/
def bake_edge_ok (S T : List CStr) (heap : List bake_node) (a b : Nat) : Prop :=
  (∃ x, bake_heap_name heap b = some (some x) ∧ x ∈ S ∧ b < a) ∨
  bake_heap_name heap b = some none ∨
  (∃ x, bake_heap_name heap a = some (some x) ∧ x ∈ T ∧ a < b)

/-- The invariant of graph assembly. -/
structure bake_graph_inv (S T : List CStr) (heap : List bake_node) (nodes : List Nat) :
    Prop where
  nodes_lt : ∀ e ∈ nodes, e < heap.length
  anon_sink : ∀ (b : Nat) (nb : bake_node), heap[b]? = some nb → nb.name = none → nb.deps = []
  edge : ∀ (a : Nat) (na : bake_node) (b : Nat), heap[a]? = some na → b ∈ na.deps →
    b < heap.length ∧ bake_edge_ok S T heap a b

/-- What the invariant asks of one DSL call: the dollar names of a rule source
are in `S` and those of a rule target in `T`, and neither is the name of the
rule itself. -/
def bake_call_ok (S T : List CStr) : bake_dsl_call → Prop
  | bake_dsl_call.rule name source target _ =>
    (∀ s, source = some s → ∀ tok ∈ strtok_tokens s, tok.head? = some '$' →
      tok.tail ∈ S ∧ tok.tail ≠ name) ∧
    (∀ pat, target = bake_rule_target.BAKE_RULE_TARGET_PATTERN pat → pat.head? = some '$' →
      pat.tail ∈ T ∧ pat.tail ≠ name)
  | _ => True

/-- Nodes whose name is used as a target. -/
def bake_node_upper (T : List CStr) (heap : List bake_node) (a : Nat) : Bool :=
  match bake_heap_name heap a with
  | some (some x) => decide (x ∈ T)
  | _ => false

/-- A measure that every dependency edge into a node with dependencies
decreases. -/
def bake_node_rank (T : List CStr) (heap : List bake_node) (a : Nat) : Nat :=
  if bake_node_upper T heap a then heap.length + (heap.length - a) else a

/-- The registry after a sequence of requests, each with the drivers that can
be loaded at that time; `none` when the behaviour of one of the requests is
undefined. -/
def bake_language_get_all (languages : List bake_language) :
    List ((CStr → Option bake_driver) × CStr) → Option (List bake_language)
  | [] => some languages
  | r :: rest =>
    match bake_language_get r.1 languages r.2 with
    | none => none
    | some x => bake_language_get_all x.2 rest

/-! ## Predicates of the seeded language (C21, C22) -/

/-- A node object without its dependency list: the part that wiring never
changes. -/
def bake_node_static (n : bake_node) : bake_node := { n with deps := [] }

/-- The unchanging part of the node a pointer refers to. -/
def bake_heap_static (heap : List bake_node) (e : Nat) : Option bake_node :=
  (heap[e]?).map bake_node_static

/-- A language with the two built-in nodes: the node list starts with two
pointers to Pattern nodes named ARTEFACT and DEFINITION, in that order. -/
def bake_language_rooted (l : bake_language) : Prop :=
  ∃ e0 e1 rest n0 n1, l.nodes = e0 :: e1 :: rest ∧
    l.heap[e0]? = some n0 ∧ l.heap[e1]? = some n1 ∧
    n0.kind = bake_rule_kind.BAKE_RULE_PATTERN ∧ n0.name = some "ARTEFACT".toList ∧
    n1.kind = bake_rule_kind.BAKE_RULE_PATTERN ∧ n1.name = some "DEFINITION".toList

/-- The node pointers of the language are valid, every node of the node list
has a name, and no two of them have the same name. -/
def bake_language_unique_names (l : bake_language) : Prop :=
  (∀ e ∈ l.nodes, e < l.heap.length) ∧
  (∀ e ∈ l.nodes, ∃ name, bake_heap_name l.heap e = some (some name)) ∧
  (l.nodes.map (bake_heap_name l.heap)).Nodup

/-! ## Sequences of accumulator calls (C28) -/

/-- One call of an accumulator of the project. -/
inductive bake_project_add_call where
  | addSource (source : CStr)
  | addInclude (incl : CStr)
  | use (use : CStr)

/-- The effect of one accumulator call. -/
def bake_project_add_apply (p : bake_project) : bake_project_add_call → bake_project
  | bake_project_add_call.addSource source => bake_project_addSource p source
  | bake_project_add_call.addInclude incl => bake_project_addInclude p incl
  | bake_project_add_call.use use => bake_project_use p use

/-- A sequence of accumulator calls, applied in order. -/
def bake_project_add_run (p : bake_project) (calls : List bake_project_add_call) :
    bake_project :=
  calls.foldl bake_project_add_apply p

/-! ## Closed languages and dependency paths (C24, C27) -/

/-- Every pointer of the language refers to an allocated node: the pointers of
the node list and those of the dependency lists. -/
def bake_language_closed (l : bake_language) : Prop :=
  (∀ e ∈ l.nodes, e < l.heap.length) ∧ ∀ node ∈ l.heap, ∀ b ∈ node.deps, b < l.heap.length

/-- The Filelist that `bake_node_eval` passes to the dependencies of a node:
the one it computes for the node, or else the inherited one. -/
def bake_node_eval_target (node : bake_node) (targets : Option bake_filelist) :
    Option bake_filelist :=
  let target_fl :=
    if node.kind = bake_rule_kind.BAKE_RULE_PATTERN then bake_node_eval_pattern node
    else if node.kind = bake_rule_kind.BAKE_RULE_RULE then bake_node_eval_rule node
    else none
  if target_fl.isNone then targets else target_fl

/-- Follows the words of the claim: a dependency path from a node is a
sequence of deps-list entries, each given by its position in the dependency
list of the node reached so far.  The result is the node at the end of the
path, or `none` when some position is not one of the list. -/
def bake_path_end (l : bake_language) : Nat → List Nat → Option Nat
  | a, [] => some a
  | a, i :: rest =>
    match l.heap[a]? with
    | none => none
    | some node =>
      match node.deps[i]? with
      | none => none
      | some b => bake_path_end l b rest

/-- The paths through the entries of a dependency list, entry by entry;
`paths_of b` are the paths from the node `b` and `k` is the position of the
first entry. -/
def bake_paths_deps (paths_of : Nat → List (List Nat)) : Nat → List Nat → List (List Nat)
  | _, [] => []
  | k, b :: bs => (paths_of b).map (fun rest => k :: rest) ++ bake_paths_deps paths_of (k + 1) bs

/-- The dependency paths from a node with fewer entries than the bound, the
empty path first and then the paths through each entry of the dependency
list, in list order. -/
def bake_paths (l : bake_language) : Nat → Nat → List (List Nat)
  | 0, _ => []
  | fuel + 1, a =>
    match l.heap[a]? with
    | none => []
    | some node => [] :: bake_paths_deps (bake_paths l fuel) 0 node.deps

/-! ## The dependency list of a rule, token by token (C23) -/

/-- Follows the words of the claim: the dependency list of a new rule and the
anonymous patterns allocated for it, token by token.  A token `$x` gives the
declared node named `x` (`lookup x`); any other token gives a fresh anonymous
Pattern whose pattern is the token, allocated at the pointer `fresh`; at the
first `$x` that does not resolve the list ends. -/
def bake_rule_deps_spec (lookup : CStr → Option Nat) : List CStr → Nat → List Nat × List bake_node
  | [], _ => ([], [])
  | tok :: rest, fresh =>
    if tok.head? = some '$' then
      match lookup tok.tail with
      | none => ([], [])
      | some dep =>
        (dep :: (bake_rule_deps_spec lookup rest fresh).1,
         (bake_rule_deps_spec lookup rest fresh).2)
    else
      (fresh :: (bake_rule_deps_spec lookup rest (fresh + 1)).1,
       bake_node.mk bake_rule_kind.BAKE_RULE_PATTERN none [] (some tok) none none none ::
         (bake_rule_deps_spec lookup rest (fresh + 1)).2)

/-! ## Attribute kinds (C25) -/

/-- Follows the words of the claim: the attribute kinds (`bake_project_attr_kind`)
and the kind that matches the type of a JSON value; objects and nulls have
none. -/
inductive bake_project_attr_kind where
  | BAKE_ATTR_STRING_KIND
  | BAKE_ATTR_NUMBER_KIND
  | BAKE_ATTR_BOOLEAN_KIND
  | BAKE_ATTR_ARRAY_KIND
  deriving DecidableEq, Repr

/-- The field `attr->kind`. -/
def bake_project_attr.kind : bake_project_attr → bake_project_attr_kind
  | bake_project_attr.BAKE_ATTR_STRING _ _ => bake_project_attr_kind.BAKE_ATTR_STRING_KIND
  | bake_project_attr.BAKE_ATTR_NUMBER _ _ => bake_project_attr_kind.BAKE_ATTR_NUMBER_KIND
  | bake_project_attr.BAKE_ATTR_BOOLEAN _ _ => bake_project_attr_kind.BAKE_ATTR_BOOLEAN_KIND
  | bake_project_attr.BAKE_ATTR_ARRAY _ _ => bake_project_attr_kind.BAKE_ATTR_ARRAY_KIND

/-- Follows the words of the claim: the attribute kind for the type of a JSON
value: one for a string, number, boolean or array, none for an object or
null. -/
def json_value_attr_kind : JSON_Value → Option bake_project_attr_kind
  | JSON_Value.JSONString _ => some bake_project_attr_kind.BAKE_ATTR_STRING_KIND
  | JSON_Value.JSONNumber _ => some bake_project_attr_kind.BAKE_ATTR_NUMBER_KIND
  | JSON_Value.JSONBoolean _ => some bake_project_attr_kind.BAKE_ATTR_BOOLEAN_KIND
  | JSON_Value.JSONArray _ => some bake_project_attr_kind.BAKE_ATTR_ARRAY_KIND
  | JSON_Value.JSONObject _ => none
  | JSON_Value.JSONNull => none

/-! ## The members of the value object (C26) -/

/-- The members of the `value` object of a descriptor; there is none when
there is no descriptor or no `value` object. -/
def bake_descriptor_members (project_json : Option (Option JSON_Value)) :
    List (CStr × JSON_Value) :=
  match project_json with
  | some (some (JSON_Value.JSONObject jo)) =>
    match json_object_get_value jo "value".toList with
    | some (JSON_Value.JSONObject jvo) => jvo
    | _ => []
  | _ => []

/-! ## Node lookup and redeclaration (C1) -/

/-- `bake_node_find` finds a node as soon as some node of `l->nodes` has the
name. -/
theorem bake_node_find_isSome (l : bake_language) (name : CStr)
    (h : ∃ e ∈ l.nodes, ∃ n, l.heap[e]? = some n ∧ n.name = some name) :
    (bake_node_find l name).isSome = true := by
  obtain ⟨e, he, n, hn, hname⟩ := h
  unfold bake_node_find
  rw [List.find?_isSome]
  exact ⟨e, he, by simp [bake_node_named, hn, hname]⟩

/-- C1: when `name` already belongs to a node of `l->nodes`, each of
`bake_language_pattern`, `bake_language_rule` and `bake_language_dependency_rule`
called with that name returns, sets the error latch and leaves the node list
and the heap, hence the dependency list of every existing node, unchanged. -/
theorem C1_redeclaration_rejected (l : bake_language) (name : CStr)
    (h : ∃ e ∈ l.nodes, ∃ n, l.heap[e]? = some n ∧ n.name = some name) :
    (∀ pattern, (bake_language_pattern l name pattern).error = true ∧
        (bake_language_pattern l name pattern).nodes = l.nodes ∧
        (bake_language_pattern l name pattern).heap = l.heap) ∧
    (∀ source target action, ∃ l2, bake_language_rule l name source target action = some l2 ∧
        l2.error = true ∧ l2.nodes = l.nodes ∧ l2.heap = l.heap) ∧
    (∀ deps dep_mapping action,
        (bake_language_dependency_rule l name deps dep_mapping action).error = true ∧
        (bake_language_dependency_rule l name deps dep_mapping action).nodes = l.nodes ∧
        (bake_language_dependency_rule l name deps dep_mapping action).heap = l.heap) := by
  have hf := bake_node_find_isSome l name h
  refine ⟨?_, ?_, ?_⟩
  · intro pattern
    simp [bake_language_pattern, hf]
  · intro source target action
    refine ⟨{ l with error := true }, ?_, rfl, rfl, rfl⟩
    unfold bake_language_rule
    by_cases hm : source.isNone = true ∧ target.is_map = true
    · rw [if_pos hm]
    · rw [if_neg hm, if_pos hf]
  · intro deps dep_mapping action
    simp [bake_language_dependency_rule, hf]

/-- Witness of C1: ARTEFACT is a node of the seeded language, and declaring
it again as a pattern latches the error. -/
theorem C1_witness :
    (∃ e ∈ bake_language_seed.nodes, ∃ n, bake_language_seed.heap[e]? = some n ∧
        n.name = some "ARTEFACT".toList) ∧
    (bake_language_pattern bake_language_seed "ARTEFACT".toList (some "*.o".toList)).error = true := by
  have h : ∃ e ∈ bake_language_seed.nodes, ∃ n, bake_language_seed.heap[e]? = some n ∧
        n.name = some "ARTEFACT".toList := ⟨0, by decide, _, rfl, rfl⟩
  exact ⟨h, ((C1_redeclaration_rejected bake_language_seed "ARTEFACT".toList h).1 _).1⟩

/-! ## Unresolved references (C2) -/

theorem bake_heap_name_modify (heap : List bake_node) (i d b : Nat) :
    bake_heap_name (heap.modify (fun n => { n with deps := n.deps ++ [d] }) i) b =
      bake_heap_name heap b := by
  unfold bake_heap_name
  rw [List.getElem?_modify]
  cases heap[b]? with
  | none => rfl
  | some n => by_cases h : i = b <;> simp [h]

theorem bake_heap_name_append (heap : List bake_node) (nd : bake_node) (b : Nat)
    (h : b < heap.length) : bake_heap_name (heap ++ [nd]) b = bake_heap_name heap b := by
  unfold bake_heap_name
  rw [List.getElem?_append_left h]

theorem bake_heap_name_new (heap : List bake_node) (nd : bake_node) :
    bake_heap_name (heap ++ [nd]) heap.length = some nd.name := by
  simp [bake_heap_name]

theorem bake_heap_name_lt (heap : List bake_node) (b : Nat) (x : Option CStr)
    (h : bake_heap_name heap b = some x) : b < heap.length := by
  unfold bake_heap_name at h
  by_contra hn
  rw [List.getElem?_eq_none (Nat.le_of_not_lt hn)] at h
  simp at h

/-- A node returned by `bake_node_find` is a member of `l->nodes` and has the
name that was looked up. -/
theorem bake_node_find_some (l : bake_language) (x : CStr) (e : Nat)
    (h : bake_node_find l x = some e) :
    e ∈ l.nodes ∧ bake_heap_name l.heap e = some (some x) := by
  unfold bake_node_find at h
  refine ⟨List.mem_of_find?_eq_some h, ?_⟩
  have hp := List.find?_some h
  unfold bake_node_named at hp
  unfold bake_heap_name
  cases hn : l.heap[e]? with
  | none => rw [hn] at hp; cases hp
  | some n =>
    rw [hn] at hp
    simp at hp
    simp [hp]

/-- `bake_node_find` returns NULL exactly when no node of `l->nodes` has the
name. -/
theorem bake_node_find_eq_none_iff (l : bake_language) (x : CStr) :
    bake_node_find l x = none ↔ ∀ e ∈ l.nodes, bake_heap_name l.heap e ≠ some (some x) := by
  unfold bake_node_find
  rw [List.find?_eq_none]
  constructor
  · intro h e he hname
    apply h e he
    unfold bake_node_named
    unfold bake_heap_name at hname
    cases hn : l.heap[e]? with
    | none => rw [hn] at hname; cases hname
    | some n =>
      rw [hn] at hname
      simp at hname
      simp [hname]
  · intro h e he hp
    apply h e he
    unfold bake_node_named at hp
    unfold bake_heap_name
    cases hn : l.heap[e]? with
    | none => rw [hn] at hp; cases hp
    | some n =>
      rw [hn] at hp
      simp at hp
      simp [hp]

/-- Source wiring changes neither `l->nodes`, nor the error latch, nor the
name of an existing node object. -/
theorem bake_node_addDependencies_loop_frame (n : Nat) :
    ∀ (tokens : List CStr) (l : bake_language),
      (bake_node_addDependencies_loop l n tokens).1.nodes = l.nodes ∧
      (bake_node_addDependencies_loop l n tokens).1.error = l.error ∧
      ∀ e, e < l.heap.length →
        bake_heap_name (bake_node_addDependencies_loop l n tokens).1.heap e =
          bake_heap_name l.heap e := by
  intro tokens
  induction tokens with
  | nil => intro l; exact ⟨rfl, rfl, fun _ _ => rfl⟩
  | cons tok rest ih =>
    intro l
    unfold bake_node_addDependencies_loop
    by_cases hd : tok.head? = some '$'
    · rw [if_pos hd]
      cases hf : bake_node_find l tok.tail with
      | none => exact ⟨rfl, rfl, fun _ _ => rfl⟩
      | some dep =>
        obtain ⟨h1, h2, h3⟩ := ih (bake_node_deps_append l n dep)
        refine ⟨h1, h2, fun e he => ?_⟩
        rw [h3 e (by simpa [bake_node_deps_append] using he)]
        simp only [bake_node_deps_append]
        exact bake_heap_name_modify _ _ _ _
    · rw [if_neg hd]
      obtain ⟨h1, h2, h3⟩ := ih (bake_node_deps_append (bake_pattern_new l none (some tok)).1 n
        (bake_pattern_new l none (some tok)).2)
      refine ⟨h1, h2, fun e he => ?_⟩
      rw [h3 e (by simp [bake_node_deps_append, bake_pattern_new]; omega)]
      simp only [bake_node_deps_append, bake_pattern_new]
      rw [bake_heap_name_modify]
      exact bake_heap_name_append _ _ _ he

/-- Source wiring returns `-1` when one of the tokens is a dollar reference
to a name that no node of `l->nodes` has. -/
theorem bake_node_addDependencies_loop_unresolved (n : Nat) (x : CStr) :
    ∀ (tokens : List CStr) (l : bake_language),
      (∀ e ∈ l.nodes, e < l.heap.length) →
      (∀ e ∈ l.nodes, bake_heap_name l.heap e ≠ some (some x)) →
      ('$' :: x) ∈ tokens →
      (bake_node_addDependencies_loop l n tokens).2 = -1 := by
  intro tokens
  induction tokens with
  | nil => intro l _ _ h; cases h
  | cons tok rest ih =>
    intro l hlt hname hmem
    unfold bake_node_addDependencies_loop
    by_cases hd : tok.head? = some '$'
    · rw [if_pos hd]
      cases hf : bake_node_find l tok.tail with
      | none => rfl
      | some dep =>
        have hne : tok ≠ '$' :: x := by
          intro e
          rw [e] at hf
          simp only [List.tail_cons] at hf
          rw [(bake_node_find_eq_none_iff l x).2 hname] at hf
          cases hf
        have hrest : ('$' :: x) ∈ rest := by
          rcases List.mem_cons.1 hmem with h | h
          · exact absurd h.symm hne
          · exact h
        apply ih (bake_node_deps_append l n dep) _ _ hrest
        · intro e he
          simpa [bake_node_deps_append] using hlt e he
        · intro e he
          simp only [bake_node_deps_append]
          rw [bake_heap_name_modify]
          exact hname e he
    · rw [if_neg hd]
      have hne : tok ≠ '$' :: x := by
        intro e
        rw [e] at hd
        exact hd rfl
      have hrest : ('$' :: x) ∈ rest := by
        rcases List.mem_cons.1 hmem with h | h
        · exact absurd h.symm hne
        · exact h
      apply ih _ _ _ hrest
      · intro e he
        have := hlt e he
        simp [bake_node_deps_append, bake_pattern_new]
        omega
      · intro e he
        simp only [bake_node_deps_append, bake_pattern_new]
        rw [bake_heap_name_modify, bake_heap_name_append _ _ _ (hlt e he)]
        exact hname e he

/-- Target wiring does not touch the error latch itself. -/
theorem bake_node_addToTarget_error (l : bake_language) (n : Nat) (target : bake_rule_target) :
    (bake_node_addToTarget l n target).1.error = l.error := by
  unfold bake_node_addToTarget
  cases target with
  | BAKE_RULE_TARGET_MAP m => rfl
  | BAKE_RULE_TARGET_PATTERN pat =>
    by_cases hd : pat.head? = some '$'
    · simp only [hd, ne_eq, not_true_eq_false, if_false]
      cases bake_node_find l pat.tail <;> rfl
    · simp only [hd, ne_eq, not_false_eq_true, if_true]

/-- `bake_language_rule` returns unless it is called with a new name, a NULL
source and a pattern target. -/
theorem bake_language_rule_isSome (l : bake_language) (name : CStr)
    (source : Option CStr) (target : bake_rule_target) (action : Nat) :
    (bake_language_rule l name source target action).isSome = true ↔
      (source.isSome = true ∨ target.is_map = true ∨
        (bake_node_find l name).isSome = true) := by
  unfold bake_language_rule
  by_cases hm : source.isNone = true ∧ target.is_map = true
  · rw [if_pos hm]
    simp [hm.2]
  · rw [if_neg hm]
    by_cases hf : (bake_node_find l name).isSome = true
    · rw [if_pos hf]
      simp [hf]
    · rw [if_neg hf]
      cases source with
      | none =>
        have hmap : target.is_map = false := by
          cases ht : target.is_map with
          | false => rfl
          | true => exact absurd ⟨rfl, ht⟩ hm
        simp [bake_node_addDependencies, hmap, hf]
      | some s => simp [bake_node_addDependencies]

/-- The steps of a call of `bake_language_rule` with a new name that returns:
the source is a string; the node is allocated and registered (`l1`), the
source is wired and the latch may be set (`l2`), the target is wired and the
latch may be set again. -/
theorem bake_language_rule_steps (l : bake_language) (name : CStr)
    (source : Option CStr) (target : bake_rule_target) (action : Nat) (l3 : bake_language)
    (h1 : ¬ (source.isNone = true ∧ target.is_map = true))
    (h2 : bake_node_find l name = none)
    (h : bake_language_rule l name source target action = some l3) :
    ∃ (s : CStr) (l1 l2 : bake_language),
      source = some s ∧
      l1 = (bake_node_add (bake_rule_new l name source target action).1
        (bake_rule_new l name source target action).2).1 ∧
      l2 = (if (bake_node_addDependencies_loop l1 l.heap.length (strtok_tokens s)).2 ≠ 0 then
          { (bake_node_addDependencies_loop l1 l.heap.length (strtok_tokens s)).1 with
            error := true }
        else (bake_node_addDependencies_loop l1 l.heap.length (strtok_tokens s)).1) ∧
      l3 = (if (bake_node_addToTarget l2 l.heap.length target).2 ≠ 0 then
          { (bake_node_addToTarget l2 l.heap.length target).1 with error := true }
        else (bake_node_addToTarget l2 l.heap.length target).1) := by
  unfold bake_language_rule at h
  rw [if_neg h1, h2] at h
  rw [if_neg (by simp)] at h
  cases source with
  | none => simp [bake_node_addDependencies] at h
  | some s =>
    simp only [bake_node_addDependencies] at h
    exact ⟨s, _, _, rfl, rfl, rfl, (Option.some.inj h).symm⟩

/-- A call of `bake_language_rule` with a source that is a string returns. -/
theorem bake_language_rule_defined (l : bake_language) (name s : CStr)
    (target : bake_rule_target) (action : Nat) :
    ∃ l3, bake_language_rule l name (some s) target action = some l3 := by
  have h := (bake_language_rule_isSome l name (some s) target action).2 (Or.inl rfl)
  cases hr : bake_language_rule l name (some s) target action with
  | none => rw [hr] at h; cases h
  | some l3 => exact ⟨l3, rfl⟩

/-- Apart from a reference of a rule to itself, a call of `bake_language_rule`
that returns has latched the error for every dollar reference that does not
resolve and for every target pattern without a dollar sign. -/
theorem bake_language_rule_unresolved (l : bake_language) (name : CStr)
    (source : Option CStr) (target : bake_rule_target) (action : Nat)
    (hwf : ∀ e ∈ l.nodes, e < l.heap.length)
    (h : (∃ s x, source = some s ∧ ('$' :: x) ∈ strtok_tokens s ∧ x ≠ name ∧
            bake_node_find l x = none) ∨
         (∃ x, target = bake_rule_target.BAKE_RULE_TARGET_PATTERN ('$' :: x) ∧ x ≠ name ∧
            bake_node_find l x = none) ∨
         (∃ pat, target = bake_rule_target.BAKE_RULE_TARGET_PATTERN pat ∧
            pat.head? ≠ some '$'))
    (l3 : bake_language)
    (hl3 : bake_language_rule l name source target action = some l3) :
    l3.error = true := by
  by_cases hm : source.isNone = true ∧ target.is_map = true
  · unfold bake_language_rule at hl3
    rw [if_pos hm] at hl3
    rw [← Option.some.inj hl3]
  · by_cases hf : (bake_node_find l name).isSome = true
    · unfold bake_language_rule at hl3
      rw [if_neg hm, if_pos hf] at hl3
      rw [← Option.some.inj hl3]
    · have hf2 : bake_node_find l name = none := by
        cases hx : bake_node_find l name with
        | none => rfl
        | some e => rw [hx] at hf; exact absurd rfl hf
      obtain ⟨s0, l1, l2, hs0, hl1, hl2, hl3e⟩ :=
        bake_language_rule_steps l name source target action l3 hm hf2 hl3
      have hnodes1 : l1.nodes = l.nodes ++ [l.heap.length] := by rw [hl1]; rfl
      have hheap1 : l1.heap = l.heap ++ [bake_node.mk bake_rule_kind.BAKE_RULE_RULE
          (some name) [] none source (some target) (some action)] := by rw [hl1]; rfl
      have hlen1 : l1.heap.length = l.heap.length + 1 := by rw [hheap1]; simp
      have hname1 : ∀ x, x ≠ name → bake_node_find l x = none →
          ∀ e ∈ l1.nodes, bake_heap_name l1.heap e ≠ some (some x) := by
        intro x hx hnone e he
        rw [hnodes1] at he
        rw [hheap1]
        rcases List.mem_append.1 he with he | he
        · rw [bake_heap_name_append _ _ _ (hwf e he)]
          exact (bake_node_find_eq_none_iff l x).1 hnone e he
        · simp at he
          rw [he, bake_heap_name_new]
          simp
          exact fun e2 => hx e2.symm
      have hlt1 : ∀ e ∈ l1.nodes, e < l1.heap.length := by
        intro e he
        rw [hlen1]
        rw [hnodes1] at he
        rcases List.mem_append.1 he with he | he
        · have := hwf e he; omega
        · simp at he; omega
      -- whatever the target wiring returns, a latched error stays
      have hkeep : ∀ (m : bake_language), m.error = true →
          (if (bake_node_addToTarget m l.heap.length target).2 ≠ 0 then
            { (bake_node_addToTarget m l.heap.length target).1 with error := true }
          else (bake_node_addToTarget m l.heap.length target).1).error = true := by
        intro m h2
        by_cases ht : (bake_node_addToTarget m l.heap.length target).2 ≠ 0
        · rw [if_pos ht]
        · rw [if_neg ht, bake_node_addToTarget_error, h2]
      have hframe2 : l2.nodes = l1.nodes ∧
          ∀ e, e < l1.heap.length → bake_heap_name l2.heap e = bake_heap_name l1.heap e := by
        obtain ⟨h1, _, h3⟩ :=
          bake_node_addDependencies_loop_frame l.heap.length (strtok_tokens s0) l1
        rw [hl2]
        split_ifs
        · exact ⟨h1, h3⟩
        · exact ⟨h1, h3⟩
      rw [hl3e]
      rcases h with ⟨s, x, hs, hx, hne, hnone⟩ | ⟨x, ht, hne, hnone⟩ | ⟨pat, ht, hd⟩
      · have hss : s0 = s := by
          rw [hs0] at hs
          exact Option.some.inj hs
        have hfail : (bake_node_addDependencies_loop l1 l.heap.length (strtok_tokens s0)).2 =
            -1 := by
          rw [hss]
          exact bake_node_addDependencies_loop_unresolved l.heap.length x (strtok_tokens s) l1
            hlt1 (hname1 x hne hnone) hx
        apply hkeep
        rw [hl2, hfail]
        rfl
      · have hnone2 : bake_node_find l2 x = none := by
          rw [bake_node_find_eq_none_iff]
          intro e he
          rw [hframe2.1] at he
          rw [hframe2.2 e (hlt1 e he)]
          exact hname1 x hne hnone e he
        have hfail : (bake_node_addToTarget l2 l.heap.length target).2 ≠ 0 := by
          subst ht
          simp [bake_node_addToTarget, hnone2]
        rw [if_pos hfail]
      · have hfail : (bake_node_addToTarget l2 l.heap.length target).2 ≠ 0 := by
          subst ht
          simp [bake_node_addToTarget, hd]
        rw [if_pos hfail]

/-- C2 (failing input): on the seeded language no node is named `a`, and the
call `rule("a", "$a", target_pattern("$ARTEFACT"), action)` has the source
token `$a`; yet the error latch stays clear.  The rule is registered before its
source is wired, so `$a` resolves to the rule itself, which becomes its own
dependency (node 2 depends on node 2). -/
theorem C2_self_reference_accepted :
    bake_node_find bake_language_seed "a".toList = none ∧
    ('$' :: "a".toList) ∈ strtok_tokens "$a".toList ∧
    (bake_language_rule bake_language_seed "a".toList (some "$a".toList)
      (bake_rule_target.BAKE_RULE_TARGET_PATTERN "$ARTEFACT".toList) 0).map
        (fun l => l.error) = some false ∧
    (bake_language_rule bake_language_seed "a".toList (some "$a".toList)
      (bake_rule_target.BAKE_RULE_TARGET_PATTERN "$ARTEFACT".toList) 0).map
        (fun l => (l.heap[2]?).map (fun n => n.deps)) = some (some [2]) := by
  decide

/-! ## Cycles of the dependency relation (C3) -/

theorem bake_edge_ok_append (S T : List CStr) (heap : List bake_node) (nd : bake_node)
    (a b : Nat) (ha : a < heap.length) (hb : b < heap.length)
    (h : bake_edge_ok S T heap a b) : bake_edge_ok S T (heap ++ [nd]) a b := by
  unfold bake_edge_ok at *
  rw [bake_heap_name_append heap nd a ha, bake_heap_name_append heap nd b hb]
  exact h

theorem bake_edge_ok_modify (S T : List CStr) (heap : List bake_node) (i d a b : Nat)
    (h : bake_edge_ok S T heap a b) :
    bake_edge_ok S T (heap.modify (fun n => { n with deps := n.deps ++ [d] }) i) a b := by
  unfold bake_edge_ok at *
  rw [bake_heap_name_modify, bake_heap_name_modify]
  exact h

/-- Allocating a node without dependencies keeps the invariant. -/
theorem bake_graph_inv_alloc (S T : List CStr) (heap : List bake_node) (nodes : List Nat)
    (nd : bake_node) (hnd : nd.deps = []) (h : bake_graph_inv S T heap nodes) :
    bake_graph_inv S T (heap ++ [nd]) nodes := by
  have hget : ∀ a na, (heap ++ [nd])[a]? = some na →
      (a < heap.length ∧ heap[a]? = some na) ∨ (a = heap.length ∧ na = nd) := by
    intro a na hna
    by_cases hlt : a < heap.length
    · rw [List.getElem?_append_left hlt] at hna
      exact Or.inl ⟨hlt, hna⟩
    · rw [List.getElem?_append_right (Nat.le_of_not_lt hlt)] at hna
      have : a - heap.length = 0 := by
        by_contra h0
        rw [List.getElem?_eq_none (by simp; omega)] at hna
        cases hna
      rw [this] at hna
      simp at hna
      exact Or.inr ⟨by omega, hna.symm⟩
  refine ⟨?_, ?_, ?_⟩
  · intro e he
    have := h.nodes_lt e he
    simp
    omega
  · intro b nb hb hname
    rcases hget b nb hb with ⟨_, h1⟩ | ⟨_, h1⟩
    · exact h.anon_sink b nb h1 hname
    · rw [h1]; exact hnd
  · intro a na b ha hb
    rcases hget a na ha with ⟨hlt, h1⟩ | ⟨_, h1⟩
    · obtain ⟨h2, h3⟩ := h.edge a na b h1 hb
      exact ⟨by simp; omega, bake_edge_ok_append S T heap nd a b hlt h2 h3⟩
    · rw [h1, hnd] at hb
      cases hb

/-- Registering an allocated node in `l->nodes` keeps the invariant. -/
theorem bake_graph_inv_add (S T : List CStr) (heap : List bake_node) (nodes : List Nat)
    (n : Nat) (hn : n < heap.length) (h : bake_graph_inv S T heap nodes) :
    bake_graph_inv S T heap (nodes ++ [n]) := by
  refine ⟨?_, h.anon_sink, h.edge⟩
  intro e he
  rcases List.mem_append.1 he with he | he
  · exact h.nodes_lt e he
  · simp at he
    rw [he]; exact hn

/-- Appending an edge of one of the three shapes to the `deps` of a named
node keeps the invariant. -/
theorem bake_graph_inv_deps_append (S T : List CStr) (heap : List bake_node)
    (nodes : List Nat) (node dep : Nat) (x : CStr)
    (hnode : bake_heap_name heap node = some (some x)) (hdep : dep < heap.length)
    (hok : bake_edge_ok S T heap node dep) (h : bake_graph_inv S T heap nodes) :
    bake_graph_inv S T (heap.modify (fun n => { n with deps := n.deps ++ [dep] }) node)
      nodes := by
  have hget : ∀ a na, (heap.modify (fun n => { n with deps := n.deps ++ [dep] }) node)[a]? =
      some na → ∃ oa, heap[a]? = some oa ∧ na.name = oa.name ∧
        ((a = node ∧ na.deps = oa.deps ++ [dep]) ∨ (a ≠ node ∧ na.deps = oa.deps)) := by
    intro a na hna
    rw [List.getElem?_modify] at hna
    cases hoa : heap[a]? with
    | none => rw [hoa] at hna; simp at hna
    | some oa =>
      rw [hoa] at hna
      simp at hna
      refine ⟨oa, rfl, ?_, ?_⟩
      · by_cases hi : node = a <;> simp [hi] at hna <;> rw [← hna]
      · by_cases hi : node = a
        · simp [hi] at hna
          exact Or.inl ⟨hi.symm, by rw [← hna]⟩
        · simp [hi] at hna
          exact Or.inr ⟨fun e => hi e.symm, by rw [← hna]⟩
  refine ⟨?_, ?_, ?_⟩
  · intro e he
    have := h.nodes_lt e he
    simpa using this
  · intro b nb hb hname
    obtain ⟨ob, h1, h2, h3⟩ := hget b nb hb
    rcases h3 with ⟨h4, _⟩ | ⟨_, h5⟩
    · exfalso
      unfold bake_heap_name at hnode
      rw [← h4, h1] at hnode
      simp at hnode
      rw [← h2, hname] at hnode
      cases hnode
    · rw [h5]
      exact h.anon_sink b ob h1 (by rw [← h2]; exact hname)
  · intro a na b ha hb
    obtain ⟨oa, h1, _, h3⟩ := hget a na ha
    have hold : b ∈ oa.deps → b < (heap.modify (fun n => { n with deps := n.deps ++ [dep] })
        node).length ∧ bake_edge_ok S T
          (heap.modify (fun n => { n with deps := n.deps ++ [dep] }) node) a b := by
      intro hm
      obtain ⟨h4, h5⟩ := h.edge a oa b h1 hm
      exact ⟨by simpa using h4, bake_edge_ok_modify S T heap node dep a b h5⟩
    rcases h3 with ⟨h4, h5⟩ | ⟨_, h5⟩
    · rw [h5] at hb
      rcases List.mem_append.1 hb with hb | hb
      · exact hold hb
      · simp at hb
        rw [hb, h4]
        exact ⟨by simpa using hdep, bake_edge_ok_modify S T heap node dep node dep hok⟩
    · rw [h5] at hb
      exact hold hb

theorem bake_node_addDependencies_loop_inv (S T : List CStr) (name : CStr) (n : Nat) :
    ∀ (tokens : List CStr) (l : bake_language),
      bake_graph_inv S T l.heap l.nodes →
      bake_heap_name l.heap n = some (some name) →
      (∀ e ∈ l.nodes, e ≤ n) →
      (∀ tok ∈ tokens, tok.head? = some '$' → tok.tail ∈ S ∧ tok.tail ≠ name) →
      bake_graph_inv S T (bake_node_addDependencies_loop l n tokens).1.heap
          (bake_node_addDependencies_loop l n tokens).1.nodes ∧
        (bake_node_addDependencies_loop l n tokens).1.nodes = l.nodes ∧
        bake_heap_name (bake_node_addDependencies_loop l n tokens).1.heap n =
          some (some name) := by
  intro tokens
  induction tokens with
  | nil => intro l h1 h2 _ _; exact ⟨h1, rfl, h2⟩
  | cons tok rest ih =>
    intro l h1 h2 h3 h4
    have hrest : ∀ t ∈ rest, t.head? = some '$' → t.tail ∈ S ∧ t.tail ≠ name :=
      fun t ht => h4 t (by simp [ht])
    unfold bake_node_addDependencies_loop
    by_cases hd : tok.head? = some '$'
    · rw [if_pos hd]
      cases hf : bake_node_find l tok.tail with
      | none => exact ⟨h1, rfl, h2⟩
      | some dep =>
        obtain ⟨hmem, hname⟩ := bake_node_find_some l tok.tail dep hf
        obtain ⟨hS, hne⟩ := h4 tok (by simp) hd
        have hlt : dep < n := by
          have hle := h3 dep hmem
          rcases Nat.lt_or_eq_of_le hle with h | h
          · exact h
          · exfalso
            rw [h, h2] at hname
            simp at hname
            exact hne hname.symm
        have hinv := bake_graph_inv_deps_append S T l.heap l.nodes n dep name h2
          (h1.nodes_lt dep hmem) (Or.inl ⟨tok.tail, hname, hS, hlt⟩) h1
        have := ih (bake_node_deps_append l n dep) hinv
          (by simp only [bake_node_deps_append]; rw [bake_heap_name_modify]; exact h2)
          h3 hrest
        exact this
    · rw [if_neg hd]
      have hn : n < l.heap.length := bake_heap_name_lt _ _ _ h2
      have hinv1 := bake_graph_inv_alloc S T l.heap l.nodes
        (bake_node.mk bake_rule_kind.BAKE_RULE_PATTERN none [] (some tok) none none none) rfl h1
      have hname1 : bake_heap_name (l.heap ++
          [bake_node.mk bake_rule_kind.BAKE_RULE_PATTERN none [] (some tok) none none none]) n
          = some (some name) := by
        rw [bake_heap_name_append _ _ _ hn]; exact h2
      have hinv := bake_graph_inv_deps_append S T _ l.nodes n l.heap.length name hname1
        (by simp) (Or.inr (Or.inl (bake_heap_name_new _ _))) hinv1
      have := ih (bake_node_deps_append (bake_pattern_new l none (some tok)).1 n
          (bake_pattern_new l none (some tok)).2) hinv
        (by simp only [bake_node_deps_append, bake_pattern_new]
            rw [bake_heap_name_modify]; exact hname1)
        h3 hrest
      exact this

theorem bake_node_addToTarget_inv (S T : List CStr) (name : CStr) (n : Nat)
    (target : bake_rule_target) (l : bake_language)
    (h1 : bake_graph_inv S T l.heap l.nodes)
    (h2 : bake_heap_name l.heap n = some (some name))
    (h3 : ∀ e ∈ l.nodes, e ≤ n)
    (h4 : ∀ pat, target = bake_rule_target.BAKE_RULE_TARGET_PATTERN pat →
      pat.head? = some '$' → pat.tail ∈ T ∧ pat.tail ≠ name) :
    bake_graph_inv S T (bake_node_addToTarget l n target).1.heap
        (bake_node_addToTarget l n target).1.nodes := by
  unfold bake_node_addToTarget
  cases target with
  | BAKE_RULE_TARGET_MAP m => exact h1
  | BAKE_RULE_TARGET_PATTERN pat =>
    by_cases hd : pat.head? = some '$'
    · simp only [hd, ne_eq, not_true_eq_false, if_false]
      cases hf : bake_node_find l pat.tail with
      | none => exact h1
      | some t =>
        obtain ⟨hmem, hname⟩ := bake_node_find_some l pat.tail t hf
        obtain ⟨hT, hne⟩ := h4 pat rfl hd
        have hlt : t < n := by
          have hle := h3 t hmem
          rcases Nat.lt_or_eq_of_le hle with h | h
          · exact h
          · exfalso
            rw [h, h2] at hname
            simp at hname
            exact hne hname.symm
        exact bake_graph_inv_deps_append S T l.heap l.nodes t n pat.tail hname
          (bake_heap_name_lt _ _ _ h2) (Or.inr (Or.inr ⟨pat.tail, hname, hT, hlt⟩)) h1
    · simp only [hd, ne_eq, not_false_eq_true, if_true]
      exact h1

theorem bake_language_rule_inv (S T : List CStr) (l : bake_language) (name : CStr)
    (source : Option CStr) (target : bake_rule_target) (action : Nat)
    (h : bake_graph_inv S T l.heap l.nodes)
    (hok : bake_call_ok S T (bake_dsl_call.rule name source target action))
    (l3 : bake_language)
    (hl3 : bake_language_rule l name source target action = some l3) :
    bake_graph_inv S T l3.heap l3.nodes := by
  by_cases hm : source.isNone = true ∧ target.is_map = true
  · unfold bake_language_rule at hl3
    rw [if_pos hm] at hl3
    rw [← Option.some.inj hl3]
    exact h
  · by_cases hf : (bake_node_find l name).isSome = true
    · unfold bake_language_rule at hl3
      rw [if_neg hm, if_pos hf] at hl3
      rw [← Option.some.inj hl3]
      exact h
    · have hf2 : bake_node_find l name = none := by
        cases hx : bake_node_find l name with
        | none => rfl
        | some e => rw [hx] at hf; exact absurd rfl hf
      obtain ⟨s, l1, l2, hs, hl1, hl2, hl3e⟩ :=
        bake_language_rule_steps l name source target action l3 hm hf2 hl3
      obtain ⟨hsrc, htgt⟩ := hok
      have hinv1 : bake_graph_inv S T l1.heap l1.nodes := by
        rw [hl1]
        simp only [bake_node_add, bake_rule_new]
        exact bake_graph_inv_add S T _ _ _ (by simp)
          (bake_graph_inv_alloc S T l.heap l.nodes _ rfl h)
      have hname1 : bake_heap_name l1.heap l.heap.length = some (some name) := by
        rw [hl1]
        simp only [bake_node_add, bake_rule_new]
        exact bake_heap_name_new _ _
      have hle1 : ∀ e ∈ l1.nodes, e ≤ l.heap.length := by
        rw [hl1]
        simp only [bake_node_add, bake_rule_new]
        intro e he
        rcases List.mem_append.1 he with he | he
        · exact Nat.le_of_lt (h.nodes_lt e he)
        · simp at he; omega
      obtain ⟨hinv2, hnodes2, hname2⟩ := bake_node_addDependencies_loop_inv S T name
        l.heap.length (strtok_tokens s) l1 hinv1 hname1 hle1 (hsrc s hs)
      have hfinal : bake_graph_inv S T (bake_node_addToTarget l2 l.heap.length target).1.heap
            (bake_node_addToTarget l2 l.heap.length target).1.nodes := by
        have e1 : l2.heap =
            (bake_node_addDependencies_loop l1 l.heap.length (strtok_tokens s)).1.heap := by
          rw [hl2]; split_ifs <;> rfl
        have e2 : l2.nodes =
            (bake_node_addDependencies_loop l1 l.heap.length (strtok_tokens s)).1.nodes := by
          rw [hl2]; split_ifs <;> rfl
        apply bake_node_addToTarget_inv S T name l.heap.length target l2
        · rw [e1, e2]; exact hinv2
        · rw [e1]; exact hname2
        · rw [e2, hnodes2]; exact hle1
        · exact htgt
      rw [hl3e]
      by_cases ht : (bake_node_addToTarget l2 l.heap.length target).2 ≠ 0
      · rw [if_pos ht]; exact hfinal
      · rw [if_neg ht]; exact hfinal

theorem bake_language_pattern_inv (S T : List CStr) (l : bake_language) (name : CStr)
    (pattern : Option CStr) (h : bake_graph_inv S T l.heap l.nodes) :
    bake_graph_inv S T (bake_language_pattern l name pattern).heap
      (bake_language_pattern l name pattern).nodes := by
  unfold bake_language_pattern
  by_cases hf : (bake_node_find l name).isSome = true
  · rw [if_pos hf]; exact h
  · rw [if_neg hf]
    simp only [bake_node_add, bake_pattern_new]
    exact bake_graph_inv_add S T _ _ _ (by simp)
      (bake_graph_inv_alloc S T l.heap l.nodes _ rfl h)

theorem bake_language_dependency_rule_inv (S T : List CStr) (l : bake_language) (name : CStr)
    (deps : Option CStr) (dep_mapping : bake_rule_target) (action : Nat)
    (h : bake_graph_inv S T l.heap l.nodes) :
    bake_graph_inv S T (bake_language_dependency_rule l name deps dep_mapping action).heap
      (bake_language_dependency_rule l name deps dep_mapping action).nodes := by
  unfold bake_language_dependency_rule
  by_cases hf : (bake_node_find l name).isSome = true
  · rw [if_pos hf]; exact h
  · rw [if_neg hf]
    simp only [bake_node_add, bake_dependency_rule_new]
    exact bake_graph_inv_add S T _ _ _ (by simp)
      (bake_graph_inv_alloc S T l.heap l.nodes _ rfl h)

/-- Every DSL call that respects `S` and `T` and returns keeps the
invariant. -/
theorem bake_dsl_apply_inv (S T : List CStr) (l : bake_language) (c : bake_dsl_call)
    (h : bake_graph_inv S T l.heap l.nodes) (hc : bake_call_ok S T c)
    (l1 : bake_language) (hl1 : bake_dsl_apply l c = some l1) :
    bake_graph_inv S T l1.heap l1.nodes := by
  cases c with
  | pattern name pattern =>
    rw [← Option.some.inj hl1]
    exact bake_language_pattern_inv S T l name pattern h
  | rule name source target action =>
    exact bake_language_rule_inv S T l name source target action h hc l1 hl1
  | dependency_rule name deps dep_mapping action =>
    rw [← Option.some.inj hl1]
    exact bake_language_dependency_rule_inv S T l name deps dep_mapping action h
  | artefact cb =>
    rw [← Option.some.inj hl1]
    exact h

/-- The first call of a sequence that returns has returned, and the rest of
the sequence was run from its result. -/
theorem bake_dsl_run_cons (l l2 : bake_language) (c : bake_dsl_call)
    (rest : List bake_dsl_call) (h : bake_dsl_run l (c :: rest) = some l2) :
    ∃ l1, bake_dsl_apply l c = some l1 ∧ bake_dsl_run l1 rest = some l2 := by
  unfold bake_dsl_run at h
  cases h1 : bake_dsl_apply l c with
  | none => rw [h1] at h; cases h
  | some l1 => rw [h1] at h; exact ⟨l1, rfl, h⟩

/-- Every sequence of DSL calls that respects `S` and `T` and returns keeps
the invariant. -/
theorem bake_dsl_run_inv (S T : List CStr) :
    ∀ (calls : List bake_dsl_call) (l : bake_language),
      bake_graph_inv S T l.heap l.nodes → (∀ c ∈ calls, bake_call_ok S T c) →
      ∀ l2, bake_dsl_run l calls = some l2 → bake_graph_inv S T l2.heap l2.nodes := by
  intro calls
  induction calls with
  | nil =>
    intro l h _ l2 hl2
    rw [← Option.some.inj hl2]
    exact h
  | cons c rest ih =>
    intro l h hok l2 hl2
    obtain ⟨l1, h1, h2⟩ := bake_dsl_run_cons l l2 c rest hl2
    exact ih l1 (bake_dsl_apply_inv S T l c h (hok c (by simp)) l1 h1)
      (fun c1 hc1 => hok c1 (by simp [hc1])) l2 h2

/-- A sequence of DSL calls in which every rule has a source string or a
mapping target returns. -/
theorem bake_dsl_run_defined :
    ∀ (calls : List bake_dsl_call) (l : bake_language),
      (∀ c ∈ calls, c.sourced = true) → ∃ l2, bake_dsl_run l calls = some l2 := by
  intro calls
  induction calls with
  | nil => intro l _; exact ⟨l, rfl⟩
  | cons c rest ih =>
    intro l h
    have hc := h c (by simp)
    have hstep : ∃ l1, bake_dsl_apply l c = some l1 := by
      cases c with
      | pattern name pattern => exact ⟨_, rfl⟩
      | dependency_rule name deps dep_mapping action => exact ⟨_, rfl⟩
      | artefact cb => exact ⟨_, rfl⟩
      | rule name source target action =>
        simp only [bake_dsl_call.sourced, Bool.or_eq_true] at hc
        have h2 := (bake_language_rule_isSome l name source target action).2
          (by rcases hc with hc | hc
              · exact Or.inl hc
              · exact Or.inr (Or.inl hc))
        cases hr : bake_language_rule l name source target action with
        | none => rw [hr] at h2; cases h2
        | some l1 => exact ⟨l1, hr⟩
    obtain ⟨l1, hl1⟩ := hstep
    obtain ⟨l2, hl2⟩ := ih l1 (fun c1 hc1 => h c1 (by simp [hc1]))
    refine ⟨l2, ?_⟩
    unfold bake_dsl_run
    rw [hl1]
    exact hl2

theorem bake_language_seed_inv (S T : List CStr) :
    bake_graph_inv S T bake_language_seed.heap bake_language_seed.nodes := by
  unfold bake_language_seed
  apply bake_language_pattern_inv
  apply bake_language_pattern_inv
  exact ⟨by simp [bake_language_alloc], by simp [bake_language_alloc],
    by simp [bake_language_alloc]⟩

theorem bake_dsl_sources_mem (calls : List bake_dsl_call) (c : bake_dsl_call) (x : CStr)
    (hc : c ∈ calls) (hx : x ∈ c.source_names) : x ∈ bake_dsl_sources calls := by
  induction calls with
  | nil => cases hc
  | cons d ds ih =>
    simp only [bake_dsl_sources, List.mem_append]
    rcases List.mem_cons.1 hc with h | h
    · exact Or.inl (h ▸ hx)
    · exact Or.inr (ih h)

theorem bake_dsl_targets_mem (calls : List bake_dsl_call) (c : bake_dsl_call) (x : CStr)
    (hc : c ∈ calls) (hx : x ∈ c.target_names) : x ∈ bake_dsl_targets calls := by
  induction calls with
  | nil => cases hc
  | cons d ds ih =>
    simp only [bake_dsl_targets, List.mem_append]
    rcases List.mem_cons.1 hc with h | h
    · exact Or.inl (h ▸ hx)
    · exact Or.inr (ih h)

theorem bake_call_ok_of_mem (calls : List bake_dsl_call) (c : bake_dsl_call)
    (hc : c ∈ calls) (hself : c.names_itself = false) :
    bake_call_ok (bake_dsl_sources calls) (bake_dsl_targets calls) c := by
  cases c with
  | pattern name pattern => trivial
  | dependency_rule name deps dep_mapping action => trivial
  | artefact cb => trivial
  | rule name source target action =>
    simp only [bake_dsl_call.names_itself, Bool.or_eq_false_iff, decide_eq_false_iff_not]
      at hself
    refine ⟨?_, ?_⟩
    · intro s hs tok htok hd
      have hmem : tok.tail ∈ (bake_dsl_call.rule name source target action).source_names := by
        subst hs
        simp only [bake_dsl_call.source_names, List.mem_map, List.mem_filter]
        exact ⟨tok, ⟨htok, by simp [hd]⟩, rfl⟩
      exact ⟨bake_dsl_sources_mem calls _ _ hc hmem, fun e => hself.1 (e ▸ hmem)⟩
    · intro pat hp hd
      have hmem : pat.tail ∈ (bake_dsl_call.rule name source target action).target_names := by
        subst hp
        simp [bake_dsl_call.target_names, hd]
      exact ⟨bake_dsl_targets_mem calls _ _ hc hmem, fun e => hself.2 (e ▸ hmem)⟩

/-- Along a dependency edge the rank decreases, unless the edge ends in a
node without dependencies. -/
theorem bake_node_rank_edge (S T : List CStr) (l : bake_language)
    (h : bake_graph_inv S T l.heap l.nodes) (hdisj : ∀ x ∈ S, x ∉ T) (a b : Nat)
    (hab : bake_node_dep l a b) :
    bake_node_rank T l.heap b < bake_node_rank T l.heap a ∨
      ∃ nb, l.heap[b]? = some nb ∧ nb.deps = [] := by
  obtain ⟨na, hna, hb⟩ := hab
  obtain ⟨hblt, hok⟩ := h.edge a na b hna hb
  have halt : a < l.heap.length := by
    by_contra hn
    rw [List.getElem?_eq_none (Nat.le_of_not_lt hn)] at hna
    cases hna
  rcases hok with ⟨x, hx, hxS, hlt⟩ | hanon | ⟨x, hx, hxT, hlt⟩
  · left
    have hb0 : bake_node_upper T l.heap b = false := by
      simp [bake_node_upper, hx, hdisj x hxS]
    unfold bake_node_rank
    rw [hb0]
    by_cases hu : bake_node_upper T l.heap a = true
    · simp [hu]; omega
    · simp [hu]; exact hlt
  · right
    unfold bake_heap_name at hanon
    cases hnb : l.heap[b]? with
    | none => rw [hnb] at hanon; cases hanon
    | some nb =>
      rw [hnb] at hanon
      simp at hanon
      exact ⟨nb, rfl, h.anon_sink b nb hnb hanon⟩
  · left
    have ha1 : bake_node_upper T l.heap a = true := by
      simp [bake_node_upper, hx, hxT]
    unfold bake_node_rank
    rw [ha1]
    by_cases hu : bake_node_upper T l.heap b = true
    · simp [hu]; omega
    · simp [hu]; omega

theorem bake_node_rank_path (S T : List CStr) (l : bake_language)
    (h : bake_graph_inv S T l.heap l.nodes) (hdisj : ∀ x ∈ S, x ∉ T) (a b : Nat)
    (hab : Relation.TransGen (bake_node_dep l) a b) :
    bake_node_rank T l.heap b < bake_node_rank T l.heap a ∨
      ∃ nb, l.heap[b]? = some nb ∧ nb.deps = [] := by
  induction hab with
  | single h1 => exact bake_node_rank_edge S T l h hdisj a _ h1
  | tail h1 h2 ih =>
    rename_i c d
    have hc : bake_node_rank T l.heap c < bake_node_rank T l.heap a := by
      rcases ih with h3 | ⟨nc, hnc, hdeps⟩
      · exact h3
      · exfalso
        obtain ⟨nc2, hnc2, hmem⟩ := h2
        rw [hnc] at hnc2
        cases hnc2
        rw [hdeps] at hmem
        cases hmem
    rcases bake_node_rank_edge S T l h hdisj c d h2 with h3 | h3
    · exact Or.inl (Nat.lt_trans h3 hc)
    · exact Or.inr h3

theorem bake_node_dep_first (l : bake_language) (a b : Nat)
    (h : Relation.TransGen (bake_node_dep l) a b) : ∃ c, bake_node_dep l a c := by
  induction h with
  | single h1 => exact ⟨_, h1⟩
  | tail _ _ ih => exact ih

/-- Under the invariant, with `S` and `T` disjoint, the dependency relation
has no cycle. -/
theorem bake_graph_inv_acyclic (S T : List CStr) (l : bake_language)
    (h : bake_graph_inv S T l.heap l.nodes) (hdisj : ∀ x ∈ S, x ∉ T) :
    ¬ bake_language_cyclic l := by
  rintro ⟨a, ha⟩
  rcases bake_node_rank_path S T l h hdisj a a ha with h1 | ⟨na, hna, hdeps⟩
  · exact Nat.lt_irrefl _ h1
  · have hout : ∃ c, bake_node_dep l a c := bake_node_dep_first l a a ha
    obtain ⟨c, na2, hna2, hmem⟩ := hout
    rw [hna] at hna2
    cases hna2
    rw [hdeps] at hmem
    cases hmem

theorem strchr_eq_none_iff (s : CStr) (c : Char) : strchr s c = none ↔ c ∉ s := by
  induction s with
  | nil => simp [strchr]
  | cons x xs ih =>
    by_cases hx : x = c
    · simp [strchr, hx]
    · simp [strchr, hx, ih, Ne.symm hx]

/-- The pointer returned by `strchr` splits the string at the first
occurrence of the character. -/
theorem strchr_eq_some (s t : CStr) (c : Char) (h : strchr s c = some t) :
    ∃ pre t1, s = pre ++ t ∧ c ∉ pre ∧ t = c :: t1 := by
  induction s with
  | nil => simp [strchr] at h
  | cons x xs ih =>
    by_cases hx : x = c
    · simp [strchr, hx] at h
      exact ⟨[], xs, by simp [← h, hx], by simp, by simp [← h]⟩
    · simp [strchr, hx] at h
      obtain ⟨pre, t1, h1, h2, h3⟩ := ih h
      exact ⟨x :: pre, t1, by simp [h1], by simp [h2, Ne.symm hx], h3⟩

theorem cstr_between_append (pre t : CStr) : cstr_between (pre ++ t) t = pre := by
  simp [cstr_between]

theorem cstr_first_split (c : Char) (pre0 t1 pre x : CStr)
    (h : pre0 ++ c :: t1 = pre ++ c :: x) (hp : c ∉ pre0) :
    (pre0 = pre ∧ t1 = x) ∨ ∃ pre1, pre = pre0 ++ c :: pre1 ∧ t1 = pre1 ++ c :: x := by
  rcases List.append_eq_append_iff.1 h with ⟨a, ha, hb⟩ | ⟨a, ha, hb⟩
  · cases a with
    | nil => simp at ha hb; exact Or.inl ⟨ha.symm, hb⟩
    | cons y ys =>
      simp at hb
      exact Or.inr ⟨ys, by rw [ha, hb.1], hb.2⟩
  · cases a with
    | nil => simp at ha hb; exact Or.inl ⟨ha, hb.symm⟩
    | cons y ys =>
      simp at hb
      exact absurd (by rw [ha, ← hb.1]; simp) hp

theorem cstr_skip_split (c : Char) (x rest0 pre1 y : CStr)
    (h : x ++ rest0 = pre1 ++ c :: y) (hx : c ∉ x) :
    ∃ pre2, rest0 = pre2 ++ c :: y := by
  rcases List.append_eq_append_iff.1 h with ⟨a, _, hb⟩ | ⟨a, ha, hb⟩
  · exact ⟨a, hb⟩
  · cases a with
    | nil => exact ⟨[], by simpa using hb.symm⟩
    | cons z zs =>
      simp at hb
      exact absurd (by rw [ha, ← hb.1]; simp) hx

/-- A string is cut at its first delimiter in one way only. -/
theorem cstr_delim_unique (P : Char → Prop) :
    ∀ (x y r s : CStr) (d e : Char), (∀ c ∈ x, ¬ P c) → (∀ c ∈ y, ¬ P c) → P d → P e →
      x ++ d :: r = y ++ e :: s → x = y ∧ d = e ∧ r = s := by
  intro x
  induction x with
  | nil =>
    intro y r s d e _ hy hd _ h
    cases y with
    | nil => simp at h; exact ⟨rfl, h.1, h.2⟩
    | cons b y =>
      simp at h
      exact absurd (h.1 ▸ hd) (hy b (by simp))
  | cons a x ih =>
    intro y r s d e hx hy hd he h
    cases y with
    | nil =>
      simp at h
      exact absurd (h.1 ▸ he) (hx a (by simp))
    | cons b y =>
      simp at h
      obtain ⟨h1, h2, h3⟩ := ih y r s d e (fun c hc => hx c (by simp [hc]))
        (fun c hc => hy c (by simp [hc])) hd he h.2
      exact ⟨by rw [h.1, h1], h2, h3⟩

/-! ## The identifier buffers of the template expander -/

/-- The copy loop returns `true` only after it has copied all characters, and
`false` only for a character that is not allowed. -/
theorem bake_project_replace_copy_some (corto_id_size : Nat) :
    ∀ (id : CStr) (i : Nat) (b : Bool),
      bake_project_replace_copy corto_id_size id i = some b → id.all bake_id_char = b := by
  intro id
  induction id with
  | nil =>
    intro i b h
    unfold bake_project_replace_copy at h
    split_ifs at h
    simpa using h
  | cons c rest ih =>
    intro i b h
    unfold bake_project_replace_copy at h
    by_cases hc : bake_id_char c = false
    · rw [if_pos hc] at h
      rw [← Option.some.inj h]
      simp [hc]
    · rw [if_neg hc] at h
      by_cases hi : i < corto_id_size
      · rw [if_pos hi] at h
        have := ih _ _ h
        simp only [Bool.not_eq_false] at hc
        simp [hc, this]
      · rw [if_neg hi] at h
        cases h

/-- The copy loop stays inside the array when every run of identifier
characters at the start of the text is short enough. -/
theorem bake_project_replace_copy_fit (corto_id_size : Nat) :
    ∀ (id : CStr) (i : Nat),
      (∀ run post, id = run ++ post → run.all bake_id_char = true →
        i + run.length < corto_id_size) →
      bake_project_replace_copy corto_id_size id i = some (id.all bake_id_char) := by
  intro id
  induction id with
  | nil =>
    intro i h
    have hi := h [] [] rfl rfl
    unfold bake_project_replace_copy
    rw [if_pos (by simpa using hi)]
    rfl
  | cons c rest ih =>
    intro i h
    have hi := h [] (c :: rest) rfl rfl
    unfold bake_project_replace_copy
    by_cases hc : bake_id_char c = false
    · rw [if_pos hc]
      simp [hc]
    · rw [if_neg hc, if_pos (by simpa using hi)]
      simp only [Bool.not_eq_false] at hc
      rw [ih (i + 1) (fun run post he hr => by
        have := h (c :: run) post (by rw [he]; rfl) (by simp [hc, hr])
        simp only [List.length_cons] at this
        omega)]
      simp [hc]

theorem bake_id_fit_copy (corto_id_size : Nat) (s pre id post : CStr)
    (hfit : bake_id_fit corto_id_size s) (hs : s = pre ++ (id ++ post)) :
    bake_project_replace_copy corto_id_size id 0 = some (id.all bake_id_char) :=
  bake_project_replace_copy_fit corto_id_size id 0 (fun run post1 he hr => by
    have := hfit pre run (post1 ++ post) (by rw [hs, he, List.append_assoc]) hr
    omega)

theorem bake_id_fit_suffix (corto_id_size : Nat) (pre t : CStr)
    (h : bake_id_fit corto_id_size (pre ++ t)) : bake_id_fit corto_id_size t :=
  fun pre1 run post he hr => h (pre ++ pre1) run post (by rw [he, List.append_assoc]) hr

/-- A string that is shorter than `corto_id` holds short runs only. -/
theorem bake_id_fit_of_length (corto_id_size : Nat) (s : CStr)
    (h : s.length < corto_id_size) : bake_id_fit corto_id_size s :=
  fun pre run post he _ => by
    have := congrArg List.length he
    simp only [List.length_append] at this
    omega

/-! ## The template expander on concrete inputs (C4, C5) -/

/-- C4 (failing input): the text after the last placeholder is lost.  With
a location lookup that yields `/usr/lib` and a `corto_id` of 512 characters,
the input `${locate lib}/libx.so` expands to `/usr/lib`, not to
`/usr/lib/libx.so`. -/
theorem C4_trailing_text_dropped :
    bake_project_replace 512 (fun _ _ => some "/usr/lib".toList) {} "pk".toList
        (['$', '{'] ++ "locate lib".toList ++ ['}'] ++ "/libx.so".toList) =
      some (some "/usr/lib".toList) ∧
    bake_project_replace 512 (fun _ _ => some "/usr/lib".toList) {} "pk".toList
        (['$', '{'] ++ "locate lib".toList ++ ['}'] ++ "/libx.so".toList) ≠
      some (some "/usr/lib/libx.so".toList) := by
  decide

/-- C5 (failing input): the text before a bare dollar sign is copied twice.
The input `-I$HOME/include` holds no `${` and expands to `-I-I$HOME/include`. -/
theorem C5_bare_dollar_duplicates_text (corto_id_size : Nat)
    (corto_locate : CStr → corto_locate_kind → Option CStr) (p : bake_project)
    (package_id : CStr) :
    strchr "-I$HOME/include".toList '{' = none ∧
    bake_project_replace corto_id_size corto_locate p package_id "-I$HOME/include".toList =
      some (some "-I-I$HOME/include".toList) :=
  ⟨rfl, rfl⟩

/-! ## Accepted placeholders (C6, C7) -/

theorem bake_project_func_locate_some (corto_locate : CStr → corto_locate_kind → Option CStr)
    (p : bake_project) (package_id buffer argument out : CStr)
    (h : bake_project_func_locate corto_locate p package_id buffer argument = some out) :
    argument ∈ bake_locate_arguments ∧ ∃ v, out = buffer ++ v := by
  unfold bake_project_func_locate at h
  constructor
  · by_contra hn
    simp only [bake_locate_arguments, List.mem_cons, List.mem_singleton, not_or, List.not_mem_nil, or_false] at hn
    obtain ⟨h1, h2, h3, h4, h5, h6, h7⟩ := hn
    rw [if_neg h1, if_neg h2, if_neg h3, if_neg h4, if_neg h5, if_neg h6, if_neg h7] at h
    cases h
  · revert h
    generalize (if argument = "package".toList then _ else _ : Option CStr) = value
    intro h
    cases value with
    | none => simp at h
    | some v => exact ⟨v, by simpa using h.symm⟩

theorem bake_project_func_call_some (corto_locate : CStr → corto_locate_kind → Option CStr)
    (p : bake_project) (package_id buffer function argument out : CStr)
    (h : bake_project_func_call corto_locate p package_id buffer function argument = some out) :
    function = "locate".toList ∧ argument ∈ bake_locate_arguments ∧ ∃ v, out = buffer ++ v := by
  unfold bake_project_func_call at h
  by_cases hf : function = "locate".toList
  · rw [if_pos hf] at h
    exact ⟨hf, bake_project_func_locate_some _ _ _ _ _ _ h⟩
  · rw [if_neg hf] at h
    cases h

/-- When the placeholder branch succeeds, the text after the opening brace
is `locate`, a space, a known argument and the closing brace, and `func`
continues right after that brace. -/
theorem bake_project_replace_func_some (corto_id_size : Nat)
    (corto_locate : CStr → corto_locate_kind → Option CStr)
    (p : bake_project) (package_id body output func1 output1 : CStr)
    (h : bake_project_replace_func corto_id_size corto_locate p package_id
      ('$' :: '{' :: body) output = some (some (func1, output1))) :
    ∃ a v, a ∈ bake_locate_arguments ∧
      body = "locate".toList ++ ' ' :: (a ++ '}' :: func1) ∧ output1 = output ++ v := by
  unfold bake_project_replace_func at h
  have hs : strchr ('$' :: '{' :: body) ' ' = strchr body ' ' := by
    simp [strchr]
  simp only [hs, List.drop_succ_cons, List.drop_zero] at h
  cases he : strchr body ' ' with
  | none =>
    simp only [he] at h
    cases hfe : strchr body '}' with
    | none => simp [hfe] at h
    | some fe =>
      obtain ⟨f, fe1, hb, hf, hfe1⟩ := strchr_eq_some _ _ _ hfe
      subst hfe1
      simp only [hfe] at h
      simp only [List.head?_cons] at h
      cases hcp : bake_project_replace_copy corto_id_size
          (cstr_between body ('}' :: fe1)) 0 with
      | none => simp [hcp] at h
      | some b =>
        cases b with
        | false => simp [hcp] at h
        | true =>
          simp only [hcp] at h
          simp at h
          cases hc : bake_project_func_call corto_locate p package_id output
              (cstr_between body ('}' :: fe1)) [] with
          | none => simp [hc] at h
          | some o =>
            have := (bake_project_func_call_some _ _ _ _ _ _ _ hc).2.1
            simp [bake_locate_arguments] at this
  | some e =>
    obtain ⟨f, e1, hb, hf, he1⟩ := strchr_eq_some _ _ _ he
    subst he1
    simp only [he] at h
    have hse : strchr (' ' :: e1) '}' = strchr e1 '}' := by simp [strchr]
    rw [hse] at h
    have hfid : cstr_between body (' ' :: e1) = f := by
      rw [hb]; exact cstr_between_append _ _
    simp only [hfid, List.head?_cons, List.drop_succ_cons, List.drop_zero] at h
    cases hcp : bake_project_replace_copy corto_id_size f 0 with
    | none => simp [hcp] at h
    | some b =>
      cases b with
      | false => simp [hcp] at h
      | true =>
        simp only [hcp] at h
        cases hfe : strchr e1 '}' with
        | none =>
          simp only [hfe] at h
          simp at h
          cases hcp2 : bake_project_replace_copy corto_id_size [] 0 with
          | none => simp [hcp2] at h
          | some b2 =>
            cases b2 with
            | false => simp [hcp2] at h
            | true =>
              simp only [hcp2] at h
              cases hc : bake_project_func_call corto_locate p package_id output f [] with
              | none => simp [hc] at h
              | some o =>
                have := (bake_project_func_call_some _ _ _ _ _ _ _ hc).2.1
                simp [bake_locate_arguments] at this
        | some fe =>
          obtain ⟨a, fe1, hb2, ha, hfe1⟩ := strchr_eq_some _ _ _ hfe
          subst hfe1
          simp only [hfe] at h
          have haid : cstr_between e1 ('}' :: fe1) = a := by
            rw [hb2]; exact cstr_between_append _ _
          simp only [haid] at h
          simp at h
          cases hcp2 : bake_project_replace_copy corto_id_size a 0 with
          | none => simp [hcp2] at h
          | some b2 =>
            cases b2 with
            | false => simp [hcp2] at h
            | true =>
              simp only [hcp2] at h
              cases hc : bake_project_func_call corto_locate p package_id output f a with
              | none => simp [hc] at h
              | some o =>
                obtain ⟨h1, h2, v, h3⟩ := bake_project_func_call_some _ _ _ _ _ _ _ hc
                simp [hc] at h
                refine ⟨a, v, h2, ?_, ?_⟩
                · rw [hb, hb2, h1, ← h.1]
                · rw [← h.2, h3]

/-- The placeholder branch is defined on a text whose runs of identifier
characters fit `corto_id`. -/
theorem bake_project_replace_func_defined (corto_id_size : Nat)
    (corto_locate : CStr → corto_locate_kind → Option CStr)
    (p : bake_project) (package_id body output : CStr)
    (hfit : bake_id_fit corto_id_size ('$' :: '{' :: body)) :
    ∃ r, bake_project_replace_func corto_id_size corto_locate p package_id
      ('$' :: '{' :: body) output = some r := by
  have hcopy : ∀ pre id post, body = pre ++ (id ++ post) →
      bake_project_replace_copy corto_id_size id 0 = some (id.all bake_id_char) :=
    fun pre id post hb =>
      bake_id_fit_copy corto_id_size _ ('$' :: '{' :: pre) id post hfit (by rw [hb]; rfl)
  have hnil : bake_project_replace_copy corto_id_size [] 0 = some true :=
    hcopy [] [] body rfl
  unfold bake_project_replace_func
  have hs : strchr ('$' :: '{' :: body) ' ' = strchr body ' ' := by
    simp [strchr]
  simp only [hs, List.drop_succ_cons, List.drop_zero]
  cases he : strchr body ' ' with
  | none =>
    simp only []
    cases hfe : strchr body '}' with
    | none => exact ⟨_, rfl⟩
    | some fe =>
      obtain ⟨f, fe1, hb, hf, hfe1⟩ := strchr_eq_some _ _ _ hfe
      subst hfe1
      have hfid : cstr_between body ('}' :: fe1) = f := by
        rw [hb]; exact cstr_between_append _ _
      simp only [hfid, List.head?_cons]
      rw [hcopy [] f ('}' :: fe1) (by simpa using hb)]
      cases f.all bake_id_char with
      | false => exact ⟨_, rfl⟩
      | true =>
        have hne : ¬ ((some '}' : Option Char) = some ' ') := by decide
        simp only [if_neg hne]
        cases bake_project_func_call corto_locate p package_id output f [] <;>
          exact ⟨_, rfl⟩
  | some e =>
    obtain ⟨f, e1, hb, hf, he1⟩ := strchr_eq_some _ _ _ he
    subst he1
    have hse : strchr (' ' :: e1) '}' = strchr e1 '}' := by simp [strchr]
    have hfid : cstr_between body (' ' :: e1) = f := by
      rw [hb]; exact cstr_between_append _ _
    simp only [hse, hfid, List.head?_cons, List.drop_succ_cons, List.drop_zero]
    rw [hcopy [] f (' ' :: e1) (by simpa using hb)]
    cases f.all bake_id_char with
    | false => exact ⟨_, rfl⟩
    | true =>
      simp only [if_true]
      cases hfe : strchr e1 '}' with
      | none =>
        simp only [hnil]
        cases bake_project_func_call corto_locate p package_id output f [] <;>
          exact ⟨_, rfl⟩
      | some fe =>
        obtain ⟨a, fe1, hb2, ha, hfe1⟩ := strchr_eq_some _ _ _ hfe
        subst hfe1
        have haid : cstr_between e1 ('}' :: fe1) = a := by
          rw [hb2]; exact cstr_between_append _ _
        simp only [haid]
        rw [hcopy (f ++ [' ']) a ('}' :: fe1) (by rw [hb, hb2]; simp)]
        cases a.all bake_id_char with
        | false => exact ⟨_, rfl⟩
        | true =>
          simp only []
          cases bake_project_func_call corto_locate p package_id output f a <;>
            exact ⟨_, rfl⟩

theorem bake_locate_arguments_no_dollar (a : CStr) (h : a ∈ bake_locate_arguments) :
    '$' ∉ "locate".toList ++ ' ' :: (a ++ ['}']) := by
  simp only [bake_locate_arguments, List.mem_cons, List.mem_singleton, List.not_mem_nil,
    or_false] at h
  rcases h with h | h | h | h | h | h | h <;> subst h <;> decide

/-- When the scan loop returns a string, every `${` of the text it was
started on opens a placeholder of the accepted shape: the loop reaches each
dollar sign in turn, and an accepted placeholder holds no dollar sign. -/
theorem bake_project_replace_loop_placeholder (corto_id_size : Nat)
    (corto_locate : CStr → corto_locate_kind → Option CStr)
    (p : bake_project) (package_id input : CStr) :
    ∀ (fuel : Nat) (func output : CStr) (replaced : Bool) (out pre body : CStr),
      func.length < fuel → func = pre ++ '$' :: '{' :: body →
      bake_project_replace_loop corto_id_size corto_locate p package_id input fuel func output
        replaced = some (some out) →
      bake_placeholder_ok body := by
  intro fuel
  induction fuel with
  | zero => intro func output replaced out pre body hlen; omega
  | succ fuel ih =>
    intro func output replaced out pre body hlen hfunc hres
    unfold bake_project_replace_loop at hres
    cases hn : strchr func '$' with
    | none =>
      have := (strchr_eq_none_iff func '$').1 hn
      rw [hfunc] at this
      simp at this
    | some next =>
      obtain ⟨pre0, t1, hf0, hp0, hnext⟩ := strchr_eq_some _ _ _ hn
      subst hnext
      simp only [hn] at hres
      have hsplit := cstr_first_split '$' pre0 t1 pre ('{' :: body) (by rw [← hf0, hfunc]) hp0
      by_cases hb : ('$' :: t1)[1]? = some '{'
      · rw [if_pos hb] at hres
        cases t1 with
        | nil => simp at hb
        | cons y body0 =>
          simp at hb
          subst hb
          cases hrf : bake_project_replace_func corto_id_size corto_locate p package_id
              ('$' :: '{' :: body0) (output ++ cstr_between func ('$' :: '{' :: body0)) with
          | none => simp [hrf] at hres
          | some r0 =>
            cases r0 with
            | none => simp [hrf] at hres
            | some r =>
              obtain ⟨func1, output1⟩ := r
              simp only [hrf] at hres
              obtain ⟨a, v, ha, hbody0, _⟩ :=
                bake_project_replace_func_some _ _ _ _ _ _ _ _ hrf
              rcases hsplit with ⟨_, h2⟩ | ⟨pre1, _, h2⟩
              · simp at h2
                exact ⟨a, func1, ha, by rw [← h2, hbody0]⟩
              · cases pre1 with
                | nil => simp at h2
                | cons z pre1t =>
                  simp at h2
                  have hx : ("locate".toList ++ ' ' :: (a ++ ['}'])) ++ func1 =
                      pre1t ++ '$' :: '{' :: body := by
                    rw [← h2.2, hbody0]; simp
                  obtain ⟨pre2, hp2⟩ := cstr_skip_split '$' _ _ _ _ hx
                    (bake_locate_arguments_no_dollar a ha)
                  refine ih func1 output1 true out pre2 body ?_ hp2 hres
                  have : func.length = pre0.length + (2 + body0.length) := by
                    rw [hf0]; simp; omega
                  have : body0.length = 7 + (a.length + (1 + func1.length)) := by
                    rw [hbody0]; simp; omega
                  omega
      · rw [if_neg hb] at hres
        rcases hsplit with ⟨_, h2⟩ | ⟨pre1, h1, h2⟩
        · exact absurd (by rw [h2]; simp) hb
        · have hd : func.drop 1 = (pre0 ++ '$' :: pre1).tail ++ '$' :: '{' :: body := by
            rw [hfunc, h1]
            cases pre0 <;> simp
          cases hn2 : strchr (func.drop 1) '$' with
          | none =>
            have := (strchr_eq_none_iff _ '$').1 hn2
            rw [hd] at this
            simp at this
          | some ptr =>
            obtain ⟨q, t2, hq, hq2, hptr⟩ := strchr_eq_some _ _ _ hn2
            subst hptr
            simp only [hn2] at hres
            have hlen2 : ('$' :: t2).length < fuel := by
              have h3 : (func.drop 1).length = q.length + ('$' :: t2).length := by
                rw [hq]; simp
              have h4 : (func.drop 1).length = func.length - 1 := by simp
              have h5 : 0 < func.length := by rw [hfunc]; simp
              omega
            rcases cstr_first_split '$' q t2 _ ('{' :: body) (by rw [← hq, hd]) hq2 with
              ⟨_, h6⟩ | ⟨pre2, _, h6⟩
            · exact ih ('$' :: t2) _ true out [] body hlen2 (by rw [h6]; rfl) hres
            · exact ih ('$' :: t2) _ true out ('$' :: pre2) body hlen2 (by rw [h6]; rfl) hres

/-- The same for `bake_project_replace`. -/
theorem bake_project_replace_placeholder (corto_id_size : Nat)
    (corto_locate : CStr → corto_locate_kind → Option CStr)
    (p : bake_project) (package_id pre body out : CStr)
    (h : bake_project_replace corto_id_size corto_locate p package_id
      (pre ++ '$' :: '{' :: body) = some (some out)) :
    bake_placeholder_ok body :=
  bake_project_replace_loop_placeholder corto_id_size corto_locate p package_id _ _ _ [] false
    out pre body (Nat.lt_succ_self _) rfl h

/-- An accepted placeholder moves `func` forward, to a suffix of the text. -/
theorem bake_project_replace_func_next (corto_id_size : Nat)
    (corto_locate : CStr → corto_locate_kind → Option CStr)
    (p : bake_project) (package_id body output func1 output1 : CStr)
    (h : bake_project_replace_func corto_id_size corto_locate p package_id
      ('$' :: '{' :: body) output = some (some (func1, output1))) :
    func1.length < body.length ∧ ∃ pre, body = pre ++ func1 := by
  obtain ⟨a, v, _, hbody, _⟩ := bake_project_replace_func_some _ _ _ _ _ _ _ _ h
  constructor
  · rw [hbody]
    simp only [List.length_append, List.length_cons]
    omega
  · exact ⟨"locate".toList ++ ' ' :: (a ++ ['}']), by rw [hbody]; simp⟩

/-- The scan loop is defined on a text whose runs of identifier characters fit
`corto_id`: it returns a string or NULL. -/
theorem bake_project_replace_loop_defined (corto_id_size : Nat)
    (corto_locate : CStr → corto_locate_kind → Option CStr)
    (p : bake_project) (package_id input : CStr) :
    ∀ (fuel : Nat) (func output : CStr) (replaced : Bool),
      func.length < fuel → bake_id_fit corto_id_size func →
      ∃ r, bake_project_replace_loop corto_id_size corto_locate p package_id input fuel func
        output replaced = some r := by
  intro fuel
  induction fuel with
  | zero => intro func output replaced hlen; omega
  | succ fuel ih =>
    intro func output replaced hlen hfit
    unfold bake_project_replace_loop
    cases hn : strchr func '$' with
    | none =>
      simp only []
      split_ifs <;> exact ⟨_, rfl⟩
    | some next =>
      obtain ⟨pre0, t1, hf0, hp0, hnext⟩ := strchr_eq_some _ _ _ hn
      subst hnext
      simp only []
      by_cases hb : ('$' :: t1)[1]? = some '{'
      · rw [if_pos hb]
        cases t1 with
        | nil => simp at hb
        | cons y body0 =>
          simp at hb
          subst hb
          have hfit0 : bake_id_fit corto_id_size ('$' :: '{' :: body0) :=
            bake_id_fit_suffix corto_id_size pre0 _ (by rw [← hf0]; exact hfit)
          obtain ⟨r0, hrf⟩ := bake_project_replace_func_defined corto_id_size corto_locate p
            package_id body0 (output ++ cstr_between func ('$' :: '{' :: body0)) hfit0
          rw [hrf]
          cases r0 with
          | none => exact ⟨_, rfl⟩
          | some r =>
            obtain ⟨func1, output1⟩ := r
            simp only []
            obtain ⟨hlt, pre1, hpre1⟩ :=
              bake_project_replace_func_next _ _ _ _ _ _ _ _ hrf
            refine ih func1 output1 true ?_ ?_
            · have : func.length = pre0.length + (2 + body0.length) := by
                rw [hf0]; simp; omega
              omega
            · refine bake_id_fit_suffix corto_id_size (pre0 ++ '$' :: '{' :: pre1) func1 ?_
              have : func = (pre0 ++ '$' :: '{' :: pre1) ++ func1 := by
                rw [hf0, hpre1]; simp
              rw [← this]
              exact hfit
      · rw [if_neg hb]
        cases hn2 : strchr (func.drop 1) '$' with
        | none => exact ⟨_, rfl⟩
        | some ptr =>
          obtain ⟨q, t2, hq, _, _⟩ := strchr_eq_some _ _ _ hn2
          simp only []
          have h5 : 0 < func.length := by rw [hf0]; simp
          have h3 : (func.drop 1).length = q.length + ptr.length := by
            rw [hq]; simp
          have h4 : (func.drop 1).length = func.length - 1 := by simp
          refine ih ptr _ true (by omega) ?_
          refine bake_id_fit_suffix corto_id_size (func.take 1 ++ q) ptr ?_
          have : func = (func.take 1 ++ q) ++ ptr := by
            rw [List.append_assoc, ← hq, List.take_append_drop]
          rw [← this]
          exact hfit

/-- With more fuel than `func` has characters, the result of the scan loop
does not depend on the fuel. -/
theorem bake_project_replace_loop_fuel (corto_id_size : Nat)
    (corto_locate : CStr → corto_locate_kind → Option CStr)
    (p : bake_project) (package_id input : CStr) :
    ∀ (fuel fuel2 : Nat) (func output : CStr) (replaced : Bool),
      func.length < fuel → func.length < fuel2 →
      bake_project_replace_loop corto_id_size corto_locate p package_id input fuel func output
          replaced =
        bake_project_replace_loop corto_id_size corto_locate p package_id input fuel2 func
          output replaced := by
  intro fuel
  induction fuel with
  | zero => intro fuel2 func output replaced hlen; omega
  | succ fuel ih =>
    intro fuel2 func output replaced hlen hlen2
    cases fuel2 with
    | zero => omega
    | succ fuel2 =>
      unfold bake_project_replace_loop
      cases hn : strchr func '$' with
      | none => rfl
      | some next =>
        obtain ⟨pre0, t1, hf0, hp0, hnext⟩ := strchr_eq_some _ _ _ hn
        subst hnext
        simp only []
        by_cases hb : ('$' :: t1)[1]? = some '{'
        · rw [if_pos hb, if_pos hb]
          cases t1 with
          | nil => simp at hb
          | cons y body0 =>
            simp at hb
            subst hb
            cases hrf : bake_project_replace_func corto_id_size corto_locate p package_id
                ('$' :: '{' :: body0) (output ++ cstr_between func ('$' :: '{' :: body0)) with
            | none => rfl
            | some r0 =>
              cases r0 with
              | none => rfl
              | some r =>
                obtain ⟨func1, output1⟩ := r
                simp only []
                obtain ⟨hlt, _⟩ := bake_project_replace_func_next _ _ _ _ _ _ _ _ hrf
                have : func.length = pre0.length + (2 + body0.length) := by
                  rw [hf0]; simp; omega
                exact ih fuel2 func1 output1 true (by omega) (by omega)
        · rw [if_neg hb, if_neg hb]
          cases hn2 : strchr (func.drop 1) '$' with
          | none => rfl
          | some ptr =>
            obtain ⟨q, t2, hq, _, _⟩ := strchr_eq_some _ _ _ hn2
            simp only []
            have h5 : 0 < func.length := by rw [hf0]; simp
            have h3 : (func.drop 1).length = q.length + ptr.length := by
              rw [hq]; simp
            have h4 : (func.drop 1).length = func.length - 1 := by simp
            exact ih fuel2 ptr _ true (by omega) (by omega)

/-- `bake_project_replace` returns a string or NULL on an input whose runs of
identifier characters fit `corto_id`. -/
theorem bake_project_replace_defined (corto_id_size : Nat)
    (corto_locate : CStr → corto_locate_kind → Option CStr)
    (p : bake_project) (package_id input : CStr)
    (hfit : bake_id_fit corto_id_size input) :
    ∃ r, bake_project_replace corto_id_size corto_locate p package_id input = some r :=
  bake_project_replace_loop_defined corto_id_size corto_locate p package_id input _ input []
    false (Nat.lt_succ_self _) hfit

theorem bake_locate_arguments_id (a : CStr) (h : a ∈ bake_locate_arguments) :
    a.all bake_id_char = true ∧ '}' ∉ a := by
  simp only [bake_locate_arguments, List.mem_cons, List.mem_singleton, List.not_mem_nil,
    or_false] at h
  rcases h with h | h | h | h | h | h | h <;> subst h <;> decide

/-- What an accepted placeholder body `f d rest` looks like when `f` holds
neither a space nor a closing brace and `d` is one of the two. -/
theorem bake_placeholder_ok_split (f rest : CStr) (d : Char)
    (hf1 : ' ' ∉ f) (hf2 : '}' ∉ f) (hd : d = ' ' ∨ d = '}')
    (h : bake_placeholder_ok (f ++ d :: rest)) :
    f = "locate".toList ∧ d = ' ' ∧
      ∃ a rest1, a ∈ bake_locate_arguments ∧ rest = a ++ '}' :: rest1 := by
  obtain ⟨a, rest1, ha, hb⟩ := h
  have hloc : ∀ c ∈ "locate".toList, ¬ (c = ' ' ∨ c = '}') := by decide
  obtain ⟨h1, h2, h3⟩ := cstr_delim_unique (fun c => c = ' ' ∨ c = '}') f "locate".toList
    rest (a ++ '}' :: rest1) d ' '
    (fun c hc hP => by
      rcases hP with hP | hP
      · exact hf1 (hP ▸ hc)
      · exact hf2 (hP ▸ hc))
    hloc hd (Or.inl rfl) hb
  exact ⟨h1, h2, a, rest1, ha, h3⟩

/-- A call of `bake_project_replace` that is defined and returns no string
returns NULL. -/
theorem bake_project_replace_null (corto_id_size : Nat)
    (corto_locate : CStr → corto_locate_kind → Option CStr)
    (p : bake_project) (package_id input : CStr)
    (hfit : bake_id_fit corto_id_size input)
    (h : ∀ out, bake_project_replace corto_id_size corto_locate p package_id input ≠
      some (some out)) :
    bake_project_replace corto_id_size corto_locate p package_id input = some none := by
  obtain ⟨r, hr⟩ := bake_project_replace_defined corto_id_size corto_locate p package_id input
    hfit
  cases r with
  | none => exact hr
  | some out => exact absurd hr (h out)

/-- C6: an input that holds `${` followed by `body` is rejected when no `}`
occurs in `body`, when the function identifier (the text `f` up to the first
space or closing brace) holds a character outside `[A-Za-z0-9_]`, and when the
argument (the text `a` between the space after the identifier and the next
closing brace) holds such a character: `bake_project_replace` returns no
string, and it returns NULL when every run of identifier characters in the
input fits `corto_id` (a longer run is written past the end of the array). -/
theorem C6_malformed_placeholder_fails (corto_id_size : Nat)
    (corto_locate : CStr → corto_locate_kind → Option CStr)
    (p : bake_project) (package_id pre body : CStr)
    (h : '}' ∉ body ∨
      (∃ f d rest, body = f ++ d :: rest ∧ ' ' ∉ f ∧ '}' ∉ f ∧ (d = ' ' ∨ d = '}') ∧
        ∃ c ∈ f, bake_id_char c = false) ∨
      (∃ f a rest, body = f ++ ' ' :: (a ++ '}' :: rest) ∧ ' ' ∉ f ∧ '}' ∉ f ∧ '}' ∉ a ∧
        ∃ c ∈ a, bake_id_char c = false)) :
    (∀ out, bake_project_replace corto_id_size corto_locate p package_id
      (pre ++ '$' :: '{' :: body) ≠ some (some out)) ∧
    (bake_id_fit corto_id_size (pre ++ '$' :: '{' :: body) →
      bake_project_replace corto_id_size corto_locate p package_id
        (pre ++ '$' :: '{' :: body) = some none) := by
  have hno : ∀ out, bake_project_replace corto_id_size corto_locate p package_id
      (pre ++ '$' :: '{' :: body) ≠ some (some out) := by
    intro out hr
    have hok := bake_project_replace_placeholder corto_id_size corto_locate p package_id pre
      body out hr
    rcases h with h | ⟨f, d, rest, hb, hf1, hf2, hd, c, hc, hbad⟩ |
      ⟨f, a, rest, hb, hf1, hf2, ha, c, hc, hbad⟩
    · obtain ⟨a, rest, _, hb⟩ := hok
      exact h (by rw [hb]; simp)
    · rw [hb] at hok
      obtain ⟨h1, _, _⟩ := bake_placeholder_ok_split f rest d hf1 hf2 hd hok
      have hall : ∀ c ∈ "locate".toList, bake_id_char c = true := by decide
      rw [h1] at hc
      rw [hall c hc] at hbad
      cases hbad
    · rw [hb] at hok
      obtain ⟨_, _, a1, rest1, ha1, h3⟩ :=
        bake_placeholder_ok_split f (a ++ '}' :: rest) ' ' hf1 hf2 (Or.inl rfl) hok
      obtain ⟨hall, hbr⟩ := bake_locate_arguments_id a1 ha1
      obtain ⟨h4, _, _⟩ := cstr_delim_unique (fun c => c = '}') a a1 rest rest1 '}' '}'
        (fun c hc hP => ha (hP ▸ hc)) (fun c hc hP => hbr (hP ▸ hc)) rfl rfl h3
      rw [h4] at hc
      rw [List.all_eq_true.1 hall c hc] at hbad
      cases hbad
  exact ⟨hno, fun hfit =>
    bake_project_replace_null corto_id_size corto_locate p package_id _ hfit hno⟩

/-- Witness of C6: a placeholder that is never closed, one with `-` in the
identifier and one with `.` in the argument, with a `corto_id` of 512
characters. -/
theorem C6_witness :
    bake_project_replace 512 (fun _ _ => some "/usr/lib".toList) {} "pk".toList
        ("-I".toList ++ '$' :: '{' :: "locate lib".toList) = some none ∧
    bake_project_replace 512 (fun _ _ => some "/usr/lib".toList) {} "pk".toList
        ("-I".toList ++ '$' :: '{' :: ("loc-ate".toList ++ ' ' :: "lib\x7d/x".toList)) =
      some none ∧
    bake_project_replace 512 (fun _ _ => some "/usr/lib".toList) {} "pk".toList
        ("-I".toList ++ '$' :: '{' :: ("locate".toList ++ ' ' :: ("l.b".toList ++ '}' :: "/x".toList)))
        = some none :=
  ⟨(C6_malformed_placeholder_fails 512 _ _ _ _ _ (Or.inl (by decide))).2
    (bake_id_fit_of_length 512 _ (by decide)),
   (C6_malformed_placeholder_fails 512 _ _ _ _ _
    (Or.inr (Or.inl ⟨"loc-ate".toList, ' ', "lib\x7d/x".toList, rfl, by decide, by decide,
      Or.inl rfl, '-', by decide, by decide⟩))).2 (bake_id_fit_of_length 512 _ (by decide)),
   (C6_malformed_placeholder_fails 512 _ _ _ _ _
    (Or.inr (Or.inr ⟨"locate".toList, "l.b".toList, "/x".toList, rfl, by decide, by decide,
      by decide, '.', by decide, by decide⟩))).2 (bake_id_fit_of_length 512 _ (by decide))⟩

/-- C7: for a placeholder `${f a}` whose identifier `f` and argument `a`
consist of characters of `[A-Za-z0-9_]`, unless `f` is `locate` and `a` is one
of package, include, etc, env, lib, app, bin, `bake_project_func_call` fails
and the expansion of every string that holds the placeholder returns no
string; a placeholder `${f}` without an argument never gives a string.  In
both cases `bake_project_replace` returns NULL when every run of identifier
characters in the input fits `corto_id` (a longer run is written past the end
of the array). -/
theorem C7_only_locate_is_expanded (corto_id_size : Nat)
    (corto_locate : CStr → corto_locate_kind → Option CStr)
    (p : bake_project) (package_id pre f a rest : CStr)
    (hf : f.all bake_id_char = true) (ha : a.all bake_id_char = true) :
    (¬ (f = "locate".toList ∧ a ∈ bake_locate_arguments) →
      (∀ buffer, bake_project_func_call corto_locate p package_id buffer f a = none) ∧
      (∀ out, bake_project_replace corto_id_size corto_locate p package_id
        (pre ++ '$' :: '{' :: (f ++ ' ' :: (a ++ '}' :: rest))) ≠ some (some out)) ∧
      (bake_id_fit corto_id_size (pre ++ '$' :: '{' :: (f ++ ' ' :: (a ++ '}' :: rest))) →
        bake_project_replace corto_id_size corto_locate p package_id
          (pre ++ '$' :: '{' :: (f ++ ' ' :: (a ++ '}' :: rest))) = some none)) ∧
    (∀ out, bake_project_replace corto_id_size corto_locate p package_id
      (pre ++ '$' :: '{' :: (f ++ '}' :: rest)) ≠ some (some out)) ∧
    (bake_id_fit corto_id_size (pre ++ '$' :: '{' :: (f ++ '}' :: rest)) →
      bake_project_replace corto_id_size corto_locate p package_id
        (pre ++ '$' :: '{' :: (f ++ '}' :: rest)) = some none) := by
  have hid : ∀ (x : CStr), x.all bake_id_char = true → ' ' ∉ x ∧ '}' ∉ x := by
    intro x hx
    rw [List.all_eq_true] at hx
    exact ⟨fun hm => absurd (hx _ hm) (by decide), fun hm => absurd (hx _ hm) (by decide)⟩
  obtain ⟨hf1, hf2⟩ := hid f hf
  obtain ⟨_, ha2⟩ := hid a ha
  have hno2 : ∀ out, bake_project_replace corto_id_size corto_locate p package_id
      (pre ++ '$' :: '{' :: (f ++ '}' :: rest)) ≠ some (some out) := by
    intro out hr
    have hok := bake_project_replace_placeholder corto_id_size corto_locate p package_id pre _
      out hr
    obtain ⟨_, h2, _⟩ := bake_placeholder_ok_split f rest '}' hf1 hf2 (Or.inr rfl) hok
    exact absurd h2 (by decide)
  refine ⟨fun hne => ?_, hno2, fun hfit =>
    bake_project_replace_null corto_id_size corto_locate p package_id _ hfit hno2⟩
  have hno1 : ∀ out, bake_project_replace corto_id_size corto_locate p package_id
      (pre ++ '$' :: '{' :: (f ++ ' ' :: (a ++ '}' :: rest))) ≠ some (some out) := by
    intro out hr
    have hok := bake_project_replace_placeholder corto_id_size corto_locate p package_id pre _
      out hr
    obtain ⟨h1, _, a1, rest1, ha1, h3⟩ :=
      bake_placeholder_ok_split f (a ++ '}' :: rest) ' ' hf1 hf2 (Or.inl rfl) hok
    obtain ⟨_, hbr⟩ := bake_locate_arguments_id a1 ha1
    obtain ⟨h4, _, _⟩ := cstr_delim_unique (fun c => c = '}') a a1 rest rest1 '}' '}'
      (fun c hc hP => ha2 (hP ▸ hc)) (fun c hc hP => hbr (hP ▸ hc)) rfl rfl h3
    exact hne ⟨h1, h4 ▸ ha1⟩
  refine ⟨?_, hno1, fun hfit =>
    bake_project_replace_null corto_id_size corto_locate p package_id _ hfit hno1⟩
  intro buffer
  cases hc : bake_project_func_call corto_locate p package_id buffer f a with
  | none => rfl
  | some out =>
    obtain ⟨h1, h2, _⟩ := bake_project_func_call_some _ _ _ _ _ _ _ hc
    exact absurd ⟨h1, h2⟩ hne

/-- Witness of C7: the unknown function `find`, the unknown argument `src`
and `locate` without an argument, with a `corto_id` of 512 characters. -/
theorem C7_witness :
    (bake_project_replace 512 (fun _ _ => some "/usr/lib".toList) {} "pk".toList
        ("-L".toList ++ '$' :: '{' :: ("find".toList ++ ' ' :: ("lib".toList ++ '}' :: "/x".toList)))
        = some none) ∧
    (bake_project_replace 512 (fun _ _ => some "/usr/lib".toList) {} "pk".toList
        ("-L".toList ++ '$' :: '{' :: ("locate".toList ++ ' ' :: ("src".toList ++ '}' :: "/x".toList)))
        = some none) ∧
    (bake_project_replace 512 (fun _ _ => some "/usr/lib".toList) {} "pk".toList
        ("-L".toList ++ '$' :: '{' :: ("locate".toList ++ '}' :: "/x".toList)) = some none) :=
  ⟨((C7_only_locate_is_expanded 512 _ _ _ "-L".toList "find".toList "lib".toList "/x".toList
      (by decide) (by decide)).1 (by decide)).2.2 (bake_id_fit_of_length 512 _ (by decide)),
   ((C7_only_locate_is_expanded 512 _ _ _ "-L".toList "locate".toList "src".toList "/x".toList
      (by decide) (by decide)).1 (by decide)).2.2 (bake_id_fit_of_length 512 _ (by decide)),
   (C7_only_locate_is_expanded 512 (fun _ _ => some "/usr/lib".toList) {} "pk".toList
      "-L".toList "locate".toList "src".toList "/x".toList (by decide) (by decide)).2.2
      (bake_id_fit_of_length 512 _ (by decide))⟩

/-! ## Strings without a dollar sign (C8) -/

/-- C8: a string without a dollar sign is returned unchanged, whatever the
size of `corto_id`, so expanding the result again gives the same string. -/
theorem C8_no_dollar_identity (corto_id_size : Nat)
    (corto_locate : CStr → corto_locate_kind → Option CStr)
    (p : bake_project) (package_id : CStr) (s : CStr) (h : '$' ∉ s) :
    bake_project_replace corto_id_size corto_locate p package_id s = some (some s) ∧
    (bake_project_replace corto_id_size corto_locate p package_id s).bind
        (fun r => r.bind (bake_project_replace corto_id_size corto_locate p package_id)) =
      bake_project_replace corto_id_size corto_locate p package_id s := by
  have h1 : bake_project_replace corto_id_size corto_locate p package_id s = some (some s) := by
    simp [bake_project_replace, bake_project_replace_loop, (strchr_eq_none_iff s '$').2 h]
  simp [h1]

/-- Witness of C8: `src/main.c`. -/
theorem C8_witness :
    '$' ∉ "src/main.c".toList ∧
    bake_project_replace 512 (fun _ _ => none) {} "pk".toList "src/main.c".toList =
      some (some "src/main.c".toList) :=
  ⟨by decide, (C8_no_dollar_identity 512 (fun _ _ => none) {} "pk".toList "src/main.c".toList
    (by decide)).1⟩

/-! ## The build evaluator (C9, C10) -/

/-- C9: when the artefact callback leaves the root Filelist empty,
`bake_language_build` evaluates no node and does not succeed, whatever the
nodes and edges of the language and whatever the evaluation bound; it returns
`-1` whenever the language has its ARTEFACT node (without that node the fatal
branch stops the build before the callback is called). -/
theorem C9_empty_artefact_fails (corto_envparse : CStr → List (Option CStr) → Option CStr)
    (fuel : Nat) (l : bake_language) (p : bake_project) (cb : bake_rule_artefact_cb)
    (hcb : l.artefact_cb = some cb)
    (hzero : bake_filelist_count
      (cb (bake_filelist_new (bake_project_binaryPath corto_envparse p) none) p) = 0) :
    ∃ out, bake_language_build corto_envparse fuel l p = some (out, []) ∧
      out ≠ bake_build_outcome.returned 0 ∧
      ((bake_node_find l "ARTEFACT".toList).isSome →
        out = bake_build_outcome.returned (-1)) := by
  unfold bake_language_build
  cases hroot : bake_node_find l "ARTEFACT".toList with
  | none => exact ⟨bake_build_outcome.aborted, by simp, by simp, by simp⟩
  | some root =>
    refine ⟨bake_build_outcome.returned (-1), ?_, by simp, by simp⟩
    simp [hcb, hzero]

/-- Witness of C9: the seeded language with a callback that adds no file. -/
theorem C9_witness :
    ∃ out, bake_language_build (fun _ _ => none) 5
        (bake_language_artefact bake_language_seed (fun fl _ => fl)) {} = some (out, []) ∧
      out ≠ bake_build_outcome.returned 0 ∧
      ((bake_node_find (bake_language_artefact bake_language_seed (fun fl _ => fl))
          "ARTEFACT".toList).isSome → out = bake_build_outcome.returned (-1)) :=
  C9_empty_artefact_fails (fun _ _ => none) 5
    (bake_language_artefact bake_language_seed (fun fl _ => fl)) {} (fun fl _ => fl) rfl rfl

/-- C10 (counterexample): a driver that declares
`pattern("ARTEFACT", "*.o")` and registers an artefact callback appending one
file fails to load: `bake_language_get` returns NULL.  ARTEFACT is created
before the entry point runs, so the declaration is a redeclaration and latches
the error. -/
theorem C10_declaring_the_root_again_fails :
    (bake_language_get
      (fun package =>
        if package = "driver/bake/c".toList then
          some (bake_driver.mk
            [bake_dsl_call.pattern "ARTEFACT".toList (some "*.o".toList),
             bake_dsl_call.artefact (fun fl _ => bake_filelist_add fl "app.o".toList)] 0)
        else none)
      [] "c".toList).map (fun r => r.1.isNone) = some true := by
  decide

/-- C10 (amended): a driver that declares no node and registers an artefact
callback that appends one file path is loaded by `bake_language_get` on the
first request, and `bake_language_build` on the loaded language returns `0`
and invokes `bake_node_eval` on exactly one node, the ARTEFACT root. -/
theorem C10_minimal_language_builds (corto_load_sym : CStr → Option bake_driver)
    (corto_envparse : CStr → List (Option CStr) → Option CStr)
    (languages : List bake_language) (language file : CStr)
    (hfresh : languages.find? (fun e => e.package == some ("driver/bake/".toList ++ language))
      = none)
    (hdriver : corto_load_sym ("driver/bake/".toList ++ language) =
      some (bake_driver.mk
        [bake_dsl_call.artefact (fun fl _ => bake_filelist_add fl file)] 0)) :
    ∃ l regs, bake_language_get corto_load_sym languages language = some (some l, regs) ∧
      bake_node_find l "ARTEFACT".toList = some 0 ∧
      ∀ (p : bake_project) (fuel : Nat),
        bake_language_build corto_envparse (fuel + 1) l p =
          some (bake_build_outcome.returned 0, [0]) := by
  have hget : ∀ m : bake_language,
      m = { bake_language_artefact bake_language_seed
        (fun fl _ => bake_filelist_add fl file) with
        name := some language, package := some ("driver/bake/".toList ++ language) } →
      bake_language_get corto_load_sym languages language =
        some (some m, (languages ++ [m]) ++ [m]) := by
    intro m hm
    subst hm
    simp only [bake_language_get, hfresh, hdriver]
    rfl
  exact ⟨_, _, hget _ rfl, rfl, fun p fuel => rfl⟩

/-- Witness of C10: the driver of language `c` with the file `app.o`. -/
theorem C10_witness :
    ∃ l regs, bake_language_get
        (fun _ => some (bake_driver.mk
          [bake_dsl_call.artefact (fun fl _ => bake_filelist_add fl "app.o".toList)] 0))
        [] "c".toList = some (some l, regs) ∧
      bake_node_find l "ARTEFACT".toList = some 0 ∧
      ∀ (p : bake_project) (fuel : Nat),
        bake_language_build (fun _ _ => none) (fuel + 1) l p =
          some (bake_build_outcome.returned 0, [0]) :=
  C10_minimal_language_builds _ _ [] "c".toList "app.o".toList rfl rfl

/-! ## Rules without a source, dependency rules (C19, C20) -/

/-- C19: `rule(name, NULL, target_map(f), action)` returns, sets the error
latch and leaves the node list and the heap (hence every dependency list)
unchanged, whether or not `name` is declared. -/
theorem C19_mapped_target_needs_a_source (l : bake_language) (name : CStr) (f action : Nat) :
    ∃ l2, bake_language_rule l name none (bake_rule_target.BAKE_RULE_TARGET_MAP f) action =
        some l2 ∧
      l2.error = true ∧ l2.nodes = l.nodes ∧ l2.heap = l.heap :=
  ⟨{ l with error := true }, by simp [bake_language_rule, bake_rule_target.is_map],
    rfl, rfl, rfl⟩

/-- C20 (counterexample): on the seeded language the accepted call
`dependency_rule("gen", "$DEFINITION,x.c", mapping, action)` creates a node
without any dependency, where `rule` with the same source creates the edges to
DEFINITION and to an anonymous pattern; and
`dependency_rule("gen", "$NOPE", mapping, action)` leaves the error latch clear,
where `rule` sets it. -/
theorem C20_dependency_rule_wires_nothing :
    ((bake_language_dependency_rule bake_language_seed "gen".toList
        (some "$DEFINITION,x.c".toList) (bake_rule_target.BAKE_RULE_TARGET_MAP 0) 0).heap[2]?).map
      (fun n => n.deps) = some [] ∧
    (bake_language_rule bake_language_seed "gen".toList
        (some "$DEFINITION,x.c".toList) (bake_rule_target.BAKE_RULE_TARGET_MAP 0) 0).map
      (fun l => (l.heap[2]?).map (fun n => n.deps)) = some (some [1, 3]) ∧
    (bake_language_dependency_rule bake_language_seed "gen".toList
        (some "$NOPE".toList) (bake_rule_target.BAKE_RULE_TARGET_MAP 0) 0).error = false ∧
    (bake_language_rule bake_language_seed "gen".toList
        (some "$NOPE".toList) (bake_rule_target.BAKE_RULE_TARGET_MAP 0) 0).map
      (fun l => l.error) = some true := by
  decide

/-- C20 (amended): an accepted call
`dependency_rule(name, deps, mapping, action)` allocates one DependencyRule node
that stores `deps` and has no dependency edge, registers it, allocates nothing
else and leaves the error latch as it was. -/
theorem C20_dependency_rule_stores_deps_unwired (l : bake_language) (name : CStr)
    (deps : Option CStr) (dep_mapping : bake_rule_target) (action : Nat)
    (h : bake_node_find l name = none) :
    (bake_language_dependency_rule l name deps dep_mapping action).heap =
      l.heap ++ [bake_node.mk bake_rule_kind.BAKE_RULE_DEPENDENCY (some name) [] none deps
        (some dep_mapping) (some action)] ∧
    (bake_language_dependency_rule l name deps dep_mapping action).nodes =
      l.nodes ++ [l.heap.length] ∧
    (bake_language_dependency_rule l name deps dep_mapping action).error = l.error := by
  simp [bake_language_dependency_rule, h, bake_node_add, bake_dependency_rule_new]

/-- Witness of C20: the dependency rule `gen` on the seeded language. -/
theorem C20_witness :
    (bake_language_dependency_rule bake_language_seed "gen".toList
        (some "$DEFINITION,x.c".toList) (bake_rule_target.BAKE_RULE_TARGET_MAP 0) 0).heap =
      bake_language_seed.heap ++
        [bake_node.mk bake_rule_kind.BAKE_RULE_DEPENDENCY (some "gen".toList) [] none
          (some "$DEFINITION,x.c".toList) (some (bake_rule_target.BAKE_RULE_TARGET_MAP 0))
          (some 0)] :=
  (C20_dependency_rule_stores_deps_unwired bake_language_seed "gen".toList
    (some "$DEFINITION,x.c".toList) (bake_rule_target.BAKE_RULE_TARGET_MAP 0) 0
    (by decide)).1

/-! ## Target wiring (C17, C18) -/

theorem bake_node_addDependencies_loop_heap (n : Nat) :
    ∀ (tokens : List CStr) (l : bake_language) (e : Nat), e < l.heap.length → e ≠ n →
      (bake_node_addDependencies_loop l n tokens).1.heap[e]? = l.heap[e]? := by
  intro tokens
  induction tokens with
  | nil => intro l e _ _; rfl
  | cons tok rest ih =>
    intro l e he hne
    unfold bake_node_addDependencies_loop
    have hmod : ∀ (heap : List bake_node) (d : Nat),
        (heap.modify (fun x => { x with deps := x.deps ++ [d] }) n)[e]? = heap[e]? := by
      intro heap d
      rw [List.getElem?_modify]
      simp [Ne.symm hne]
    by_cases hd : tok.head? = some '$'
    · rw [if_pos hd]
      cases hf : bake_node_find l tok.tail with
      | none => rfl
      | some dep =>
        simp only
        rw [ih (bake_node_deps_append l n dep) e
          (by simpa [bake_node_deps_append] using he) hne]
        simp only [bake_node_deps_append]
        exact hmod _ _
    · rw [if_neg hd]
      simp only
      rw [ih _ e (by simp [bake_node_deps_append, bake_pattern_new]; omega) hne]
      simp only [bake_node_deps_append, bake_pattern_new]
      rw [hmod, List.getElem?_append_left he]

/-- The steps of an accepted `bake_language_rule` that returns, as seen on the
heap and the node list: the source is a string; the node is allocated and
registered (`l1`), the source is wired (`l2`) and the target is wired. -/
theorem bake_language_rule_accepted (l : bake_language) (name : CStr)
    (source : Option CStr) (target : bake_rule_target) (action : Nat) (l3 : bake_language)
    (h1 : ¬ (source.isNone = true ∧ target.is_map = true))
    (h2 : bake_node_find l name = none)
    (h : bake_language_rule l name source target action = some l3) :
    ∃ (s : CStr) (l1 l2 : bake_language),
      source = some s ∧
      l1.heap = l.heap ++ [bake_node.mk bake_rule_kind.BAKE_RULE_RULE (some name) [] none
        source (some target) (some action)] ∧
      l1.nodes = l.nodes ++ [l.heap.length] ∧
      l2.heap = (bake_node_addDependencies_loop l1 l.heap.length (strtok_tokens s)).1.heap ∧
      l2.nodes = (bake_node_addDependencies_loop l1 l.heap.length (strtok_tokens s)).1.nodes ∧
      l3.heap = (bake_node_addToTarget l2 l.heap.length target).1.heap ∧
      l3.nodes = (bake_node_addToTarget l2 l.heap.length target).1.nodes := by
  obtain ⟨s, l1, l2, hs, hl1, hl2, hl3⟩ :=
    bake_language_rule_steps l name source target action l3 h1 h2 h
  refine ⟨s, l1, l2, hs, by rw [hl1]; rfl, by rw [hl1]; rfl, ?_, ?_, ?_, ?_⟩
  · rw [hl2]; split_ifs <;> rfl
  · rw [hl2]; split_ifs <;> rfl
  · rw [hl3]; split_ifs <;> rfl
  · rw [hl3]; split_ifs <;> rfl

theorem bake_node_named_eq (l : bake_language) (x : CStr) (e : Nat) :
    bake_node_named l x e = decide (bake_heap_name l.heap e = some (some x)) := by
  unfold bake_node_named bake_heap_name
  cases l.heap[e]? with
  | none => simp
  | some n =>
    by_cases h : n.name = some x
    · simp [h]
    · simp [h]

/-- `bake_node_find` depends only on the node list and on the names of its
nodes. -/
theorem bake_node_find_congr (l l2 : bake_language) (x : CStr) (extra : List Nat)
    (hnodes : l2.nodes = l.nodes ++ extra)
    (hnames : ∀ e ∈ l.nodes, bake_heap_name l2.heap e = bake_heap_name l.heap e)
    (tn : Nat) (h : bake_node_find l x = some tn) : bake_node_find l2 x = some tn := by
  unfold bake_node_find at h ⊢
  rw [hnodes, List.find?_append]
  have hsame : ∀ (xs : List Nat), (∀ e ∈ xs, e ∈ l.nodes) →
      xs.find? (bake_node_named l2 x) = xs.find? (bake_node_named l x) := by
    intro xs
    induction xs with
    | nil => intro _; rfl
    | cons y ys ih =>
      intro hm
      have hy : bake_node_named l2 x y = bake_node_named l x y := by
        rw [bake_node_named_eq, bake_node_named_eq, hnames y (hm y (by simp))]
      simp only [List.find?_cons, hy]
      rw [ih (fun e he => hm e (by simp [he]))]
  rw [hsame l.nodes (fun _ he => he), h]
  rfl

/-- C17: in a language whose node list holds pointers to allocated nodes,
when `name` is not declared and `t` names the node `tn`, the call
`rule(name, source, target_pattern("$t"), action)` with a source string
returns, registers the new rule node and appends it to the dependency list of
`tn`, after the elements that were there; nothing more is assumed of `source`,
whose wiring may fail. -/
theorem C17_rule_is_appended_to_its_target (l : bake_language) (name t : CStr)
    (source : CStr) (action tn : Nat) (node : bake_node)
    (hwf : ∀ e ∈ l.nodes, e < l.heap.length)
    (hname : bake_node_find l name = none)
    (ht : bake_node_find l t = some tn)
    (hnode : l.heap[tn]? = some node) :
    ∃ l3, bake_language_rule l name (some source)
        (bake_rule_target.BAKE_RULE_TARGET_PATTERN ('$' :: t)) action = some l3 ∧
      l3.nodes = l.nodes ++ [l.heap.length] ∧
      bake_heap_name l3.heap l.heap.length = some (some name) ∧
      ∃ node1, l3.heap[tn]? = some node1 ∧ node1.deps = node.deps ++ [l.heap.length] := by
  obtain ⟨l3, hl3⟩ := bake_language_rule_defined l name source
    (bake_rule_target.BAKE_RULE_TARGET_PATTERN ('$' :: t)) action
  refine ⟨l3, hl3, ?_⟩
  obtain ⟨s, l1, l2, hs, hh1, hn1, hh2, hn2, hheap, hnodes⟩ :=
    bake_language_rule_accepted l name (some source)
      (bake_rule_target.BAKE_RULE_TARGET_PATTERN ('$' :: t)) action l3
      (by simp [bake_rule_target.is_map]) hname hl3
  obtain ⟨hmem, _⟩ := bake_node_find_some l t tn ht
  have htn : tn < l.heap.length := hwf tn hmem
  have hlen1 : l1.heap.length = l.heap.length + 1 := by rw [hh1]; simp
  obtain ⟨hdn, _, hdname⟩ :=
    bake_node_addDependencies_loop_frame l.heap.length (strtok_tokens s) l1
  have hnames2 : ∀ e, e < l.heap.length → bake_heap_name l2.heap e = bake_heap_name l.heap e := by
    intro e he
    rw [hh2, hdname e (by omega), hh1, bake_heap_name_append _ _ _ he]
  have hfind2 : bake_node_find l2 t = some tn :=
    bake_node_find_congr l l2 t [l.heap.length] (by rw [hn2, hdn, hn1])
      (fun e he => hnames2 e (hwf e he)) tn ht
  have htarget : bake_node_addToTarget l2 l.heap.length
      (bake_rule_target.BAKE_RULE_TARGET_PATTERN ('$' :: t)) =
      (bake_node_deps_append l2 tn l.heap.length, 0) := by
    simp [bake_node_addToTarget, hfind2]
  rw [hheap, hnodes, htarget]
  refine ⟨?_, ?_, ?_⟩
  · simp only [bake_node_deps_append]
    rw [hn2, hdn, hn1]
  · simp only [bake_node_deps_append]
    rw [bake_heap_name_modify, hh2, hdname _ (by omega), hh1]
    exact bake_heap_name_new _ _
  · have h2 : l2.heap[tn]? = some node := by
      rw [hh2, bake_node_addDependencies_loop_heap l.heap.length (strtok_tokens s) l1 tn
        (by omega) (by omega), hh1, List.getElem?_append_left htn]
      exact hnode
    refine ⟨{ node with deps := node.deps ++ [l.heap.length] }, ?_, rfl⟩
    simp only [bake_node_deps_append]
    rw [List.getElem?_modify, h2]
    simp

/-- Witness of C17: on the seeded language the rule `compile` with the
unresolved source `$SOURCES` (the latch is set) is still appended to the
dependency list of ARTEFACT. -/
theorem C17_witness :
    (bake_language_rule bake_language_seed "compile".toList (some "$SOURCES".toList)
        (bake_rule_target.BAKE_RULE_TARGET_PATTERN ('$' :: "ARTEFACT".toList)) 0).map
        (fun l => l.error) = some true ∧
    ∃ l3, bake_language_rule bake_language_seed "compile".toList (some "$SOURCES".toList)
        (bake_rule_target.BAKE_RULE_TARGET_PATTERN ('$' :: "ARTEFACT".toList)) 0 = some l3 ∧
      l3.nodes = bake_language_seed.nodes ++ [bake_language_seed.heap.length] ∧
      bake_heap_name l3.heap bake_language_seed.heap.length = some (some "compile".toList) ∧
      ∃ node1, l3.heap[0]? = some node1 ∧
        node1.deps = [] ++ [bake_language_seed.heap.length] :=
  ⟨by decide,
   C17_rule_is_appended_to_its_target bake_language_seed "compile".toList "ARTEFACT".toList
      "$SOURCES".toList 0 0
      (bake_node.mk bake_rule_kind.BAKE_RULE_PATTERN (some "ARTEFACT".toList) [] none none
        none none)
      (by decide) (by decide) (by decide) (by decide)⟩

/-- C18: a call of `bake_language_rule` with a source string, or with a NULL
source and a mapping target, whose target is a mapping, or a pattern that does
not start with a dollar sign, or a dollar name that no declared node has,
returns and leaves every node object that existed before the call as it was;
so does every call of `bake_language_dependency_rule`, whatever its mapping. -/
theorem C18_no_reverse_edge (l : bake_language) (name : CStr) (source deps : Option CStr)
    (target dep_mapping : bake_rule_target) (action : Nat) :
    ((source.isSome = true ∨ target.is_map = true) →
      (target.is_map = true ∨
        ∃ pat, target = bake_rule_target.BAKE_RULE_TARGET_PATTERN pat ∧
          (pat.head? ≠ some '$' ∨ bake_node_find l pat.tail = none)) →
      ∃ l3, bake_language_rule l name source target action = some l3 ∧
        ∀ e, e < l.heap.length → l3.heap[e]? = l.heap[e]?) ∧
    (∀ e, e < l.heap.length →
      (bake_language_dependency_rule l name deps dep_mapping action).heap[e]? =
        l.heap[e]?) := by
  constructor
  · intro hsrc h
    have hdef := (bake_language_rule_isSome l name source target action).2
      (by rcases hsrc with hsrc | hsrc
          · exact Or.inl hsrc
          · exact Or.inr (Or.inl hsrc))
    cases hr : bake_language_rule l name source target action with
    | none => rw [hr] at hdef; cases hdef
    | some l3 =>
    refine ⟨l3, rfl, ?_⟩
    intro e he
    by_cases h1 : source.isNone = true ∧ target.is_map = true
    · unfold bake_language_rule at hr
      rw [if_pos h1] at hr
      rw [← Option.some.inj hr]
    · cases h2 : bake_node_find l name with
      | some found =>
        unfold bake_language_rule at hr
        rw [if_neg h1, h2] at hr
        rw [if_pos (show (some found).isSome = true from rfl)] at hr
        rw [← Option.some.inj hr]
      | none =>
        obtain ⟨s, l1, l2, hs, hh1, hn1, hh2, hn2, hheap, _⟩ :=
          bake_language_rule_accepted l name source target action l3 h1 h2 hr
        have hlen1 : l1.heap.length = l.heap.length + 1 := by rw [hh1]; simp
        obtain ⟨hdn, _, hdname⟩ :=
          bake_node_addDependencies_loop_frame l.heap.length (strtok_tokens s) l1
        have hkeep : l2.heap[e]? = l.heap[e]? := by
          rw [hh2, bake_node_addDependencies_loop_heap l.heap.length (strtok_tokens s) l1 e
            (by omega) (by omega), hh1, List.getElem?_append_left he]
        rw [hheap]
        rcases h with hmap | ⟨pat, hpat, hbad⟩
        · cases target with
          | BAKE_RULE_TARGET_MAP m => exact hkeep
          | BAKE_RULE_TARGET_PATTERN pat => simp [bake_rule_target.is_map] at hmap
        · subst hpat
          unfold bake_node_addToTarget
          by_cases hd : pat.head? = some '$'
          · simp only [hd, ne_eq, not_true_eq_false, if_false]
            have hnone : bake_node_find l pat.tail = none := by
              rcases hbad with hbad | hbad
              · exact absurd hd hbad
              · exact hbad
            cases hf : bake_node_find l2 pat.tail with
            | none => exact hkeep
            | some tn =>
              simp only [bake_node_deps_append]
              rw [List.getElem?_modify]
              have hne : tn ≠ e := by
                intro heq
                obtain ⟨hmem, hnm⟩ := bake_node_find_some l2 pat.tail tn hf
                rw [hn2, hdn, hn1] at hmem
                rw [heq] at hmem hnm
                rw [hh2, hdname e (by omega), hh1, bake_heap_name_append _ _ _ he] at hnm
                rcases List.mem_append.1 hmem with hm | hm
                · exact (bake_node_find_eq_none_iff l pat.tail).1 hnone e hm hnm
                · simp at hm
                  omega
              rw [hkeep]
              simp [hne]
          · simp only [hd, ne_eq, not_false_eq_true, if_true]
            exact hkeep
  · intro e he
    unfold bake_language_dependency_rule
    by_cases hf : (bake_node_find l name).isSome = true
    · rw [if_pos hf]
    · rw [if_neg hf]
      simp only [bake_node_add, bake_dependency_rule_new]
      exact List.getElem?_append_left he

/-- Witness of C18: a rule with a mapping target, a rule with an unresolved
target, and a dependency rule whose mapping is `target_pattern("$ARTEFACT")`. -/
theorem C18_witness :
    (∃ l3, bake_language_rule bake_language_seed "objects".toList
        (some "$ARTEFACT,*.c".toList) (bake_rule_target.BAKE_RULE_TARGET_MAP 3) 0 = some l3 ∧
      ∀ e, e < bake_language_seed.heap.length → l3.heap[e]? = bake_language_seed.heap[e]?) ∧
    (∃ l3, bake_language_rule bake_language_seed "objects".toList (some "*.c".toList)
        (bake_rule_target.BAKE_RULE_TARGET_PATTERN "$MISSING".toList) 0 = some l3 ∧
      ∀ e, e < bake_language_seed.heap.length → l3.heap[e]? = bake_language_seed.heap[e]?) ∧
    (∀ e, e < bake_language_seed.heap.length →
      (bake_language_dependency_rule bake_language_seed "gen".toList (some "$ARTEFACT".toList)
        (bake_rule_target.BAKE_RULE_TARGET_PATTERN "$ARTEFACT".toList) 0).heap[e]? =
        bake_language_seed.heap[e]?) :=
  ⟨(C18_no_reverse_edge bake_language_seed "objects".toList (some "$ARTEFACT,*.c".toList) none
      (bake_rule_target.BAKE_RULE_TARGET_MAP 3) (bake_rule_target.BAKE_RULE_TARGET_MAP 3) 0).1
      (Or.inl rfl) (Or.inl rfl),
   (C18_no_reverse_edge bake_language_seed "objects".toList (some "*.c".toList) none
      (bake_rule_target.BAKE_RULE_TARGET_PATTERN "$MISSING".toList)
      (bake_rule_target.BAKE_RULE_TARGET_MAP 3) 0).1
      (Or.inl rfl) (Or.inr ⟨"$MISSING".toList, rfl, Or.inr (by decide)⟩),
   (C18_no_reverse_edge bake_language_seed "gen".toList none (some "$ARTEFACT".toList)
      (bake_rule_target.BAKE_RULE_TARGET_MAP 3)
      (bake_rule_target.BAKE_RULE_TARGET_PATTERN "$ARTEFACT".toList) 0).2⟩

/-! ## The language registry (C11, C12) -/

/-- The error latch is sticky: no DSL call clears it. -/
theorem bake_dsl_apply_error (l : bake_language) (c : bake_dsl_call) (h : l.error = true)
    (l1 : bake_language) (hl1 : bake_dsl_apply l c = some l1) : l1.error = true := by
  cases c with
  | pattern name pattern =>
    rw [← Option.some.inj hl1]
    simp only [bake_language_pattern]
    split_ifs
    · rfl
    · exact h
  | dependency_rule name deps dep_mapping action =>
    rw [← Option.some.inj hl1]
    simp only [bake_language_dependency_rule]
    split_ifs
    · rfl
    · exact h
  | artefact cb =>
    rw [← Option.some.inj hl1]
    exact h
  | rule name source target action =>
    have hl3 : bake_language_rule l name source target action = some l1 := hl1
    by_cases hm : source.isNone = true ∧ target.is_map = true
    · unfold bake_language_rule at hl3
      rw [if_pos hm] at hl3
      rw [← Option.some.inj hl3]
    · by_cases hf : (bake_node_find l name).isSome = true
      · unfold bake_language_rule at hl3
        rw [if_neg hm, if_pos hf] at hl3
        rw [← Option.some.inj hl3]
      · have hf2 : bake_node_find l name = none := by
          cases hx : bake_node_find l name with
          | none => rfl
          | some e => rw [hx] at hf; exact absurd rfl hf
        obtain ⟨s, m1, m2, hs, hm1, hm2, hm3⟩ :=
          bake_language_rule_steps l name source target action l1 hm hf2 hl3
        have he1 : m1.error = true := by rw [hm1]; exact h
        have he2 : m2.error = true := by
          rw [hm2]
          split_ifs
          · rfl
          · rw [(bake_node_addDependencies_loop_frame l.heap.length (strtok_tokens s) m1).2.1]
            exact he1
        rw [hm3]
        split_ifs
        · rfl
        · rw [bake_node_addToTarget_error]
          exact he2

theorem bake_dsl_run_error (calls : List bake_dsl_call) :
    ∀ (l : bake_language), l.error = true →
      ∀ l2, bake_dsl_run l calls = some l2 → l2.error = true := by
  induction calls with
  | nil =>
    intro l h l2 hl2
    rw [← Option.some.inj hl2]
    exact h
  | cons c rest ih =>
    intro l h l2 hl2
    obtain ⟨l1, h1, h2⟩ := bake_dsl_run_cons l l2 c rest hl2
    exact ih l1 (bake_dsl_apply_error l c h l1 h1) l2 h2

theorem bake_dsl_run_cons_eq (l : bake_language) (c : bake_dsl_call)
    (cs : List bake_dsl_call) :
    bake_dsl_run l (c :: cs) =
      match bake_dsl_apply l c with
      | none => none
      | some l1 => bake_dsl_run l1 cs := by
  rw [bake_dsl_run]

theorem bake_dsl_run_append (pre post : List bake_dsl_call) :
    ∀ (l : bake_language),
      bake_dsl_run l (pre ++ post) =
        (bake_dsl_run l pre).bind (fun l1 => bake_dsl_run l1 post) := by
  induction pre with
  | nil => intro l; rfl
  | cons c rest ih =>
    intro l
    rw [List.cons_append, bake_dsl_run_cons_eq, bake_dsl_run_cons_eq]
    cases bake_dsl_apply l c with
    | none => rfl
    | some l1 => exact ih l1

/-- C11: on a request for a language that is not in the registry, when the
entry point is missing, or it runs and returns a status other than `0`, or it
runs and some DSL call of it leaves the error latch set (whatever calls follow
it), `bake_language_get` returns NULL and the registry as it was; a later
request for the same name on that registry therefore loads the driver again
and, when that driver populates the language without error, returns the
language it populated. -/
theorem C11_failed_load_is_not_cached (corto_load_sym : CStr → Option bake_driver)
    (languages : List bake_language) (language : CStr)
    (hfresh : languages.find? (fun e => e.package == some ("driver/bake/".toList ++ language))
      = none)
    (hfail : corto_load_sym ("driver/bake/".toList ++ language) = none ∨
      ∃ main l0, corto_load_sym ("driver/bake/".toList ++ language) = some main ∧
        bake_dsl_run bake_language_seed main.calls = some l0 ∧
        (main.status ≠ 0 ∨
          ∃ pre post lp, main.calls = pre ++ post ∧
            bake_dsl_run bake_language_seed pre = some lp ∧ lp.error = true)) :
    bake_language_get corto_load_sym languages language = some (none, languages) ∧
    ∀ (corto_load_sym2 : CStr → Option bake_driver) (main2 : bake_driver)
      (l2 : bake_language),
      corto_load_sym2 ("driver/bake/".toList ++ language) = some main2 →
      main2.status = 0 →
      bake_dsl_run bake_language_seed main2.calls = some l2 →
      l2.error = false →
      bake_language_get corto_load_sym2 languages language =
        some (some { l2 with
            name := some language, package := some ("driver/bake/".toList ++ language) },
          (languages ++ [{ l2 with
            name := some language, package := some ("driver/bake/".toList ++ language) }]) ++
            [{ l2 with
              name := some language,
              package := some ("driver/bake/".toList ++ language) }]) := by
  have h1 : bake_language_get corto_load_sym languages language = some (none, languages) := by
    unfold bake_language_get
    simp only [hfresh]
    rcases hfail with hnone | ⟨main, l0, hmain, hrun, hbad⟩
    · rw [hnone]
    · rw [hmain]
      simp only [hrun]
      rcases hbad with hst | ⟨pre, post, lp, hcalls, hpre, herr⟩
      · rw [if_pos hst]
      · by_cases hst : main.status ≠ 0
        · rw [if_pos hst]
        · rw [if_neg hst]
          have : l0.error = true := by
            rw [hcalls, bake_dsl_run_append, hpre] at hrun
            exact bake_dsl_run_error post lp herr l0 hrun
          rw [this]
          simp
  refine ⟨h1, ?_⟩
  intro corto_load_sym2 main2 l2 hmain2 hst2 hrun2 herr2
  unfold bake_language_get
  simp only [hfresh, hmain2, hst2, hrun2, herr2]
  simp

/-- Witness of C11: the driver whose first call is
`rule("compile", "$SOURCES", target_pattern("$ARTEFACT"), action)`, with SOURCES
declared only afterwards. -/
theorem C11_witness :
    bake_language_get
      (fun _ => some (bake_driver.mk
        [bake_dsl_call.rule "compile".toList (some "$SOURCES".toList)
          (bake_rule_target.BAKE_RULE_TARGET_PATTERN "$ARTEFACT".toList) 0,
         bake_dsl_call.pattern "SOURCES".toList (some "*.c".toList)] 0))
      [] "c".toList = some (none, []) := by
  obtain ⟨l0, hl0⟩ := bake_dsl_run_defined
    [bake_dsl_call.rule "compile".toList (some "$SOURCES".toList)
      (bake_rule_target.BAKE_RULE_TARGET_PATTERN "$ARTEFACT".toList) 0,
     bake_dsl_call.pattern "SOURCES".toList (some "*.c".toList)] bake_language_seed
    (by decide)
  obtain ⟨lp, hlp⟩ := bake_dsl_run_defined
    [bake_dsl_call.rule "compile".toList (some "$SOURCES".toList)
      (bake_rule_target.BAKE_RULE_TARGET_PATTERN "$ARTEFACT".toList) 0] bake_language_seed
    (by decide)
  have herr : (bake_dsl_run bake_language_seed
      [bake_dsl_call.rule "compile".toList (some "$SOURCES".toList)
        (bake_rule_target.BAKE_RULE_TARGET_PATTERN "$ARTEFACT".toList) 0]).map
      (fun m => m.error) = some true := by decide
  rw [hlp] at herr
  have herr2 : lp.error = true := Option.some.inj herr
  exact (C11_failed_load_is_not_cached
    (fun _ => some (bake_driver.mk
      [bake_dsl_call.rule "compile".toList (some "$SOURCES".toList)
        (bake_rule_target.BAKE_RULE_TARGET_PATTERN "$ARTEFACT".toList) 0,
       bake_dsl_call.pattern "SOURCES".toList (some "*.c".toList)] 0))
    [] "c".toList rfl
    (Or.inr ⟨_, l0, rfl, hl0, Or.inr
      ⟨[bake_dsl_call.rule "compile".toList (some "$SOURCES".toList)
          (bake_rule_target.BAKE_RULE_TARGET_PATTERN "$ARTEFACT".toList) 0],
       [bake_dsl_call.pattern "SOURCES".toList (some "*.c".toList)], lp, rfl, hlp,
       herr2⟩⟩)).1

theorem bake_language_get_extends (corto_load_sym : CStr → Option bake_driver)
    (languages : List bake_language) (language : CStr)
    (r : Option bake_language × List bake_language)
    (h : bake_language_get corto_load_sym languages language = some r) :
    ∃ ext, r.2 = languages ++ ext := by
  unfold bake_language_get at h
  simp only at h
  split at h
  · rw [← Option.some.inj h]
    exact ⟨_, rfl⟩
  · split at h
    · rw [← Option.some.inj h]
      exact ⟨[], by simp⟩
    · split at h
      · cases h
      · split_ifs at h
        · rw [← Option.some.inj h]
          exact ⟨[], by simp⟩
        · rw [← Option.some.inj h]
          exact ⟨[], by simp⟩
        · rw [← Option.some.inj h]
          exact ⟨_, List.append_assoc _ _ _⟩

theorem bake_language_get_all_extends :
    ∀ (reqs : List ((CStr → Option bake_driver) × CStr)) (languages regs : List bake_language),
      bake_language_get_all languages reqs = some regs →
      ∃ ext, regs = languages ++ ext := by
  intro reqs
  induction reqs with
  | nil =>
    intro languages regs h
    simp only [bake_language_get_all, Option.some.injEq] at h
    exact ⟨[], by simp [h]⟩
  | cons r rest ih =>
    intro languages regs h
    unfold bake_language_get_all at h
    cases hg : bake_language_get r.1 languages r.2 with
    | none => rw [hg] at h; cases h
    | some x =>
      rw [hg] at h
      obtain ⟨ext1, h1⟩ := bake_language_get_extends r.1 languages r.2 x hg
      obtain ⟨ext2, h2⟩ := ih x.2 regs h
      exact ⟨ext1 ++ ext2, by rw [h2, h1, List.append_assoc]⟩

/-- A request for a language whose first registry entry is `l` returns `l`
without looking for a driver. -/
theorem bake_language_get_cached (corto_load_sym : CStr → Option bake_driver)
    (languages : List bake_language) (language : CStr) (l : bake_language)
    (h : languages.find? (fun e => e.package == some ("driver/bake/".toList ++ language)) =
      some l) :
    bake_language_get corto_load_sym languages language = some (some l, languages ++ [l]) := by
  unfold bake_language_get
  simp only [h]

/-- After a successful request the language is the first registry entry of its
package. -/
theorem bake_language_get_registered (corto_load_sym : CStr → Option bake_driver)
    (languages regs1 : List bake_language) (language : CStr) (l : bake_language)
    (h : bake_language_get corto_load_sym languages language = some (some l, regs1)) :
    regs1.find? (fun e => e.package == some ("driver/bake/".toList ++ language)) = some l := by
  unfold bake_language_get at h
  simp only at h
  cases hf : languages.find?
      (fun e => e.package == some ("driver/bake/".toList ++ language)) with
  | some l0 =>
    rw [hf] at h
    simp only [Option.some.injEq, Prod.mk.injEq] at h
    rw [← h.2, List.find?_append, hf, h.1]
    rfl
  | none =>
    rw [hf] at h
    simp only at h
    cases hm : corto_load_sym ("driver/bake/".toList ++ language) with
    | none => rw [hm] at h; simp at h
    | some main =>
      rw [hm] at h
      simp only at h
      cases hrun : bake_dsl_run bake_language_seed main.calls with
      | none => rw [hrun] at h; cases h
      | some l0 =>
        rw [hrun] at h
        simp only at h
        split_ifs at h
        · simp at h
        · simp at h
        · simp only [Option.some.injEq, Prod.mk.injEq] at h
          rw [← h.2, List.append_assoc, List.find?_append, hf, ← h.1]
          simp

/-- C12: after one successful `bake_language_get` of a name, every later
request for that name, after any sequence of other requests that return and
whatever drivers can then be loaded (even none), returns the language that the
first request returned, with its node list and node objects as they were; the
only effect is one more registry entry for it. -/
theorem C12_later_requests_return_the_cached_language
    (corto_load_sym : CStr → Option bake_driver)
    (languages regs1 regs2 : List bake_language) (language : CStr) (l : bake_language)
    (h : bake_language_get corto_load_sym languages language = some (some l, regs1))
    (reqs : List ((CStr → Option bake_driver) × CStr))
    (hreqs : bake_language_get_all regs1 reqs = some regs2)
    (corto_load_sym2 : CStr → Option bake_driver) :
    bake_language_get corto_load_sym2 regs2 language = some (some l, regs2 ++ [l]) := by
  have h1 := bake_language_get_registered corto_load_sym languages regs1 language l h
  obtain ⟨ext, h2⟩ := bake_language_get_all_extends reqs regs1 regs2 hreqs
  apply bake_language_get_cached
  rw [h2, List.find?_append, h1]
  rfl

/-- Witness of C12: language `c` is loaded, `cpp` fails to load, and `c` is
requested again when no driver can be loaded at all. -/
theorem C12_witness :
    ∃ l, bake_language_get
        (fun _ => some (bake_driver.mk
          [bake_dsl_call.pattern "SOURCES".toList (some "*.c".toList)] 0))
        [] "c".toList = some (some l, [l, l]) ∧
      l.nodes = [0, 1, 2] ∧
      bake_language_get_all [l, l] [(fun _ => none, "cpp".toList)] = some [l, l] ∧
      bake_language_get (fun _ => none) [l, l] "c".toList = some (some l, [l, l] ++ [l]) :=
  ⟨{ bake_language_pattern bake_language_seed "SOURCES".toList (some "*.c".toList) with
      name := some "c".toList, package := some ("driver/bake/".toList ++ "c".toList) },
    rfl, by decide, rfl,
    C12_later_requests_return_the_cached_language
      (fun _ => some (bake_driver.mk
        [bake_dsl_call.pattern "SOURCES".toList (some "*.c".toList)] 0))
      [] _ _ "c".toList _ rfl [(fun _ => none, "cpp".toList)] rfl (fun _ => none)⟩

/-! ## Accumulators of the project (C13) -/

theorem cstr_any_append_self (xs : List CStr) (s : CStr) :
    (xs ++ [s]).any (fun x => x == s) = true := by
  simp

/-- C13: for `bake_project_addSource`, `bake_project_addInclude` and
`bake_project_use`, adding a string twice gives the same project (hence the
same list, of the same length) as adding it once. -/
theorem C13_adding_twice_is_adding_once (p : bake_project) (s : CStr) :
    (bake_project_addSource (bake_project_addSource p s) s = bake_project_addSource p s ∧
      (bake_project_addSource (bake_project_addSource p s) s).sources.length =
        (bake_project_addSource p s).sources.length) ∧
    (bake_project_addInclude (bake_project_addInclude p s) s = bake_project_addInclude p s ∧
      (bake_project_addInclude (bake_project_addInclude p s) s).includes.length =
        (bake_project_addInclude p s).includes.length) ∧
    (bake_project_use (bake_project_use p s) s = bake_project_use p s ∧
      (bake_project_use (bake_project_use p s) s).use.length =
        (bake_project_use p s).use.length) := by
  have h1 : bake_project_addSource (bake_project_addSource p s) s =
      bake_project_addSource p s := by
    unfold bake_project_addSource
    by_cases h : p.sources.any (fun x => x == s) = true
    · simp only [h, if_true]
    · simp only [h, if_false, cstr_any_append_self, if_true]
      simp
  have h2 : bake_project_addInclude (bake_project_addInclude p s) s =
      bake_project_addInclude p s := by
    unfold bake_project_addInclude
    by_cases h : p.includes.any (fun x => x == s) = true
    · simp only [h, if_true]
    · simp only [h, if_false, cstr_any_append_self, if_true]
      simp
  have h3 : bake_project_use (bake_project_use p s) s = bake_project_use p s := by
    unfold bake_project_use
    by_cases h : p.use.any (fun x => x == s) = true
    · simp only [h, if_true]
    · simp only [h, if_false, cstr_any_append_self, if_true]
      simp
  exact ⟨⟨h1, by rw [h1]⟩, ⟨h2, by rw [h2]⟩, ⟨h3, by rw [h3]⟩⟩

/-! ## The project descriptor (C14, C15, C16) -/

/-- C14: when the descriptor is a JSON object without a string member `id`,
or without a string member `type`, `bake_project_parseConfig` returns `-1` and
`bake_project_new` returns NULL. -/
theorem C14_missing_id_or_type_fails
    (corto_id_size : Nat)
    (corto_locate : CStr → corto_locate_kind → Option CStr)
    (json_serialize_to_string : JSON_Value → Option CStr)
    (jo : List (CStr × JSON_Value)) (dir : Option (List CStr)) (path : Option CStr)
    (h : json_object_get_string jo "id".toList = none ∨
      json_object_get_string jo "type".toList = none) :
    (∀ p, ∃ p1, bake_project_parseConfig corto_id_size corto_locate json_serialize_to_string
        (some (some (JSON_Value.JSONObject jo))) p = some (p1, -1)) ∧
    bake_project_new corto_id_size corto_locate json_serialize_to_string
      (some (some (JSON_Value.JSONObject jo))) dir path = some none := by
  have hc : ∀ p, ∃ p1, bake_project_parseConfig corto_id_size corto_locate json_serialize_to_string
      (some (some (JSON_Value.JSONObject jo))) p = some (p1, -1) := by
    intro p
    simp only [bake_project_parseConfig, json_value_get_object]
    cases hid : json_object_get_string jo "id".toList with
    | none => exact ⟨p, rfl⟩
    | some j_id_member =>
      rcases h with h | h
      · rw [hid] at h; cases h
      · simp only [h]
        exact ⟨_, rfl⟩
  refine ⟨hc, ?_⟩
  obtain ⟨p1, hp1⟩ := hc (bake_project_default path)
  simp [bake_project_new, hp1]

/-- Witness of C14: a descriptor whose `id` is a number. -/
theorem C14_witness :
    bake_project_new 512 (fun _ _ => none) (fun _ => none)
      (some (some (JSON_Value.JSONObject
        [("id".toList, JSON_Value.JSONNumber (JSON_Number.mk 7 0)),
         ("type".toList, JSON_Value.JSONString "package".toList)])))
      (some []) none = some none :=
  (C14_missing_id_or_type_fails 512 (fun _ _ => none) (fun _ => none)
    [("id".toList, JSON_Value.JSONNumber (JSON_Number.mk 7 0)),
     ("type".toList, JSON_Value.JSONString "package".toList)] (some []) none
    (Or.inl rfl)).2

theorem bake_project_parseMember_array_kind
    (corto_id_size : Nat)
    (corto_locate : CStr → corto_locate_kind → Option CStr) (package_id : CStr)
    (add : bake_project → CStr → bake_project)
    (hadd : ∀ p s, (add p s).kind = p.kind) :
    ∀ (a : List JSON_Value) (p p1 : bake_project),
      bake_project_parseMember_array corto_id_size corto_locate package_id add a p = some p1 →
      p1.kind = p.kind := by
  intro a
  induction a with
  | nil =>
    intro p p1 h
    simp [bake_project_parseMember_array] at h
    rw [← h]
  | cons v rest ih =>
    intro p p1 h
    unfold bake_project_parseMember_array at h
    cases hs : json_value_get_string v with
    | none => rw [hs] at h; cases h
    | some str =>
      rw [hs] at h
      simp only at h
      cases hr : bake_project_replace corto_id_size corto_locate p package_id str with
      | none => rw [hr] at h; cases h
      | some r =>
        cases r with
        | none => rw [hr] at h; cases h
        | some src =>
          rw [hr] at h
          simp only at h
          rw [ih _ _ h, hadd]

theorem bake_project_add_kind :
    (∀ p s, (bake_project_addSource p s).kind = p.kind) ∧
    (∀ p s, (bake_project_addInclude p s).kind = p.kind) ∧
    (∀ p s, (bake_project_use p s).kind = p.kind) := by
  refine ⟨?_, ?_, ?_⟩
  · intro p s; unfold bake_project_addSource; split <;> rfl
  · intro p s; unfold bake_project_addInclude; split <;> rfl
  · intro p s; unfold bake_project_use; split <;> rfl

theorem bake_project_parseMember_kind
    (corto_id_size : Nat)
    (corto_locate : CStr → corto_locate_kind → Option CStr)
    (p p1 : bake_project) (package_id name : CStr) (v : JSON_Value) (status : Int)
    (h : bake_project_parseMember corto_id_size corto_locate p package_id name v = some (p1, status)) :
    p1.kind = p.kind := by
  unfold bake_project_parseMember at h
  have harr : ∀ (add : bake_project → CStr → bake_project) (a : List JSON_Value),
      (∀ p s, (add p s).kind = p.kind) →
      (bake_project_parseMember_array corto_id_size corto_locate package_id add a p).map
        (fun p1 => (p1, (0 : Int))) = some (p1, status) → p1.kind = p.kind := by
    intro add a hadd hm
    cases hr : bake_project_parseMember_array corto_id_size corto_locate package_id add a p with
    | none => rw [hr] at hm; cases hm
    | some q =>
      rw [hr] at hm
      simp at hm
      rw [← hm.1]
      exact bake_project_parseMember_array_kind corto_id_size corto_locate package_id add hadd a p q hr
  split_ifs at h
  all_goals first
    | ((cases v <;> (simp at h; try rw [← h.1])); done)
    | ((cases v <;> (simp at h; try rw [← h.1]));
        first
        | exact harr _ _ bake_project_add_kind.1 (by simpa using h)
        | exact harr _ _ bake_project_add_kind.2.1 (by simpa using h)
        | exact harr _ _ bake_project_add_kind.2.2 (by simpa using h))

theorem bake_project_parseMembers_loop_kind
    (corto_id_size : Nat)
    (corto_locate : CStr → corto_locate_kind → Option CStr)
    (json_serialize_to_string : JSON_Value → Option CStr) (package_id : CStr) :
    ∀ (jo : List (CStr × JSON_Value)) (p p1 : bake_project) (status : Int),
      bake_project_parseMembers_loop corto_id_size corto_locate json_serialize_to_string package_id jo p =
        some (p1, status) →
      p1.kind = p.kind := by
  intro jo
  induction jo with
  | nil =>
    intro p p1 status h
    simp [bake_project_parseMembers_loop] at h
    rw [← h.1]
  | cons m rest ih =>
    intro p p1 status h
    unfold bake_project_parseMembers_loop at h
    simp only at h
    have hstep : ∀ (q : bake_project) (st : Int),
        (if m.1 = "dependee".toList then
          some ({ p with dependee_json := json_serialize_to_string m.2 }, (0 : Int))
        else bake_project_parseMember corto_id_size corto_locate p package_id m.1 m.2) = some (q, st) →
        q.kind = p.kind := by
      intro q st hq
      by_cases hd : m.1 = "dependee".toList
      · rw [if_pos hd] at hq
        simp at hq
        rw [← hq.1]
      · rw [if_neg hd] at hq
        exact bake_project_parseMember_kind corto_id_size corto_locate p q package_id m.1 m.2 st hq
    revert hstep h
    generalize (if m.1 = "dependee".toList then
          some ({ p with dependee_json := json_serialize_to_string m.2 }, (0 : Int))
        else bake_project_parseMember corto_id_size corto_locate p package_id m.1 m.2) = r
    intro h hstep
    cases r with
    | none => cases h
    | some r =>
      obtain ⟨q, st⟩ := r
      simp only at h
      have hq := hstep q st rfl
      by_cases hst : st ≠ 0
      · rw [if_pos hst] at h
        simp at h
        rw [← h.1, hq]
      · rw [if_neg hst] at h
        cases hv : bake_project_parseValue corto_id_size corto_locate q package_id m.2 with
        | none => rw [hv] at h; cases h
        | some attr =>
          rw [hv] at h
          simp only at h
          rw [ih _ _ _ h, ← hq]
          cases attr <;> rfl

theorem bake_project_parseConfig_tool
    (corto_id_size : Nat)
    (corto_locate : CStr → corto_locate_kind → Option CStr)
    (json_serialize_to_string : JSON_Value → Option CStr)
    (jo : List (CStr × JSON_Value)) (p p1 : bake_project)
    (htype : json_object_get_string jo "type".toList = some "tool".toList)
    (hok : bake_project_parseConfig corto_id_size corto_locate json_serialize_to_string
      (some (some (JSON_Value.JSONObject jo))) p = some (p1, 0)) :
    p1.kind = bake_project_kind.BAKE_TOOL := by
  have hobj : json_value_get_object (JSON_Value.JSONObject jo) = some jo := rfl
  simp only [bake_project_parseConfig, hobj] at hok
  cases hid : json_object_get_string jo "id".toList with
  | none => rw [hid] at hok; simp at hok
  | some j_id_member =>
    rw [hid, htype] at hok
    simp only at hok
    have hk : (bake_project_parseConfig_kind { p with id := some j_id_member }
        "tool".toList).kind = bake_project_kind.BAKE_TOOL := by
      unfold bake_project_parseConfig_kind
      rw [if_neg (by decide), if_neg (by decide), if_pos rfl]
    revert hk hok
    generalize bake_project_parseConfig_kind { p with id := some j_id_member }
        "tool".toList = p2
    intro hok hk
    cases hv : json_object_get_value jo "value".toList with
    | none =>
      rw [hv] at hok
      simp at hok
      rw [← hok, hk]
    | some j_value_member =>
      rw [hv] at hok
      simp only at hok
      cases hvo : json_value_get_object j_value_member with
      | none => rw [hvo] at hok; simp at hok
      | some jvo =>
        rw [hvo] at hok
        simp only at hok
        cases hm : bake_project_parseMembers corto_id_size corto_locate json_serialize_to_string p2
            j_id_member jvo with
        | none => rw [hm] at hok; cases hok
        | some r =>
          obtain ⟨p3, st⟩ := r
          rw [hm] at hok
          simp only at hok
          have hk3 := bake_project_parseMembers_loop_kind corto_id_size corto_locate json_serialize_to_string
            j_id_member jvo p2 p3 st hm
          by_cases hst : st ≠ 0
          · rw [if_pos hst] at hok; simp at hok
          · rw [if_neg hst] at hok
            simp at hok
            rw [← hok, hk3, hk]

theorem bake_project_new_finish_kind (dir : Option (List CStr)) (p q : bake_project)
    (h : bake_project_new_finish dir p = some q) : q.kind = p.kind := by
  have huse := bake_project_add_kind.2.2
  have hmodel : (bake_project_modelFile dir p).1.kind = p.kind := by
    unfold bake_project_modelFile
    cases dir <;> rfl
  have hmanaged : ∀ r3, bake_project_new_managed dir p = some r3 → r3.kind = p.kind := by
    intro r3 hr3
    unfold bake_project_new_managed at hr3
    by_cases hc : p.language.isSome = true ∧ p.managed = true
    · rw [if_pos hc] at hr3
      simp only at hr3
      cases hm : (bake_project_modelFile dir p).2 with
      | none =>
        rw [hm] at hr3
        simp only at hr3
        by_cases he : (bake_project_modelFile dir p).1.error = true
        · simp [he] at hr3
        · simp [he] at hr3
          rw [← hr3, huse]
          exact hmodel
      | some model =>
        rw [hm] at hr3
        simp only [Option.some.injEq] at hr3
        rw [← hr3, huse]
        cases strrchr model '.' <;> exact hmodel
    · rw [if_neg hc] at hr3
      simp at hr3
      rw [hr3]
  have hdefaults : ∀ r3, (bake_project_new_defaults r3).kind = r3.kind := by
    intro r3
    unfold bake_project_new_defaults
    simp only
    split_ifs <;> simp [huse]
  unfold bake_project_new_finish at h
  cases hr : bake_project_new_managed dir p with
  | none => rw [hr] at h; cases h
  | some r3 =>
    rw [hr] at h
    simp at h
    rw [← h, hdefaults, hmanaged r3 hr]

/-- C15: for a descriptor whose `type` is `tool`, a successful
`bake_project_parseConfig` (and a successful `bake_project_new`) gives a project
of kind tool, and `bake_project_binaryPath` of it is `corto_envparse` of
`$BAKE_TARGET/bin` with no argument, so it does not depend on the project id;
`bake_project_parseConfig` does succeed, with such a project, on every such
descriptor that has a string `id` and no `value` member; and for a project of
any other kind the binary path is `corto_envparse` of
`$BAKE_TARGET/lib/corto/$BAKE_VERSION/%s` with the project id. -/
theorem C15_tool_builds_into_shared_bin
    (corto_id_size : Nat)
    (corto_locate : CStr → corto_locate_kind → Option CStr)
    (json_serialize_to_string : JSON_Value → Option CStr)
    (corto_envparse : CStr → List (Option CStr) → Option CStr)
    (jo : List (CStr × JSON_Value))
    (htype : json_object_get_string jo "type".toList = some "tool".toList) :
    (∀ p p1, bake_project_parseConfig corto_id_size corto_locate json_serialize_to_string
        (some (some (JSON_Value.JSONObject jo))) p = some (p1, 0) →
      p1.kind = bake_project_kind.BAKE_TOOL ∧
      bake_project_binaryPath corto_envparse p1 = corto_envparse "$BAKE_TARGET/bin".toList []) ∧
    (∀ dir path q, bake_project_new corto_id_size corto_locate json_serialize_to_string
        (some (some (JSON_Value.JSONObject jo))) dir path = some (some q) →
      q.kind = bake_project_kind.BAKE_TOOL ∧
      bake_project_binaryPath corto_envparse q = corto_envparse "$BAKE_TARGET/bin".toList []) ∧
    (∀ j_id_member, json_object_get_string jo "id".toList = some j_id_member →
      json_object_get_value jo "value".toList = none →
      ∀ p, ∃ p1, bake_project_parseConfig corto_id_size corto_locate json_serialize_to_string
          (some (some (JSON_Value.JSONObject jo))) p = some (p1, 0) ∧
        p1.kind = bake_project_kind.BAKE_TOOL ∧
        bake_project_binaryPath corto_envparse p1 =
          corto_envparse "$BAKE_TARGET/bin".toList []) ∧
    (∀ q : bake_project, q.kind ≠ bake_project_kind.BAKE_TOOL →
      bake_project_binaryPath corto_envparse q =
        corto_envparse "$BAKE_TARGET/lib/corto/$BAKE_VERSION/%s".toList [q.id]) := by
  have hbin : ∀ q : bake_project, q.kind = bake_project_kind.BAKE_TOOL →
      bake_project_binaryPath corto_envparse q = corto_envparse "$BAKE_TARGET/bin".toList [] := by
    intro q hq
    simp [bake_project_binaryPath, hq]
  refine ⟨?_, ?_, ?_, ?_⟩
  · intro p p1 hok
    have hk := bake_project_parseConfig_tool corto_id_size corto_locate json_serialize_to_string jo p p1
      htype hok
    exact ⟨hk, hbin p1 hk⟩
  · intro dir path q hnew
    unfold bake_project_new at hnew
    cases hc : bake_project_parseConfig corto_id_size corto_locate json_serialize_to_string
        (some (some (JSON_Value.JSONObject jo))) (bake_project_default path) with
    | none => rw [hc] at hnew; cases hnew
    | some r =>
      obtain ⟨p1, st⟩ := r
      rw [hc] at hnew
      simp only at hnew
      by_cases hst : st ≠ 0
      · rw [if_pos hst] at hnew; simp at hnew
      · rw [if_neg hst] at hnew
        have hst0 : st = 0 := by omega
        subst hst0
        have hk := bake_project_parseConfig_tool corto_id_size corto_locate json_serialize_to_string jo _ p1
          htype hc
        have hq : q.kind = bake_project_kind.BAKE_TOOL := by
          rw [bake_project_new_finish_kind dir p1 q (by simpa using hnew), hk]
        exact ⟨hq, hbin q hq⟩
  · intro j_id_member hid hvalue p
    have hobj : json_value_get_object (JSON_Value.JSONObject jo) = some jo := rfl
    have hc : bake_project_parseConfig corto_id_size corto_locate json_serialize_to_string
        (some (some (JSON_Value.JSONObject jo))) p =
        some (bake_project_parseConfig_kind { p with id := some j_id_member } "tool".toList,
          0) := by
      simp only [bake_project_parseConfig, hobj, hid, htype, hvalue]
    have hk := bake_project_parseConfig_tool corto_id_size corto_locate
      json_serialize_to_string jo p _ htype hc
    exact ⟨_, hc, hk, hbin _ hk⟩
  · intro q hq
    simp [bake_project_binaryPath, hq]

/-- Witness of C15: the descriptor of the tool `corto/tool/x` in a directory
without a model file, with an environment parser that returns the format:
`bake_project_new` returns a project of kind tool whose binary path is
`$BAKE_TARGET/bin`. -/
theorem C15_witness :
    ∃ q, bake_project_new 512 (fun _ _ => none) (fun _ => none)
        (some (some (JSON_Value.JSONObject
          [("id".toList, JSON_Value.JSONString "corto/tool/x".toList),
           ("type".toList, JSON_Value.JSONString "tool".toList)])))
        (some []) none = some (some q) ∧
      q.kind = bake_project_kind.BAKE_TOOL ∧
      bake_project_binaryPath (fun fmt _ => some fmt) q = some "$BAKE_TARGET/bin".toList :=
  ⟨{ bake_project_default none with
        id := some "corto/tool/x".toList, kind := bake_project_kind.BAKE_TOOL,
        version := some "0.0.0".toList,
        use := ["corto".toList, "corto/c".toList], use_build := ["driver/tool/pp".toList] },
    rfl,
    (C15_tool_builds_into_shared_bin 512 (fun _ _ => none) (fun _ => none)
      (fun fmt _ => some fmt)
      [("id".toList, JSON_Value.JSONString "corto/tool/x".toList),
       ("type".toList, JSON_Value.JSONString "tool".toList)] rfl).2.1 (some []) none
      { bake_project_default none with
        id := some "corto/tool/x".toList, kind := bake_project_kind.BAKE_TOOL,
        version := some "0.0.0".toList,
        use := ["corto".toList, "corto/c".toList], use_build := ["driver/tool/pp".toList] }
      rfl⟩

/-- A value of the wrong type for `language`, `version`, `managed`, `public`
or `use_generated_api` makes `bake_project_parseMember` return `-1`, and with
it `bake_project_parseMembers`. -/
theorem bake_project_parseMember_scalar_mismatch
    (corto_id_size : Nat)
    (corto_locate : CStr → corto_locate_kind → Option CStr)
    (p : bake_project) (package_id name : CStr) (v : JSON_Value)
    (h : ((name = "language".toList ∨ name = "version".toList) ∧
            json_value_get_string v = none) ∨
         ((name = "managed".toList ∨ name = "public".toList ∨
            name = "use_generated_api".toList) ∧ ∀ b, v ≠ JSON_Value.JSONBoolean b)) :
    bake_project_parseMember corto_id_size corto_locate p package_id name v = some (p, -1) := by
  rcases h with ⟨hn, hv⟩ | ⟨hn, hv⟩
  · rcases hn with hn | hn <;> subst hn <;> cases v <;>
      simp [bake_project_parseMember, json_value_get_string] at hv ⊢
  · rcases hn with hn | hn | hn <;> subst hn <;> cases v <;>
      simp [bake_project_parseMember] at hv ⊢

/-- C16 (failing input): `bake_project_parseMember` returns `0` and leaves
the project as it is for `sources` with a boolean, for `includes` with a string
and for `use` with a number, and `bake_project_parseMembers` succeeds on an
object whose `sources` member is `true`. -/
theorem C16_array_members_accept_any_type
    (corto_id_size : Nat)
    (corto_locate : CStr → corto_locate_kind → Option CStr)
    (json_serialize_to_string : JSON_Value → Option CStr)
    (p : bake_project) (package_id : CStr) :
    bake_project_parseMember corto_id_size corto_locate p package_id "sources".toList
        (JSON_Value.JSONBoolean true) = some (p, 0) ∧
    bake_project_parseMember corto_id_size corto_locate p package_id "includes".toList
        (JSON_Value.JSONString "include".toList) = some (p, 0) ∧
    bake_project_parseMember corto_id_size corto_locate p package_id "use".toList
        (JSON_Value.JSONNumber (JSON_Number.mk 1 0)) = some (p, 0) ∧
    (bake_project_parseMembers corto_id_size corto_locate json_serialize_to_string p package_id
        [("sources".toList, JSON_Value.JSONBoolean true)]).map (fun r => r.2) = some 0 := by
  refine ⟨rfl, rfl, rfl, rfl⟩

/-! ## Unique names and the built-in nodes (C21, C22) -/

theorem bake_heap_static_modify (heap : List bake_node) (i d e : Nat) :
    bake_heap_static (heap.modify (fun n => { n with deps := n.deps ++ [d] }) i) e =
      bake_heap_static heap e := by
  unfold bake_heap_static
  rw [List.getElem?_modify]
  cases heap[e]? with
  | none => rfl
  | some n => by_cases h : i = e <;> simp [h, bake_node_static]

theorem bake_heap_static_append (heap : List bake_node) (nd : bake_node) (e : Nat)
    (h : e < heap.length) : bake_heap_static (heap ++ [nd]) e = bake_heap_static heap e := by
  unfold bake_heap_static
  rw [List.getElem?_append_left h]

theorem bake_heap_name_of_static (heap : List bake_node) (e : Nat) :
    bake_heap_name heap e = (bake_heap_static heap e).map (fun n => n.name) := by
  unfold bake_heap_name bake_heap_static
  cases heap[e]? <;> rfl

theorem bake_node_addDependencies_loop_static (n : Nat) :
    ∀ (tokens : List CStr) (l : bake_language),
      l.heap.length ≤ (bake_node_addDependencies_loop l n tokens).1.heap.length ∧
      ∀ e, e < l.heap.length →
        bake_heap_static (bake_node_addDependencies_loop l n tokens).1.heap e =
          bake_heap_static l.heap e := by
  intro tokens
  induction tokens with
  | nil => intro l; exact ⟨Nat.le_refl _, fun _ _ => rfl⟩
  | cons tok rest ih =>
    intro l
    unfold bake_node_addDependencies_loop
    by_cases hd : tok.head? = some '$'
    · rw [if_pos hd]
      cases hf : bake_node_find l tok.tail with
      | none => exact ⟨Nat.le_refl _, fun _ _ => rfl⟩
      | some dep =>
        obtain ⟨h1, h2⟩ := ih (bake_node_deps_append l n dep)
        have hlen : (bake_node_deps_append l n dep).heap.length = l.heap.length := by
          simp [bake_node_deps_append]
        refine ⟨by rw [← hlen]; exact h1, fun e he => ?_⟩
        rw [h2 e (by rw [hlen]; exact he)]
        simp only [bake_node_deps_append]
        exact bake_heap_static_modify _ _ _ _
    · rw [if_neg hd]
      dsimp only
      obtain ⟨h1, h2⟩ := ih (bake_node_deps_append (bake_pattern_new l none (some tok)).1 n
        (bake_pattern_new l none (some tok)).2)
      have hlen : (bake_node_deps_append (bake_pattern_new l none (some tok)).1 n
          (bake_pattern_new l none (some tok)).2).heap.length = l.heap.length + 1 := by
        simp [bake_node_deps_append, bake_pattern_new]
      refine ⟨by omega, fun e he => ?_⟩
      rw [h2 e (by omega)]
      simp only [bake_node_deps_append, bake_pattern_new]
      rw [bake_heap_static_modify]
      exact bake_heap_static_append _ _ _ he

theorem bake_node_addToTarget_static (l : bake_language) (n : Nat) (target : bake_rule_target) :
    (bake_node_addToTarget l n target).1.nodes = l.nodes ∧
    (bake_node_addToTarget l n target).1.heap.length = l.heap.length ∧
    ∀ e, bake_heap_static (bake_node_addToTarget l n target).1.heap e =
      bake_heap_static l.heap e := by
  unfold bake_node_addToTarget
  cases target with
  | BAKE_RULE_TARGET_MAP m => exact ⟨rfl, rfl, fun _ => rfl⟩
  | BAKE_RULE_TARGET_PATTERN pat =>
    by_cases hd : pat.head? = some '$'
    · dsimp only
      rw [if_neg (by simp [hd])]
      cases bake_node_find l pat.tail with
      | none => exact ⟨rfl, rfl, fun _ => rfl⟩
      | some tn =>
        refine ⟨rfl, by simp [bake_node_deps_append], fun e => ?_⟩
        simp only [bake_node_deps_append]
        exact bake_heap_static_modify _ _ _ _
    · dsimp only
      rw [if_pos hd]
      exact ⟨rfl, rfl, fun _ => rfl⟩

/-- What one DSL call that returns does to the node list and to the existing
node objects: nothing but their dependency lists changes, and the node list is
either kept or extended by the pointer to a new node that carries a name which
no node had before. -/
theorem bake_dsl_apply_frame (l : bake_language) (c : bake_dsl_call) (l1 : bake_language)
    (hl1 : bake_dsl_apply l c = some l1) :
    l.heap.length ≤ l1.heap.length ∧
    (∀ e, e < l.heap.length → bake_heap_static l1.heap e = bake_heap_static l.heap e) ∧
    (l1.nodes = l.nodes ∨
      ∃ name, bake_node_find l name = none ∧
        l1.nodes = l.nodes ++ [l.heap.length] ∧
        l.heap.length < l1.heap.length ∧
        bake_heap_name l1.heap l.heap.length = some (some name)) := by
  have hnew : ∀ (nd : bake_node) (name : CStr), nd.name = some name →
      bake_node_find l name = none →
      l.heap.length ≤ (l.heap ++ [nd]).length ∧
      (∀ e, e < l.heap.length →
        bake_heap_static (l.heap ++ [nd]) e = bake_heap_static l.heap e) ∧
      ((l.nodes ++ [l.heap.length] = l.nodes) ∨
        ∃ name, bake_node_find l name = none ∧
          l.nodes ++ [l.heap.length] = l.nodes ++ [l.heap.length] ∧
          l.heap.length < (l.heap ++ [nd]).length ∧
          bake_heap_name (l.heap ++ [nd]) l.heap.length = some (some name)) := by
    intro nd name hnd hf
    refine ⟨by simp, fun e he => bake_heap_static_append _ _ _ he, Or.inr ⟨name, hf, rfl,
      by simp, ?_⟩⟩
    rw [bake_heap_name_new, hnd]
  cases c with
  | artefact cb =>
    have h := Option.some.inj hl1
    subst h
    exact ⟨Nat.le_refl _, fun _ _ => rfl, Or.inl rfl⟩
  | pattern name pattern =>
    have h := Option.some.inj hl1
    subst h
    simp only [bake_language_pattern]
    cases hf : bake_node_find l name with
    | some found => exact ⟨Nat.le_refl _, fun _ _ => rfl, Or.inl rfl⟩
    | none =>
      rw [if_neg (by simp)]
      dsimp only [bake_node_add, bake_pattern_new]
      refine hnew _ name ?_ hf
      rfl
  | dependency_rule name deps dep_mapping action =>
    have h := Option.some.inj hl1
    subst h
    simp only [bake_language_dependency_rule]
    cases hf : bake_node_find l name with
    | some found => exact ⟨Nat.le_refl _, fun _ _ => rfl, Or.inl rfl⟩
    | none =>
      rw [if_neg (by simp)]
      dsimp only [bake_node_add, bake_dependency_rule_new]
      refine hnew _ name ?_ hf
      rfl
  | rule name source target action =>
    have hl3 : bake_language_rule l name source target action = some l1 := hl1
    by_cases h1 : source.isNone = true ∧ target.is_map = true
    · unfold bake_language_rule at hl3
      rw [if_pos h1] at hl3
      rw [← Option.some.inj hl3]
      exact ⟨Nat.le_refl _, fun _ _ => rfl, Or.inl rfl⟩
    · cases h2 : bake_node_find l name with
      | some found =>
        unfold bake_language_rule at hl3
        rw [if_neg h1, h2] at hl3
        rw [if_pos (show (some found).isSome = true from rfl)] at hl3
        rw [← Option.some.inj hl3]
        exact ⟨Nat.le_refl _, fun _ _ => rfl, Or.inl rfl⟩
      | none =>
        obtain ⟨s, m1, m2, hs, hh1, hn1, hh2, hn2, hheap, hnodes⟩ :=
          bake_language_rule_accepted l name source target action l1 h1 h2 hl3
        have hlen1 : m1.heap.length = l.heap.length + 1 := by rw [hh1]; simp
        obtain ⟨hdlen, hdstat⟩ :=
          bake_node_addDependencies_loop_static l.heap.length (strtok_tokens s) m1
        obtain ⟨hdn, _, _⟩ :=
          bake_node_addDependencies_loop_frame l.heap.length (strtok_tokens s) m1
        obtain ⟨htn, htlen, htstat⟩ := bake_node_addToTarget_static m2 l.heap.length target
        have hstat : ∀ e, e < l.heap.length + 1 →
            bake_heap_static l1.heap e = bake_heap_static m1.heap e := by
          intro e he
          rw [hheap, htstat, hh2, hdstat e (by omega)]
        refine ⟨?_, fun e he => ?_, Or.inr ⟨name, h2, ?_, ?_, ?_⟩⟩
        · rw [hheap, htlen, hh2]; omega
        · rw [hstat e (by omega), hh1]
          exact bake_heap_static_append _ _ _ he
        · rw [hnodes, htn, hn2, hdn, hn1]
        · rw [hheap, htlen, hh2]; omega
        · rw [bake_heap_name_of_static, hstat _ (by omega), ← bake_heap_name_of_static, hh1]
          exact bake_heap_name_new _ _

theorem bake_dsl_apply_unique_names (l : bake_language) (c : bake_dsl_call)
    (h : bake_language_unique_names l) (l1 : bake_language)
    (hl1 : bake_dsl_apply l c = some l1) : bake_language_unique_names l1 := by
  obtain ⟨hlt, hnamed, hnodup⟩ := h
  obtain ⟨hlen, hstat, hnodes⟩ := bake_dsl_apply_frame l c l1 hl1
  have hname : ∀ e, e < l.heap.length →
      bake_heap_name l1.heap e = bake_heap_name l.heap e := by
    intro e he
    rw [bake_heap_name_of_static, hstat e he, ← bake_heap_name_of_static]
  have hmap : l.nodes.map (bake_heap_name l1.heap) =
      l.nodes.map (bake_heap_name l.heap) :=
    List.map_congr_left (fun e he => hname e (hlt e he))
  rcases hnodes with hsame | ⟨name, hfind, happ, hnew, hnewname⟩
  · refine ⟨?_, ?_, ?_⟩
    · intro e he
      rw [hsame] at he
      exact Nat.lt_of_lt_of_le (hlt e he) hlen
    · intro e he
      rw [hsame] at he
      rw [hname e (hlt e he)]
      exact hnamed e he
    · rw [hsame, hmap]
      exact hnodup
  · refine ⟨?_, ?_, ?_⟩
    · intro e he
      rw [happ, List.mem_append, List.mem_singleton] at he
      rcases he with he | he
      · exact Nat.lt_of_lt_of_le (hlt e he) hlen
      · rw [he]; exact hnew
    · intro e he
      rw [happ, List.mem_append, List.mem_singleton] at he
      rcases he with he | he
      · rw [hname e (hlt e he)]
        exact hnamed e he
      · rw [he]; exact ⟨name, hnewname⟩
    · rw [happ, List.map_append, hmap, List.map_singleton, hnewname]
      rw [List.nodup_append]
      refine ⟨hnodup, List.nodup_singleton _, ?_⟩
      intro x hx hx2
      rw [List.mem_singleton] at hx2
      rw [hx2, List.mem_map] at hx
      obtain ⟨e, he, hne⟩ := hx
      exact (bake_node_find_eq_none_iff l name).1 hfind e he hne

theorem bake_dsl_run_unique_names :
    ∀ (calls : List bake_dsl_call) (l : bake_language),
      bake_language_unique_names l →
      ∀ l2, bake_dsl_run l calls = some l2 → bake_language_unique_names l2 := by
  intro calls
  induction calls with
  | nil =>
    intro l h l2 hl2
    rw [← Option.some.inj hl2]
    exact h
  | cons c rest ih =>
    intro l h l2 hl2
    obtain ⟨l1, h1, h2⟩ := bake_dsl_run_cons l l2 c rest hl2
    exact ih l1 (bake_dsl_apply_unique_names l c h l1 h1) l2 h2

theorem bake_dsl_apply_rooted (l : bake_language) (c : bake_dsl_call)
    (hlt : ∀ e ∈ l.nodes, e < l.heap.length)
    (h : bake_language_rooted l) (l1 : bake_language)
    (hl1 : bake_dsl_apply l c = some l1) : bake_language_rooted l1 := by
  obtain ⟨e0, e1, rest, n0, n1, hn, h0, h1, hk0, hm0, hk1, hm1⟩ := h
  obtain ⟨hlen, hstat, hnodes⟩ := bake_dsl_apply_frame l c l1 hl1
  have hget : ∀ e (n : bake_node), e ∈ l.nodes → l.heap[e]? = some n →
      ∃ n2, l1.heap[e]? = some n2 ∧ n2.kind = n.kind ∧ n2.name = n.name := by
    intro e n he hn
    have hs := hstat e (hlt e he)
    unfold bake_heap_static at hs
    rw [hn] at hs
    cases h2 : l1.heap[e]? with
    | none => rw [h2] at hs; cases hs
    | some n2 =>
      rw [h2] at hs
      have hs : bake_node_static n2 = bake_node_static n := by simpa using hs
      have hk := congrArg bake_node.kind hs
      have hm := congrArg bake_node.name hs
      exact ⟨n2, rfl, hk, hm⟩
  obtain ⟨m0, hm0a, hm0b, hm0c⟩ := hget e0 n0 (by rw [hn]; simp) h0
  obtain ⟨m1, hm1a, hm1b, hm1c⟩ := hget e1 n1 (by rw [hn]; simp) h1
  have hnodes2 : ∃ rest2, l1.nodes = e0 :: e1 :: rest2 := by
    rcases hnodes with hsame | ⟨name, _, happ, _, _⟩
    · exact ⟨rest, by rw [hsame, hn]⟩
    · exact ⟨rest ++ [l.heap.length], by rw [happ, hn]; rfl⟩
  obtain ⟨rest2, hr2⟩ := hnodes2
  exact ⟨e0, e1, rest2, m0, m1, hr2, hm0a, hm1a, by rw [hm0b, hk0], by rw [hm0c, hm0],
    by rw [hm1b, hk1], by rw [hm1c, hm1]⟩

theorem bake_dsl_run_rooted :
    ∀ (calls : List bake_dsl_call) (l : bake_language),
      bake_language_unique_names l → bake_language_rooted l →
      ∀ l2, bake_dsl_run l calls = some l2 → bake_language_rooted l2 := by
  intro calls
  induction calls with
  | nil =>
    intro l _ h l2 hl2
    rw [← Option.some.inj hl2]
    exact h
  | cons c rest ih =>
    intro l hu h l2 hl2
    obtain ⟨l1, h1, h2⟩ := bake_dsl_run_cons l l2 c rest hl2
    exact ih l1 (bake_dsl_apply_unique_names l c hu l1 h1)
      (bake_dsl_apply_rooted l c hu.1 h l1 h1) l2 h2

theorem bake_language_seed_unique_names : bake_language_unique_names bake_language_seed := by
  refine ⟨by decide, ?_, by decide⟩
  intro e he
  have h2 : e = 0 ∨ e = 1 := by
    have : e ∈ [0, 1] := he
    simpa using this
  rcases h2 with h | h
  · exact ⟨"ARTEFACT".toList, by rw [h]; rfl⟩
  · exact ⟨"DEFINITION".toList, by rw [h]; rfl⟩

theorem bake_language_seed_rooted : bake_language_rooted bake_language_seed :=
  ⟨0, 1, [], _, _, rfl, rfl, rfl, rfl, rfl, rfl, rfl⟩

/-- The ARTEFACT root of a language with the two built-in nodes is found, and it
is the first node of the node list. -/
theorem bake_language_rooted_find (l : bake_language) (h : bake_language_rooted l) :
    ∃ root rest, l.nodes = root :: rest ∧ bake_node_find l "ARTEFACT".toList = some root := by
  obtain ⟨e0, e1, rest, n0, n1, hn, h0, h1, hk0, hm0, hk1, hm1⟩ := h
  refine ⟨e0, e1 :: rest, hn, ?_⟩
  unfold bake_node_find
  rw [hn, List.find?_cons]
  have : bake_node_named l "ARTEFACT".toList e0 = true := by
    unfold bake_node_named
    rw [h0]
    simp [hm0]
  rw [this]

theorem bake_language_get_rooted (corto_load_sym : CStr → Option bake_driver)
    (languages : List bake_language) (language : CStr)
    (h : ∀ e ∈ languages, bake_language_rooted e)
    (r : Option bake_language × List bake_language)
    (hr : bake_language_get corto_load_sym languages language = some r) :
    (∀ l, r.1 = some l → bake_language_rooted l) ∧ ∀ e ∈ r.2, bake_language_rooted e := by
  have hrun : ∀ (calls : List bake_dsl_call) (l0 : bake_language),
      bake_dsl_run bake_language_seed calls = some l0 →
      bake_language_rooted
        { l0 with name := some language,
                  package := some ("driver/bake/".toList ++ language) } :=
    fun calls l0 hl0 => bake_dsl_run_rooted calls _ bake_language_seed_unique_names
      bake_language_seed_rooted l0 hl0
  unfold bake_language_get at hr
  simp only at hr
  cases hf : languages.find?
      (fun e => e.package == some ("driver/bake/".toList ++ language)) with
  | some l0 =>
    rw [hf] at hr
    have hl0 := h l0 (List.mem_of_find?_eq_some hf)
    rw [← Option.some.inj hr]
    refine ⟨fun l hl => ?_, fun e he => ?_⟩
    · simp only [Option.some.injEq] at hl
      rw [← hl]; exact hl0
    · simp only [List.mem_append, List.mem_singleton] at he
      rcases he with he | he
      · exact h e he
      · rw [he]; exact hl0
  | none =>
    rw [hf] at hr
    simp only at hr
    cases hs : corto_load_sym ("driver/bake/".toList ++ language) with
    | none =>
      rw [hs] at hr
      rw [← Option.some.inj hr]
      exact ⟨fun l hl => (by cases hl), h⟩
    | some main =>
      rw [hs] at hr
      simp only at hr
      cases hrn : bake_dsl_run bake_language_seed main.calls with
      | none => rw [hrn] at hr; cases hr
      | some l0 =>
        rw [hrn] at hr
        simp only at hr
        split_ifs at hr with h1 h2
        · rw [← Option.some.inj hr]
          exact ⟨fun l hl => (by cases hl), h⟩
        · rw [← Option.some.inj hr]
          exact ⟨fun l hl => (by cases hl), h⟩
        · rw [← Option.some.inj hr]
          refine ⟨fun l hl => ?_, fun e he => ?_⟩
          · simp only [Option.some.injEq] at hl
            rw [← hl]; exact hrun _ l0 hrn
          · simp only [List.mem_append, List.mem_singleton] at he
            rcases he with (he | he) | he
            · exact h e he
            · rw [he]; exact hrun _ l0 hrn
            · rw [he]; exact hrun _ l0 hrn

theorem bake_language_get_all_rooted :
    ∀ (reqs : List ((CStr → Option bake_driver) × CStr)) (languages regs : List bake_language),
      (∀ e ∈ languages, bake_language_rooted e) →
      bake_language_get_all languages reqs = some regs →
      ∀ e ∈ regs, bake_language_rooted e := by
  intro reqs
  induction reqs with
  | nil =>
    intro languages regs h hregs
    simp only [bake_language_get_all, Option.some.injEq] at hregs
    rw [← hregs]
    exact h
  | cons r rest ih =>
    intro languages regs h hregs
    unfold bake_language_get_all at hregs
    cases hg : bake_language_get r.1 languages r.2 with
    | none => rw [hg] at hregs; cases hregs
    | some x =>
      rw [hg] at hregs
      exact ih x.2 regs (bake_language_get_rooted r.1 languages r.2 h x hg).2 hregs

/-- C21: in the language reached from the seeded state by any sequence of
`pattern`, `rule`, `dependency_rule` (and `artefact`) calls, every node of the
node list has a name and the names of the nodes of the list, taken in list
order, are pairwise distinct; and the sequence does reach a language when every
rule has a source string or a mapping target. -/
theorem C21_node_names_are_distinct (calls : List bake_dsl_call) :
    (∀ l, bake_dsl_run bake_language_seed calls = some l →
      (l.nodes.map (bake_heap_name l.heap)).Nodup ∧
      ∀ e ∈ l.nodes, ∃ name, bake_heap_name l.heap e = some (some name)) ∧
    ((∀ c ∈ calls, c.sourced = true) →
      ∃ l, bake_dsl_run bake_language_seed calls = some l) :=
  ⟨fun l hl =>
    have h := bake_dsl_run_unique_names calls _ bake_language_seed_unique_names l hl
    ⟨h.2.2, h.2.1⟩,
   fun hsrc => bake_dsl_run_defined calls bake_language_seed hsrc⟩

/-- Witness of C21: a driver that declares the pattern SOURCES and the rule
`objects`, and then declares SOURCES again. -/
theorem C21_witness :
    ∃ l, bake_dsl_run bake_language_seed
        [bake_dsl_call.pattern "SOURCES".toList (some "*.c".toList),
         bake_dsl_call.rule "objects".toList (some "$SOURCES".toList)
          (bake_rule_target.BAKE_RULE_TARGET_PATTERN "$ARTEFACT".toList) 0,
         bake_dsl_call.pattern "SOURCES".toList (some "*.cpp".toList)] = some l ∧
      (l.nodes.map (bake_heap_name l.heap)).Nodup :=
  have h := C21_node_names_are_distinct
    [bake_dsl_call.pattern "SOURCES".toList (some "*.c".toList),
     bake_dsl_call.rule "objects".toList (some "$SOURCES".toList)
      (bake_rule_target.BAKE_RULE_TARGET_PATTERN "$ARTEFACT".toList) 0,
     bake_dsl_call.pattern "SOURCES".toList (some "*.cpp".toList)]
  Exists.elim (h.2 (by decide)) (fun l hl => ⟨l, hl, (h.1 l hl).1⟩)

/-- C22: a language that `bake_language_get` returns, after any sequence of
earlier requests that return, on a registry that started empty, has a node
list that starts
with a Pattern node named ARTEFACT followed by a Pattern node named DEFINITION;
`bake_node_find` of ARTEFACT returns the first node of the list; and a build
of it with an artefact callback set never stops the process. -/
theorem C22_returned_language_has_the_root
    (reqs : List ((CStr → Option bake_driver) × CStr))
    (corto_load_sym : CStr → Option bake_driver) (language : CStr) (l : bake_language)
    (regs regs2 : List bake_language)
    (hreqs : bake_language_get_all [] reqs = some regs)
    (h : bake_language_get corto_load_sym regs language = some (some l, regs2)) :
    bake_language_rooted l ∧
    (∃ root rest, l.nodes = root :: rest ∧
      bake_node_find l "ARTEFACT".toList = some root) ∧
    ∀ cb, l.artefact_cb = some cb →
      ∀ corto_envparse fuel p visited,
        bake_language_build corto_envparse fuel l p ≠
          some (bake_build_outcome.aborted, visited) := by
  have hr : bake_language_rooted l :=
    (bake_language_get_rooted corto_load_sym regs language
      (bake_language_get_all_rooted reqs [] regs (fun e he => by cases he) hreqs)
      (some l, regs2) h).1 l rfl
  obtain ⟨root, rest, hn, hf⟩ := bake_language_rooted_find l hr
  refine ⟨hr, ⟨root, rest, hn, hf⟩, ?_⟩
  intro cb hcb corto_envparse fuel p visited
  unfold bake_language_build
  rw [hf]
  simp only [hcb]
  split_ifs with h1
  · simp
  · cases bake_node_eval l p fuel root
        (some (cb (bake_filelist_new (bake_project_binaryPath corto_envparse p) none) p)) with
    | none => simp
    | some rv =>
      obtain ⟨r, v⟩ := rv
      simp only
      split_ifs <;> simp

/-- Witness of C22: language `c`, whose driver declares the pattern SOURCES,
requested after a failed request for `cpp`. -/
theorem C22_witness :
    bake_language_rooted
      { bake_language_pattern bake_language_seed "SOURCES".toList (some "*.c".toList) with
        name := some "c".toList, package := some ("driver/bake/".toList ++ "c".toList) } :=
  (C22_returned_language_has_the_root [(fun _ => none, "cpp".toList)]
    (fun _ => some (bake_driver.mk
      [bake_dsl_call.pattern "SOURCES".toList (some "*.c".toList)] 0))
    "c".toList
    { bake_language_pattern bake_language_seed "SOURCES".toList (some "*.c".toList) with
        name := some "c".toList, package := some ("driver/bake/".toList ++ "c".toList) }
    [] _ rfl rfl).1

/-! ## Accumulators keep order and uniqueness (C28) -/

theorem cstr_any_eq_iff_mem (xs : List CStr) (s : CStr) :
    xs.any (fun x => x == s) = true ↔ s ∈ xs := by
  simp

theorem bake_project_add_lists (p : bake_project) (s : CStr) :
    ((bake_project_addSource p s).sources = (if s ∈ p.sources then p.sources
        else p.sources ++ [s]) ∧
      (bake_project_addSource p s).includes = p.includes ∧
      (bake_project_addSource p s).use = p.use) ∧
    ((bake_project_addInclude p s).includes = (if s ∈ p.includes then p.includes
        else p.includes ++ [s]) ∧
      (bake_project_addInclude p s).sources = p.sources ∧
      (bake_project_addInclude p s).use = p.use) ∧
    ((bake_project_use p s).use = (if s ∈ p.use then p.use else p.use ++ [s]) ∧
      (bake_project_use p s).sources = p.sources ∧
      (bake_project_use p s).includes = p.includes) := by
  refine ⟨?_, ?_, ?_⟩
  · unfold bake_project_addSource
    by_cases h : s ∈ p.sources
    · simp [h]
    · simp [h]
  · unfold bake_project_addInclude
    by_cases h : s ∈ p.includes
    · simp [h]
    · simp [h]
  · unfold bake_project_use
    by_cases h : s ∈ p.use
    · simp [h]
    · simp [h]

theorem cstr_add_nodup (xs : List CStr) (s : CStr) (h : xs.Nodup) :
    (if s ∈ xs then xs else xs ++ [s]).Nodup ∧
    ∃ ext, (if s ∈ xs then xs else xs ++ [s]) = xs ++ ext := by
  by_cases hs : s ∈ xs
  · simp only [hs, if_true]
    exact ⟨h, [], by simp⟩
  · simp only [hs, if_false]
    refine ⟨?_, [s], rfl⟩
    rw [List.nodup_append]
    refine ⟨h, List.nodup_singleton s, ?_⟩
    intro a ha hb
    simp at hb
    exact hs (hb ▸ ha)

/-- C28: for `bake_project_addSource`, `bake_project_addInclude` and
`bake_project_use`, whatever the project and the string, the list after the
call is the list before when the string occurs in it, and the list before with
the string appended otherwise; so after any sequence of these calls each of the
three lists is the list before followed by further entries, and a list that
had no duplicate has none afterwards. -/
theorem C28_accumulators_append_or_keep (p : bake_project) (s : CStr) :
    ((bake_project_addSource p s).sources =
        (if s ∈ p.sources then p.sources else p.sources ++ [s]) ∧
      (bake_project_addInclude p s).includes =
        (if s ∈ p.includes then p.includes else p.includes ++ [s]) ∧
      (bake_project_use p s).use = (if s ∈ p.use then p.use else p.use ++ [s])) ∧
    ∀ calls : List bake_project_add_call,
      (∃ ext, (bake_project_add_run p calls).sources = p.sources ++ ext) ∧
      (∃ ext, (bake_project_add_run p calls).includes = p.includes ++ ext) ∧
      (∃ ext, (bake_project_add_run p calls).use = p.use ++ ext) ∧
      (p.sources.Nodup → (bake_project_add_run p calls).sources.Nodup) ∧
      (p.includes.Nodup → (bake_project_add_run p calls).includes.Nodup) ∧
      (p.use.Nodup → (bake_project_add_run p calls).use.Nodup) := by
  refine ⟨⟨(bake_project_add_lists p s).1.1, (bake_project_add_lists p s).2.1.1,
    (bake_project_add_lists p s).2.2.1⟩, ?_⟩
  intro calls
  induction calls generalizing p with
  | nil =>
    exact ⟨⟨[], by simp [bake_project_add_run]⟩, ⟨[], by simp [bake_project_add_run]⟩,
      ⟨[], by simp [bake_project_add_run]⟩, fun h => h, fun h => h, fun h => h⟩
  | cons c rest ih =>
    have hstep : (∃ ext, (bake_project_add_apply p c).sources = p.sources ++ ext) ∧
        (∃ ext, (bake_project_add_apply p c).includes = p.includes ++ ext) ∧
        (∃ ext, (bake_project_add_apply p c).use = p.use ++ ext) ∧
        (p.sources.Nodup → (bake_project_add_apply p c).sources.Nodup) ∧
        (p.includes.Nodup → (bake_project_add_apply p c).includes.Nodup) ∧
        (p.use.Nodup → (bake_project_add_apply p c).use.Nodup) := by
      cases c with
      | addSource x =>
        obtain ⟨h1, h2, h3⟩ := (bake_project_add_lists p x).1
        simp only [bake_project_add_apply]
        rw [h1, h2, h3]
        by_cases hx : x ∈ p.sources
        · simp only [hx, if_true]
          exact ⟨⟨[], by simp⟩, ⟨[], by simp⟩, ⟨[], by simp⟩, fun h => h, fun h => h,
            fun h => h⟩
        · simp only [hx, if_false]
          refine ⟨⟨[x], rfl⟩, ⟨[], by simp⟩, ⟨[], by simp⟩, fun h => ?_, fun h => h,
            fun h => h⟩
          have := (cstr_add_nodup p.sources x h).1
          simpa [hx] using this
      | addInclude x =>
        obtain ⟨h1, h2, h3⟩ := (bake_project_add_lists p x).2.1
        simp only [bake_project_add_apply]
        rw [h1, h2, h3]
        by_cases hx : x ∈ p.includes
        · simp only [hx, if_true]
          exact ⟨⟨[], by simp⟩, ⟨[], by simp⟩, ⟨[], by simp⟩, fun h => h, fun h => h,
            fun h => h⟩
        · simp only [hx, if_false]
          refine ⟨⟨[], by simp⟩, ⟨[x], rfl⟩, ⟨[], by simp⟩, fun h => h, fun h => ?_,
            fun h => h⟩
          have := (cstr_add_nodup p.includes x h).1
          simpa [hx] using this
      | use x =>
        obtain ⟨h1, h2, h3⟩ := (bake_project_add_lists p x).2.2
        simp only [bake_project_add_apply]
        rw [h1, h2, h3]
        by_cases hx : x ∈ p.use
        · simp only [hx, if_true]
          exact ⟨⟨[], by simp⟩, ⟨[], by simp⟩, ⟨[], by simp⟩, fun h => h, fun h => h,
            fun h => h⟩
        · simp only [hx, if_false]
          refine ⟨⟨[], by simp⟩, ⟨[], by simp⟩, ⟨[x], rfl⟩, fun h => h, fun h => h,
            fun h => ?_⟩
          have := (cstr_add_nodup p.use x h).1
          simpa [hx] using this
    obtain ⟨⟨e1, s1⟩, ⟨e2, s2⟩, ⟨e3, s3⟩, n1, n2, n3⟩ := hstep
    obtain ⟨⟨f1, t1⟩, ⟨f2, t2⟩, ⟨f3, t3⟩, m1, m2, m3⟩ := ih (bake_project_add_apply p c)
    have hrun : bake_project_add_run p (c :: rest) =
        bake_project_add_run (bake_project_add_apply p c) rest := rfl
    rw [hrun]
    exact ⟨⟨e1 ++ f1, by rw [t1, s1, List.append_assoc]⟩,
      ⟨e2 ++ f2, by rw [t2, s2, List.append_assoc]⟩,
      ⟨e3 ++ f3, by rw [t3, s3, List.append_assoc]⟩,
      fun h => m1 (n1 h), fun h => m2 (n2 h), fun h => m3 (n3 h)⟩

/-- Witness of C28: `src` is added once and `gen` twice to the lists of a
project with defaults only. -/
theorem C28_witness :
    (bake_project_add_run (bake_project_default none)
      [bake_project_add_call.addSource "src".toList,
       bake_project_add_call.addSource "gen".toList,
       bake_project_add_call.addSource "gen".toList]).sources.Nodup :=
  ((C28_accumulators_append_or_keep (bake_project_default none) "src".toList).2
    [bake_project_add_call.addSource "src".toList,
     bake_project_add_call.addSource "gen".toList,
     bake_project_add_call.addSource "gen".toList]).2.2.2.1 (by decide)

/-! ## Termination and paths of the evaluator (C24, C27) -/

theorem bake_node_eval_succ (l : bake_language) (p : bake_project) (fuel n : Nat)
    (targets : Option bake_filelist) (node : bake_node) (h : l.heap[n]? = some node) :
    bake_node_eval l p (fuel + 1) n targets =
      match bake_node_eval_target node targets with
      | some fl =>
        match bake_node_eval_deps (fun e => bake_node_eval l p fuel e (some fl)) node.deps with
        | none => none
        | some (r, v) => some (r, n :: v)
      | none => some (0, [n]) := by
  simp only [bake_node_eval, h, bake_node_eval_target]

theorem bake_node_eval_target_some (node : bake_node) (fl : bake_filelist) :
    ∃ fl2, bake_node_eval_target node (some fl) = some fl2 := by
  unfold bake_node_eval_target
  simp only
  generalize (if node.kind = bake_rule_kind.BAKE_RULE_PATTERN then bake_node_eval_pattern node
      else if node.kind = bake_rule_kind.BAKE_RULE_RULE then bake_node_eval_rule node
      else none) = target_fl
  cases target_fl with
  | none => exact ⟨fl, rfl⟩
  | some x => exact ⟨x, rfl⟩

/-- The loop over the dependencies returns `0` when every recursive call that
returns does so with `0`. -/
theorem bake_node_eval_deps_status (ev : Nat → Option (Int × List Nat))
    (hev : ∀ e r v, ev e = some (r, v) → r = 0) :
    ∀ (deps : List Nat) (r : Int) (v : List Nat),
      bake_node_eval_deps ev deps = some (r, v) → r = 0 := by
  intro deps
  induction deps with
  | nil =>
    intro r v h
    simp only [bake_node_eval_deps, Option.some.injEq, Prod.mk.injEq] at h
    exact h.1.symm
  | cons e es ih =>
    intro r v h
    unfold bake_node_eval_deps at h
    cases h1 : ev e with
    | none => rw [h1] at h; cases h
    | some rv =>
      obtain ⟨r1, v1⟩ := rv
      rw [h1] at h
      have hr1 := hev e r1 v1 h1
      simp only [hr1, ne_eq, not_true_eq_false, if_false] at h
      cases h2 : bake_node_eval_deps ev es with
      | none => rw [h2] at h; cases h
      | some rv2 =>
        obtain ⟨r2, v2⟩ := rv2
        rw [h2] at h
        simp only [Option.some.injEq, Prod.mk.injEq] at h
        rw [← h.1]
        exact ih r2 v2 h2

/-- A call of `bake_node_eval` that returns, returns `0`: the error exit is
taken only after a recursive call returned non-zero. -/
theorem bake_node_eval_status (l : bake_language) (p : bake_project) :
    ∀ (fuel n : Nat) (targets : Option bake_filelist) (r : Int) (v : List Nat),
      bake_node_eval l p fuel n targets = some (r, v) → r = 0 := by
  intro fuel
  induction fuel with
  | zero => intro n targets r v h; simp [bake_node_eval] at h
  | succ fuel ih =>
    intro n targets r v h
    cases hn : l.heap[n]? with
    | none => simp [bake_node_eval, hn] at h
    | some node =>
      rw [bake_node_eval_succ l p fuel n targets node hn] at h
      cases ht : bake_node_eval_target node targets with
      | none =>
        rw [ht] at h
        simp only [Option.some.injEq, Prod.mk.injEq] at h
        exact h.1.symm
      | some fl =>
        rw [ht] at h
        simp only at h
        cases hd : bake_node_eval_deps (fun e => bake_node_eval l p fuel e (some fl))
            node.deps with
        | none => rw [hd] at h; cases h
        | some rv =>
          obtain ⟨r1, v1⟩ := rv
          rw [hd] at h
          simp only [Option.some.injEq, Prod.mk.injEq] at h
          rw [← h.1]
          exact bake_node_eval_deps_status _ (fun e r v he => ih e (some fl) r v he)
            node.deps r1 v1 hd

/-- The loop over the dependencies returns when every recursive call does. -/
theorem bake_node_eval_deps_total (ev : Nat → Option (Int × List Nat)) :
    ∀ (deps : List Nat), (∀ e ∈ deps, ∃ v, ev e = some (0, v)) →
      ∃ v, bake_node_eval_deps ev deps = some (0, v) := by
  intro deps
  induction deps with
  | nil => intro _; exact ⟨[], rfl⟩
  | cons e es ih =>
    intro h
    obtain ⟨v1, h1⟩ := h e (List.mem_cons_self _ _)
    obtain ⟨v2, h2⟩ := ih (fun x hx => h x (List.mem_cons_of_mem _ hx))
    exact ⟨v1 ++ v2, by simp [bake_node_eval_deps, h1, h2]⟩

/-- A list of distinct node pointers is not longer than the heap. -/
theorem bake_nodup_length_le (xs : List Nat) (n : Nat) (hnd : xs.Nodup)
    (hlt : ∀ x ∈ xs, x < n) : xs.length ≤ n := by
  have hsub : xs ⊆ List.range n := fun x hx => List.mem_range.2 (hlt x hx)
  have := (List.Nodup.subperm hnd hsub).length_le
  simpa using this

/-- In a closed language without a cycle `bake_node_eval` returns `0` as soon
as the depth bound, together with the number of ancestors through which the
node was reached, is at least the number of allocated nodes. -/
theorem bake_node_eval_total_anc (l : bake_language) (p : bake_project)
    (hclosed : bake_language_closed l) (hacyc : ¬ bake_language_cyclic l) :
    ∀ (fuel : Nat) (anc : List Nat) (a : Nat) (fl : bake_filelist),
      anc.Nodup → (∀ x ∈ anc, x < l.heap.length) →
      (∀ x ∈ anc, Relation.TransGen (bake_node_dep l) x a) →
      a < l.heap.length → l.heap.length ≤ fuel + anc.length →
      ∃ v, bake_node_eval l p fuel a (some fl) = some (0, v) := by
  intro fuel
  induction fuel with
  | zero =>
    intro anc a fl hnd hlt hreach ha hlen
    exfalso
    have hnot : a ∉ anc := fun hmem => hacyc ⟨a, hreach a hmem⟩
    have h2 := bake_nodup_length_le (a :: anc) l.heap.length (List.nodup_cons.2 ⟨hnot, hnd⟩)
      (by
        intro x hx
        rcases List.mem_cons.1 hx with h | h
        · rw [h]; exact ha
        · exact hlt x h)
    simp only [List.length_cons] at h2
    omega
  | succ fuel ih =>
    intro anc a fl hnd hlt hreach ha hlen
    have hnot : a ∉ anc := fun hmem => hacyc ⟨a, hreach a hmem⟩
    have hget : l.heap[a]? = some (l.heap.get ⟨a, ha⟩) := by
      rw [List.getElem?_eq_getElem ha]; rfl
    rw [bake_node_eval_succ l p fuel a (some fl) _ hget]
    obtain ⟨fl2, hfl2⟩ := bake_node_eval_target_some (l.heap.get ⟨a, ha⟩) fl
    rw [hfl2]
    simp only
    have hdeps : ∀ e ∈ (l.heap.get ⟨a, ha⟩).deps,
        ∃ v, bake_node_eval l p fuel e (some fl2) = some (0, v) := by
      intro e he
      have hedge : bake_node_dep l a e := ⟨_, hget, he⟩
      apply ih (a :: anc) e fl2 (List.nodup_cons.2 ⟨hnot, hnd⟩)
      · intro x hx
        rcases List.mem_cons.1 hx with h | h
        · rw [h]; exact ha
        · exact hlt x h
      · intro x hx
        rcases List.mem_cons.1 hx with h | h
        · rw [h]; exact Relation.TransGen.single hedge
        · exact Relation.TransGen.tail (hreach x h) hedge
      · exact hclosed.2 _ (List.get_mem _ _ _) e he
      · simp only [List.length_cons]; omega
    obtain ⟨v, hv⟩ := bake_node_eval_deps_total _ _ hdeps
    rw [hv]
    exact ⟨_, rfl⟩

/-- In a closed language without a cycle `bake_node_eval` on an allocated node
with a non-null inherited Filelist returns `0` within a depth of the number of
allocated nodes. -/
theorem bake_node_eval_total (l : bake_language) (p : bake_project)
    (hclosed : bake_language_closed l) (hacyc : ¬ bake_language_cyclic l)
    (fuel n : Nat) (fl : bake_filelist) (hn : n < l.heap.length)
    (hfuel : l.heap.length ≤ fuel) :
    ∃ v, bake_node_eval l p fuel n (some fl) = some (0, v) :=
  bake_node_eval_total_anc l p hclosed hacyc fuel [] n fl List.nodup_nil
    (fun x hx => by cases hx) (fun x hx => by cases hx) hn (by simpa using hfuel)

theorem bake_node_eval_deps_congr (ev ev2 : Nat → Option (Int × List Nat)) :
    ∀ (deps : List Nat) (x : Int × List Nat),
      (∀ e ∈ deps, ∀ y, ev e = some y → ev2 e = some y) →
      bake_node_eval_deps ev deps = some x → bake_node_eval_deps ev2 deps = some x := by
  intro deps
  induction deps with
  | nil => intro x _ h; exact h
  | cons e es ih =>
    intro x hev h
    unfold bake_node_eval_deps at h ⊢
    cases h1 : ev e with
    | none => rw [h1] at h; cases h
    | some rv =>
      obtain ⟨r1, v1⟩ := rv
      rw [h1] at h
      rw [hev e (List.mem_cons_self _ _) _ h1]
      simp only at h ⊢
      split_ifs at h ⊢ with hr
      · exact h
      · cases h2 : bake_node_eval_deps ev es with
        | none => rw [h2] at h; cases h
        | some rv2 =>
          rw [h2] at h
          rw [ih rv2 (fun x hx => hev x (List.mem_cons_of_mem _ hx)) h2]
          exact h

/-- A larger depth bound does not change a result. -/
theorem bake_node_eval_mono (l : bake_language) (p : bake_project) :
    ∀ (fuel n : Nat) (targets : Option bake_filelist) (x : Int × List Nat),
      bake_node_eval l p fuel n targets = some x →
      ∀ k, fuel ≤ k → bake_node_eval l p k n targets = some x := by
  intro fuel
  induction fuel with
  | zero => intro n targets x h; simp [bake_node_eval] at h
  | succ fuel ih =>
    intro n targets x h k hk
    obtain ⟨k2, hk2⟩ : ∃ k2, k = k2 + 1 := ⟨k - 1, by omega⟩
    rw [hk2]
    cases hn : l.heap[n]? with
    | none => simp [bake_node_eval, hn] at h
    | some node =>
      rw [bake_node_eval_succ l p fuel n targets node hn] at h
      rw [bake_node_eval_succ l p k2 n targets node hn]
      cases ht : bake_node_eval_target node targets with
      | none => rw [ht] at h; exact h
      | some fl =>
        rw [ht] at h
        simp only at h ⊢
        cases hd : bake_node_eval_deps (fun e => bake_node_eval l p fuel e (some fl))
            node.deps with
        | none => rw [hd] at h; cases h
        | some rv =>
          rw [hd] at h
          rw [bake_node_eval_deps_congr _ (fun e => bake_node_eval l p k2 e (some fl)) node.deps
            rv (fun e _ y hy => ih e (some fl) y hy k2 (by omega)) hd]
          exact h

/-- The graph invariant of the languages that drivers assemble makes the
language closed. -/
theorem bake_graph_inv_closed (S T : List CStr) (l : bake_language)
    (h : bake_graph_inv S T l.heap l.nodes) : bake_language_closed l := by
  refine ⟨h.nodes_lt, ?_⟩
  intro node hnode b hb
  obtain ⟨i, hi, hget⟩ := List.getElem_of_mem hnode
  exact (h.edge i node b (by rw [List.getElem?_eq_getElem hi, hget]) hb).1

/-- The graph invariant holds of the language that a sequence of DSL calls
assembles from the seeded state, when no rule names itself. -/
theorem bake_dsl_run_seed_inv (calls : List bake_dsl_call)
    (hself : ∀ c ∈ calls, c.names_itself = false) (l : bake_language)
    (hl : bake_dsl_run bake_language_seed calls = some l) :
    bake_graph_inv (bake_dsl_sources calls) (bake_dsl_targets calls) l.heap l.nodes :=
  bake_dsl_run_inv _ _ calls bake_language_seed (bake_language_seed_inv _ _)
    (fun c hc => bake_call_ok_of_mem calls c hc (hself c hc)) l hl

/-- C27: in a language whose pointers refer to allocated nodes and whose
dependency relation has no cycle, `bake_node_eval` on any node, with any
project and a non-null inherited Filelist, returns `0` (one result for every
depth bound from the number of allocated nodes on); a call of `bake_node_eval`
that returns never returns anything but `0`; and when the language has an
ARTEFACT node and an artefact callback, `bake_language_build` returns `0`
exactly when the callback leaves at least one file in the root Filelist, and
`-1` without evaluating a node otherwise. -/
theorem C27_evaluation_terminates_with_success (l : bake_language)
    (hclosed : bake_language_closed l) (hacyc : ¬ bake_language_cyclic l) :
    (∀ (p : bake_project) (n : Nat) (fl : bake_filelist), n < l.heap.length →
      ∃ v, ∀ fuel, l.heap.length ≤ fuel →
        bake_node_eval l p fuel n (some fl) = some (0, v)) ∧
    (∀ (p : bake_project) (fuel n : Nat) (targets : Option bake_filelist) (r : Int)
        (v : List Nat), bake_node_eval l p fuel n targets = some (r, v) → r = 0) ∧
    ∀ (corto_envparse : CStr → List (Option CStr) → Option CStr) (p : bake_project)
      (root : Nat) (cb : bake_rule_artefact_cb),
      bake_node_find l "ARTEFACT".toList = some root → l.artefact_cb = some cb →
      ((bake_filelist_count
          (cb (bake_filelist_new (bake_project_binaryPath corto_envparse p) none) p) ≠ 0 →
        ∃ v, ∀ fuel, l.heap.length ≤ fuel → bake_language_build corto_envparse fuel l p =
          some (bake_build_outcome.returned 0, v)) ∧
       (bake_filelist_count
          (cb (bake_filelist_new (bake_project_binaryPath corto_envparse p) none) p) = 0 →
        ∀ fuel, bake_language_build corto_envparse fuel l p =
          some (bake_build_outcome.returned (-1), []))) := by
  have htotal : ∀ (p : bake_project) (n : Nat) (fl : bake_filelist), n < l.heap.length →
      ∃ v, ∀ fuel, l.heap.length ≤ fuel →
        bake_node_eval l p fuel n (some fl) = some (0, v) := by
    intro p n fl hn
    obtain ⟨v, hv⟩ := bake_node_eval_total l p hclosed hacyc l.heap.length n fl hn
      (Nat.le_refl _)
    exact ⟨v, fun fuel hfuel => bake_node_eval_mono l p _ n _ _ hv fuel hfuel⟩
  refine ⟨htotal, fun p fuel n targets r v h => bake_node_eval_status l p fuel n targets r v h,
    ?_⟩
  intro corto_envparse p root cb hroot hcb
  have hlt : root < l.heap.length := hclosed.1 root (bake_node_find_some l _ root hroot).1
  constructor
  · intro hcount
    obtain ⟨v, hv⟩ := htotal p root
      (cb (bake_filelist_new (bake_project_binaryPath corto_envparse p) none) p) hlt
    refine ⟨v, fun fuel hfuel => ?_⟩
    unfold bake_language_build
    rw [hroot]
    simp only [hcb]
    rw [if_neg hcount, hv fuel hfuel]
    simp
  · intro hcount fuel
    unfold bake_language_build
    rw [hroot]
    simp only [hcb]
    rw [if_pos hcount]

/-- Witness of C27: the language of a driver that declares the pattern
SOURCES, the rule `objects` from `$SOURCES,gen.c` and the rule `link` from
`$objects` into ARTEFACT; the evaluation of ARTEFACT returns `0`. -/
theorem C27_witness :
    ∃ l, bake_dsl_run bake_language_seed
        [bake_dsl_call.pattern "SOURCES".toList (some "*.c".toList),
         bake_dsl_call.rule "objects".toList (some "$SOURCES,gen.c".toList)
          (bake_rule_target.BAKE_RULE_TARGET_MAP 7) 0,
         bake_dsl_call.rule "link".toList (some "$objects".toList)
          (bake_rule_target.BAKE_RULE_TARGET_PATTERN "$ARTEFACT".toList) 1] = some l ∧
      ∃ v, ∀ fuel, 6 ≤ fuel →
        bake_node_eval l (bake_project_default none) fuel 0
          (some (bake_filelist_new none none)) = some (0, v) :=
  ⟨(bake_dsl_run bake_language_seed
        [bake_dsl_call.pattern "SOURCES".toList (some "*.c".toList),
         bake_dsl_call.rule "objects".toList (some "$SOURCES,gen.c".toList)
          (bake_rule_target.BAKE_RULE_TARGET_MAP 7) 0,
         bake_dsl_call.rule "link".toList (some "$objects".toList)
          (bake_rule_target.BAKE_RULE_TARGET_PATTERN "$ARTEFACT".toList) 1]).getD bake_language_seed, rfl,
   (C27_evaluation_terminates_with_success
    ((bake_dsl_run bake_language_seed
        [bake_dsl_call.pattern "SOURCES".toList (some "*.c".toList),
         bake_dsl_call.rule "objects".toList (some "$SOURCES,gen.c".toList)
          (bake_rule_target.BAKE_RULE_TARGET_MAP 7) 0,
         bake_dsl_call.rule "link".toList (some "$objects".toList)
          (bake_rule_target.BAKE_RULE_TARGET_PATTERN "$ARTEFACT".toList) 1]).getD bake_language_seed)
    (by unfold bake_language_closed; decide)
    (bake_graph_inv_acyclic _ _ _
      (bake_dsl_run_seed_inv
        [bake_dsl_call.pattern "SOURCES".toList (some "*.c".toList),
         bake_dsl_call.rule "objects".toList (some "$SOURCES,gen.c".toList)
          (bake_rule_target.BAKE_RULE_TARGET_MAP 7) 0,
         bake_dsl_call.rule "link".toList (some "$objects".toList)
          (bake_rule_target.BAKE_RULE_TARGET_PATTERN "$ARTEFACT".toList) 1] (by
        intro c hc
        simp only [List.mem_cons, List.mem_singleton, List.not_mem_nil, or_false] at hc
        rcases hc with rfl | rfl | rfl <;> decide) _ rfl)
      (by decide))).1 (bake_project_default none) 0 (bake_filelist_new none none) (by decide)⟩

theorem bake_path_end_cons (l : bake_language) (a i b : Nat) (node : bake_node)
    (rest : List Nat) (h : l.heap[a]? = some node) (hi : node.deps[i]? = some b) :
    bake_path_end l a (i :: rest) = bake_path_end l b rest := by
  simp [bake_path_end, h, hi]

theorem bake_paths_deps_mem (paths_of : Nat → List (List Nat)) :
    ∀ (ds : List Nat) (k : Nat) (path : List Nat),
      path ∈ bake_paths_deps paths_of k ds ↔
        ∃ i b rest, ds[i]? = some b ∧ path = (k + i) :: rest ∧ rest ∈ paths_of b := by
  intro ds
  induction ds with
  | nil => intro k path; simp [bake_paths_deps]
  | cons b bs ih =>
    intro k path
    unfold bake_paths_deps
    rw [List.mem_append, ih (k + 1) path, List.mem_map]
    constructor
    · rintro (⟨rest, hrest, rfl⟩ | ⟨i, b2, rest, hi, rfl, hrest⟩)
      · exact ⟨0, b, rest, by simp, rfl, hrest⟩
      · exact ⟨i + 1, b2, rest, by simpa using hi, by rw [Nat.add_assoc, Nat.add_comm 1 i],
          hrest⟩
    · rintro ⟨i, b2, rest, hi, rfl, hrest⟩
      cases i with
      | zero =>
        simp only [List.getElem?_cons_zero, Option.some.injEq] at hi
        rw [← hi] at hrest
        exact Or.inl ⟨rest, hrest, rfl⟩
      | succ i =>
        exact Or.inr ⟨i, b2, rest, by simpa using hi,
          by rw [Nat.add_assoc, Nat.add_comm 1 i], hrest⟩

theorem bake_paths_deps_sorted (paths_of : Nat → List (List Nat))
    (h : ∀ b, (paths_of b).Pairwise (List.Lex (fun x y => x < y))) :
    ∀ (ds : List Nat) (k : Nat),
      (bake_paths_deps paths_of k ds).Pairwise (List.Lex (fun x y => x < y)) := by
  intro ds
  induction ds with
  | nil => intro k; exact List.Pairwise.nil
  | cons b bs ih =>
    intro k
    unfold bake_paths_deps
    rw [List.pairwise_append]
    refine ⟨?_, ih (k + 1), ?_⟩
    · rw [List.pairwise_map]
      exact List.Pairwise.imp (fun hab => List.Lex.cons hab) (h b)
    · intro x hx y hy
      rw [List.mem_map] at hx
      obtain ⟨r, _, rfl⟩ := hx
      obtain ⟨i, b2, rest, _, rfl, _⟩ := (bake_paths_deps_mem paths_of bs (k + 1) y).1 hy
      exact List.Lex.rel (by omega)

/-- The enumeration lists the paths in depth-first order: a path comes before
its extensions, and of two paths that part at some node the one through the
earlier entry of the dependency list comes first. -/
theorem bake_paths_sorted (l : bake_language) :
    ∀ (fuel a : Nat), (bake_paths l fuel a).Pairwise (List.Lex (fun x y => x < y)) := by
  intro fuel
  induction fuel with
  | zero => intro a; exact List.Pairwise.nil
  | succ fuel ih =>
    intro a
    unfold bake_paths
    cases l.heap[a]? with
    | none => exact List.Pairwise.nil
    | some node =>
      simp only
      rw [List.pairwise_cons]
      refine ⟨?_, bake_paths_deps_sorted _ ih node.deps 0⟩
      intro y hy
      obtain ⟨i, b2, rest, _, rfl, _⟩ := (bake_paths_deps_mem _ node.deps 0 y).1 hy
      exact List.Lex.nil

/-- Every enumerated path is a dependency path. -/
theorem bake_paths_sound (l : bake_language) :
    ∀ (fuel a : Nat) (path : List Nat), path ∈ bake_paths l fuel a →
      (bake_path_end l a path).isSome = true := by
  intro fuel
  induction fuel with
  | zero => intro a path h; simp [bake_paths] at h
  | succ fuel ih =>
    intro a path h
    unfold bake_paths at h
    cases hn : l.heap[a]? with
    | none => rw [hn] at h; cases h
    | some node =>
      rw [hn] at h
      rcases List.mem_cons.1 h with h1 | h1
      · rw [h1]; rfl
      · obtain ⟨i, b, rest, hi, rfl, hrest⟩ := (bake_paths_deps_mem _ node.deps 0 path).1 h1
        rw [Nat.zero_add, bake_path_end_cons l a i b node rest hn hi]
        exact ih b rest hrest

theorem bake_node_eval_deps_mem (ev : Nat → Option (Int × List Nat))
    (hev : ∀ e r v, ev e = some (r, v) → r = 0) :
    ∀ (deps : List Nat) (x : Int × List Nat), bake_node_eval_deps ev deps = some x →
      ∀ b ∈ deps, ∃ y, ev b = some y := by
  intro deps
  induction deps with
  | nil => intro x _ b hb; cases hb
  | cons e es ih =>
    intro x h b hb
    unfold bake_node_eval_deps at h
    cases h1 : ev e with
    | none => rw [h1] at h; cases h
    | some rv =>
      obtain ⟨r1, v1⟩ := rv
      rw [h1] at h
      have hr1 := hev e r1 v1 h1
      simp only [hr1, ne_eq, not_true_eq_false, if_false] at h
      rcases List.mem_cons.1 hb with hb1 | hb1
      · rw [hb1]; exact ⟨_, h1⟩
      · cases h2 : bake_node_eval_deps ev es with
        | none => rw [h2] at h; cases h
        | some rv2 => exact ih rv2 h2 b hb1

/-- When `bake_node_eval` returns, every dependency path from the node was
enumerated within the depth bound. -/
theorem bake_paths_complete (l : bake_language) (p : bake_project) :
    ∀ (fuel a : Nat) (fl : bake_filelist) (x : Int × List Nat),
      bake_node_eval l p fuel a (some fl) = some x →
      ∀ path, (bake_path_end l a path).isSome = true → path ∈ bake_paths l fuel a := by
  intro fuel
  induction fuel with
  | zero => intro a fl x h; simp [bake_node_eval] at h
  | succ fuel ih =>
    intro a fl x h path hpath
    cases hn : l.heap[a]? with
    | none => simp [bake_node_eval, hn] at h
    | some node =>
      rw [bake_node_eval_succ l p fuel a (some fl) node hn] at h
      obtain ⟨fl2, hfl2⟩ := bake_node_eval_target_some node fl
      rw [hfl2] at h
      simp only at h
      unfold bake_paths
      rw [hn]
      cases path with
      | nil => exact List.mem_cons_self _ _
      | cons i rest =>
        apply List.mem_cons_of_mem
        cases hi : node.deps[i]? with
        | none => simp [bake_path_end, hn, hi] at hpath
        | some b =>
          rw [bake_path_end_cons l a i b node rest hn hi] at hpath
          cases hd : bake_node_eval_deps (fun e => bake_node_eval l p fuel e (some fl2))
              node.deps with
          | none => rw [hd] at h; cases h
          | some rv =>
            obtain ⟨y, hy⟩ := bake_node_eval_deps_mem _
              (fun e r v he => bake_node_eval_status l p fuel e (some fl2) r v he)
              node.deps rv hd b (List.getElem?_mem hi)
            exact (bake_paths_deps_mem _ node.deps 0 (i :: rest)).2
              ⟨i, b, rest, hi, by rw [Nat.zero_add], ih b fl2 y hy rest hpath⟩

theorem bake_node_eval_deps_visited (l : bake_language) (p : bake_project) (fuel a : Nat)
    (node : bake_node) (fl : bake_filelist) (hnode : l.heap[a]? = some node)
    (ih : ∀ e r v, bake_node_eval l p fuel e (some fl) = some (r, v) →
      v = (bake_paths l fuel e).filterMap (bake_path_end l e)) :
    ∀ (ds pre : List Nat) (r : Int) (v : List Nat), node.deps = pre ++ ds →
      bake_node_eval_deps (fun e => bake_node_eval l p fuel e (some fl)) ds = some (r, v) →
      v = (bake_paths_deps (bake_paths l fuel) pre.length ds).filterMap (bake_path_end l a) := by
  intro ds
  induction ds with
  | nil =>
    intro pre r v _ h
    simp only [bake_node_eval_deps, Option.some.injEq, Prod.mk.injEq] at h
    rw [← h.2]
    rfl
  | cons b bs ihds =>
    intro pre r v hdeps h
    unfold bake_node_eval_deps at h
    cases h1 : bake_node_eval l p fuel b (some fl) with
    | none => simp only [h1] at h; cases h
    | some rv =>
      obtain ⟨r1, v1⟩ := rv
      simp only [h1] at h
      have hr1 := bake_node_eval_status l p fuel b (some fl) r1 v1 h1
      simp only [hr1, ne_eq, not_true_eq_false, if_false] at h
      cases h2 : bake_node_eval_deps (fun e => bake_node_eval l p fuel e (some fl)) bs with
      | none => rw [h2] at h; cases h
      | some rv2 =>
        obtain ⟨r2, v2⟩ := rv2
        rw [h2] at h
        simp only [Option.some.injEq, Prod.mk.injEq] at h
        have hb : node.deps[pre.length]? = some b := by
          rw [hdeps, List.getElem?_append_right (Nat.le_refl _)]
          simp
        have hrest := ihds (pre ++ [b]) r2 v2 (by rw [hdeps]; simp) h2
        rw [List.length_append, List.length_singleton] at hrest
        unfold bake_paths_deps
        rw [List.filterMap_append, List.filterMap_map, ← hrest, ← h.2]
        congr 1
        rw [ih b r1 v1 h1]
        apply List.filterMap_congr
        intro rest _
        exact (bake_path_end_cons l a pre.length b node rest hnode hb).symm

/-- The nodes `bake_node_eval` was invoked on are the ends of the enumerated
paths, in the order of the enumeration. -/
theorem bake_node_eval_visited (l : bake_language) (p : bake_project) :
    ∀ (fuel a : Nat) (fl : bake_filelist) (r : Int) (v : List Nat),
      bake_node_eval l p fuel a (some fl) = some (r, v) →
      v = (bake_paths l fuel a).filterMap (bake_path_end l a) := by
  intro fuel
  induction fuel with
  | zero => intro a fl r v h; simp [bake_node_eval] at h
  | succ fuel ih =>
    intro a fl r v h
    cases hn : l.heap[a]? with
    | none => simp [bake_node_eval, hn] at h
    | some node =>
      rw [bake_node_eval_succ l p fuel a (some fl) node hn] at h
      obtain ⟨fl2, hfl2⟩ := bake_node_eval_target_some node fl
      rw [hfl2] at h
      simp only at h
      cases hd : bake_node_eval_deps (fun e => bake_node_eval l p fuel e (some fl2))
          node.deps with
      | none => rw [hd] at h; cases h
      | some rv =>
        obtain ⟨r1, v1⟩ := rv
        rw [hd] at h
        simp only [Option.some.injEq, Prod.mk.injEq] at h
        have hv1 := bake_node_eval_deps_visited l p fuel a node fl2 hn
          (fun e r v he => ih e fl2 r v he) node.deps [] r1 v1 rfl hd
        unfold bake_paths
        rw [hn, ← h.2]
        simp only [List.filterMap_cons, bake_path_end]
        rw [hv1]
        rfl

theorem bake_filterMap_count (f : List Nat → Option Nat) (n : Nat) :
    ∀ (paths : List (List Nat)),
      (paths.filterMap f).count n = (paths.filter (fun path => f path == some n)).length := by
  intro paths
  induction paths with
  | nil => rfl
  | cons x xs ih =>
    rw [List.filterMap_cons, List.filter_cons]
    cases hx : f x with
    | none => simpa using ih
    | some m =>
      by_cases hm : m = n
      · simp [hm, ih]
      · simp [hm, ih, List.count_cons]

/-- C24: in a language whose pointers refer to allocated nodes and whose
dependency relation has no cycle, with an ARTEFACT node and an artefact
callback that leaves a file in the root Filelist, the build returns `0` and
the nodes on which `bake_node_eval` was invoked are, in call order, the ends of
all dependency paths (sequences of deps-list entries) from the root, the paths
taken in depth-first order: a path before its extensions, and the paths through
an earlier entry of a dependency list before those through a later one.  So
the number of invocations on a node is the number of paths from the root to it.
-/
theorem C24_one_evaluation_per_path (l : bake_language)
    (hclosed : bake_language_closed l) (hacyc : ¬ bake_language_cyclic l)
    (corto_envparse : CStr → List (Option CStr) → Option CStr) (p : bake_project)
    (root : Nat) (cb : bake_rule_artefact_cb)
    (hroot : bake_node_find l "ARTEFACT".toList = some root)
    (hcb : l.artefact_cb = some cb)
    (hcount : bake_filelist_count
      (cb (bake_filelist_new (bake_project_binaryPath corto_envparse p) none) p) ≠ 0) :
    ∃ (visited : List Nat) (paths : List (List Nat)),
      (∀ fuel, l.heap.length ≤ fuel → bake_language_build corto_envparse fuel l p =
        some (bake_build_outcome.returned 0, visited)) ∧
      paths.Pairwise (List.Lex (fun x y => x < y)) ∧
      (∀ path, path ∈ paths ↔ (bake_path_end l root path).isSome = true) ∧
      visited = paths.filterMap (bake_path_end l root) ∧
      ∀ n, visited.count n =
        (paths.filter (fun path => bake_path_end l root path == some n)).length := by
  have hlt : root < l.heap.length := hclosed.1 root (bake_node_find_some l _ root hroot).1
  obtain ⟨v, hv⟩ := bake_node_eval_total l p hclosed hacyc l.heap.length root
    (cb (bake_filelist_new (bake_project_binaryPath corto_envparse p) none) p) hlt
    (Nat.le_refl _)
  have hvis := bake_node_eval_visited l p _ root _ 0 v hv
  refine ⟨v, bake_paths l l.heap.length root, ?_, bake_paths_sorted l _ root, ?_, hvis, ?_⟩
  · intro fuel hfuel
    unfold bake_language_build
    rw [hroot]
    simp only [hcb]
    rw [if_neg hcount, bake_node_eval_mono l p _ root _ _ hv fuel hfuel]
    simp
  · intro path
    exact ⟨bake_paths_sound l _ root path, bake_paths_complete l p _ root _ _ hv path⟩
  · intro n
    rw [hvis]
    exact bake_filterMap_count _ n _

/-- Witness of C24: the language of a driver that sets an artefact callback
adding the file `app` and declares the pattern SOURCES, the rule `objects` from
`$SOURCES,gen.c` and the rule `link` from `$objects` into ARTEFACT. -/
theorem C24_witness :
    ∃ l, bake_dsl_run bake_language_seed
        [bake_dsl_call.artefact (fun fl _ => bake_filelist_add fl "app".toList),
         bake_dsl_call.pattern "SOURCES".toList (some "*.c".toList),
         bake_dsl_call.rule "objects".toList (some "$SOURCES,gen.c".toList)
          (bake_rule_target.BAKE_RULE_TARGET_MAP 7) 0,
         bake_dsl_call.rule "link".toList (some "$objects".toList)
          (bake_rule_target.BAKE_RULE_TARGET_PATTERN "$ARTEFACT".toList) 1] = some l ∧
      ∃ (visited : List Nat) (paths : List (List Nat)),
        (∀ fuel, 6 ≤ fuel →
          bake_language_build (fun fmt _ => some fmt) fuel l (bake_project_default none) =
            some (bake_build_outcome.returned 0, visited)) ∧
        paths.Pairwise (List.Lex (fun x y => x < y)) ∧
        (∀ path, path ∈ paths ↔ (bake_path_end l 0 path).isSome = true) ∧
        visited = paths.filterMap (bake_path_end l 0) ∧
        ∀ n, visited.count n =
          (paths.filter (fun path => bake_path_end l 0 path == some n)).length :=
  ⟨(bake_dsl_run bake_language_seed
        [bake_dsl_call.artefact (fun fl _ => bake_filelist_add fl "app".toList),
         bake_dsl_call.pattern "SOURCES".toList (some "*.c".toList),
         bake_dsl_call.rule "objects".toList (some "$SOURCES,gen.c".toList)
          (bake_rule_target.BAKE_RULE_TARGET_MAP 7) 0,
         bake_dsl_call.rule "link".toList (some "$objects".toList)
          (bake_rule_target.BAKE_RULE_TARGET_PATTERN "$ARTEFACT".toList) 1]).getD bake_language_seed, rfl,
   C24_one_evaluation_per_path
    ((bake_dsl_run bake_language_seed
        [bake_dsl_call.artefact (fun fl _ => bake_filelist_add fl "app".toList),
         bake_dsl_call.pattern "SOURCES".toList (some "*.c".toList),
         bake_dsl_call.rule "objects".toList (some "$SOURCES,gen.c".toList)
          (bake_rule_target.BAKE_RULE_TARGET_MAP 7) 0,
         bake_dsl_call.rule "link".toList (some "$objects".toList)
          (bake_rule_target.BAKE_RULE_TARGET_PATTERN "$ARTEFACT".toList) 1]).getD bake_language_seed)
    (by unfold bake_language_closed; decide)
    (bake_graph_inv_acyclic _ _ _
      (bake_dsl_run_seed_inv
        [bake_dsl_call.artefact (fun fl _ => bake_filelist_add fl "app".toList),
         bake_dsl_call.pattern "SOURCES".toList (some "*.c".toList),
         bake_dsl_call.rule "objects".toList (some "$SOURCES,gen.c".toList)
          (bake_rule_target.BAKE_RULE_TARGET_MAP 7) 0,
         bake_dsl_call.rule "link".toList (some "$objects".toList)
          (bake_rule_target.BAKE_RULE_TARGET_PATTERN "$ARTEFACT".toList) 1] (by
        intro c hc
        simp only [List.mem_cons, List.mem_singleton, List.not_mem_nil, or_false] at hc
        rcases hc with rfl | rfl | rfl | rfl <;> decide) _ rfl)
      (by decide))
    (fun fmt _ => some fmt) (bake_project_default none) 0
    (fun fl _ => bake_filelist_add fl "app".toList) (by decide) rfl (by decide)⟩

/-! ## Source wiring of a rule (C23) -/

theorem bake_heap_modify_at (H A : List bake_node) (x : bake_node) (f : bake_node → bake_node) :
    (H ++ x :: A).modify f H.length = H ++ f x :: A := by
  apply List.ext_getElem?
  intro i
  rw [List.getElem?_modify]
  rcases Nat.lt_trichotomy i H.length with h | h | h
  · rw [List.getElem?_append_left h, List.getElem?_append_left h]
    have : H.length ≠ i := by omega
    cases H[i]? <;> simp [this]
  · rw [h, List.getElem?_append_right (Nat.le_refl _),
      List.getElem?_append_right (Nat.le_refl _)]
    simp
  · rw [List.getElem?_append_right (Nat.le_of_lt h),
      List.getElem?_append_right (Nat.le_of_lt h)]
    have : H.length ≠ i := by omega
    obtain ⟨k, hk⟩ : ∃ k, i - H.length = k + 1 := ⟨i - H.length - 1, by omega⟩
    rw [hk]
    simp only [List.getElem?_cons_succ]
    cases A[k]? <;> simp [this]

/-- `bake_node_find` gives the same result in two languages with the same node
list and the same names on its nodes. -/
theorem bake_node_find_eq (l l2 : bake_language) (x : CStr)
    (hnodes : l2.nodes = l.nodes)
    (hnames : ∀ e ∈ l.nodes, bake_heap_name l2.heap e = bake_heap_name l.heap e) :
    bake_node_find l2 x = bake_node_find l x := by
  unfold bake_node_find
  rw [hnodes]
  have hsame : ∀ (xs : List Nat), (∀ e ∈ xs, e ∈ l.nodes) →
      xs.find? (bake_node_named l2 x) = xs.find? (bake_node_named l x) := by
    intro xs
    induction xs with
    | nil => intro _; rfl
    | cons e es ih =>
      intro hsub
      rw [List.find?_cons, List.find?_cons, bake_node_named_eq l2, bake_node_named_eq l,
        hnames e (hsub e (List.mem_cons_self _ _)),
        ih (fun y hy => hsub y (List.mem_cons_of_mem _ hy))]
  exact hsame l.nodes (fun _ h => h)

/-- The loop of `bake_node_addDependencies` on the node at pointer `H.length`:
it appends to the dependency list of the node, and to the heap, what the
token-by-token description gives. -/
theorem bake_node_addDependencies_loop_spec (H : List bake_node) (lookup : CStr → Option Nat) :
    ∀ (tokens : List CStr) (m : bake_language) (x : bake_node) (A : List bake_node),
      m.heap = H ++ x :: A → (∀ e ∈ m.nodes, e < m.heap.length) →
      (∀ y, bake_node_find m y = lookup y) →
      (bake_node_addDependencies_loop m H.length tokens).1.nodes = m.nodes ∧
      (bake_node_addDependencies_loop m H.length tokens).1.heap =
        H ++ { x with deps := x.deps ++ (bake_rule_deps_spec lookup tokens m.heap.length).1 } ::
          (A ++ (bake_rule_deps_spec lookup tokens m.heap.length).2) := by
  intro tokens
  induction tokens with
  | nil =>
    intro m x A hm _ _
    simp [bake_node_addDependencies_loop, bake_rule_deps_spec, hm]
  | cons tok rest ih =>
    intro m x A hm hwf hfind
    unfold bake_node_addDependencies_loop bake_rule_deps_spec
    by_cases hd : tok.head? = some '$'
    · rw [if_pos hd, if_pos hd, hfind tok.tail]
      cases hl : lookup tok.tail with
      | none => simp [hm]
      | some dep =>
        simp only
        have hheap : (bake_node_deps_append m H.length dep).heap =
            H ++ { x with deps := x.deps ++ [dep] } :: A := by
          simp only [bake_node_deps_append]
          rw [hm, bake_heap_modify_at]
        have hlen : (bake_node_deps_append m H.length dep).heap.length = m.heap.length := by
          simp [bake_node_deps_append]
        have hfind2 : ∀ y, bake_node_find (bake_node_deps_append m H.length dep) y = lookup y := by
          intro y
          rw [← hfind y]
          refine bake_node_find_eq m _ y rfl ?_
          intro e _
          simp only [bake_node_deps_append]
          exact bake_heap_name_modify _ _ _ _
        obtain ⟨hn, hh⟩ := ih (bake_node_deps_append m H.length dep) _ A hheap
          (by rw [hlen]; exact hwf) hfind2
        rw [hlen] at hh
        refine ⟨hn, ?_⟩
        rw [hh]
        simp [List.append_assoc]
    · rw [if_neg hd, if_neg hd]
      simp only
      have hheap : (bake_node_deps_append (bake_pattern_new m none (some tok)).1 H.length
          (bake_pattern_new m none (some tok)).2).heap =
            H ++ { x with deps := x.deps ++ [m.heap.length] } :: (A ++
              [bake_node.mk bake_rule_kind.BAKE_RULE_PATTERN none [] (some tok) none none
                none]) := by
        simp only [bake_node_deps_append, bake_pattern_new]
        rw [hm, List.append_assoc, List.cons_append, bake_heap_modify_at]
      have hlen : (bake_node_deps_append (bake_pattern_new m none (some tok)).1 H.length
          (bake_pattern_new m none (some tok)).2).heap.length = m.heap.length + 1 := by
        simp [bake_node_deps_append, bake_pattern_new]
      have hfind2 : ∀ y, bake_node_find (bake_node_deps_append
          (bake_pattern_new m none (some tok)).1 H.length
          (bake_pattern_new m none (some tok)).2) y = lookup y := by
        intro y
        rw [← hfind y]
        refine bake_node_find_eq m _ y rfl ?_
        intro e he
        simp only [bake_node_deps_append, bake_pattern_new]
        rw [bake_heap_name_modify]
        exact bake_heap_name_append _ _ _ (hwf e he)
      obtain ⟨hn, hh⟩ := ih _ _ _ hheap
        (by
          intro e he
          rw [hlen]
          exact Nat.lt_succ_of_lt (hwf e he)) hfind2
      rw [hlen] at hh
      refine ⟨hn, ?_⟩
      rw [hh]
      simp [List.append_assoc]

/-- A change of the dependency list of a node below `n` is not seen at `n` or
above. -/
theorem bake_heap_modify_below (heap : List bake_node) (f : bake_node → bake_node)
    (tn n : Nat) (h : tn < n) :
    (heap.modify f tn)[n]? = heap[n]? ∧ (heap.modify f tn).drop (n + 1) = heap.drop (n + 1) := by
  constructor
  · rw [List.getElem?_modify]
    have : tn ≠ n := by omega
    cases heap[n]? <;> simp [this]
  · apply List.ext_getElem?
    intro j
    rw [List.getElem?_drop, List.getElem?_drop, List.getElem?_modify]
    have : tn ≠ n + 1 + j := by omega
    cases heap[n + 1 + j]? <;> simp [this]

/-- The lookup during the wiring of a new rule: the rule itself for its own
name, and otherwise what was found before the call. -/
theorem bake_node_find_registered (l l1 : bake_language) (name : CStr) (nd : bake_node)
    (hwf : ∀ e ∈ l.nodes, e < l.heap.length) (hnew : bake_node_find l name = none)
    (hname : nd.name = some name)
    (hheap : l1.heap = l.heap ++ [nd]) (hnodes : l1.nodes = l.nodes ++ [l.heap.length])
    (y : CStr) :
    bake_node_find l1 y = if y = name then some l.heap.length else bake_node_find l y := by
  have hold : bake_node_find { l with heap := l1.heap } y = bake_node_find l y := by
    refine bake_node_find_eq l _ y rfl ?_
    intro e he
    show bake_heap_name l1.heap e = bake_heap_name l.heap e
    rw [hheap]
    exact bake_heap_name_append _ _ _ (hwf e he)
  have hlast : bake_node_named l1 y l.heap.length = decide (name = y) := by
    rw [bake_node_named_eq, hheap, bake_heap_name_new, hname]
    simp
  have hsplit : bake_node_find l1 y =
      (bake_node_find { l with heap := l1.heap } y).or
        ([l.heap.length].find? (bake_node_named l1 y)) := by
    unfold bake_node_find
    rw [hnodes, List.find?_append]
    rfl
  rw [hsplit, hold, List.find?_cons, hlast]
  by_cases hy : y = name
  · rw [if_pos hy, hy, hnew]
    simp
  · rw [if_neg hy]
    have : decide (name = y) = false := by simp [Ne.symm hy]
    rw [this]
    cases bake_node_find l y <;> rfl

/-- C23: for an accepted call `rule(name, source, target, action)` with a
source string (the name is new) whose target is not `$name`, in a language
whose node list holds pointers to allocated nodes: the call returns and the
rule is registered; its node carries as dependency list what the
token-by-token description gives for the non-empty comma-separated tokens of
the source, where a token `$x` resolves to the rule itself for `x = name` and
otherwise to the node that `bake_node_find` gave for `x` before the call, and
the list ends at the first `$x` that does not resolve; and the node objects
allocated after the rule are exactly the anonymous patterns of that
description, in order, so that the fresh pointers of the list refer to them. -/
theorem C23_rule_dependency_list (l : bake_language) (name : CStr) (source : CStr)
    (target : bake_rule_target) (action : Nat)
    (hwf : ∀ e ∈ l.nodes, e < l.heap.length)
    (hnew : bake_node_find l name = none)
    (htarget : target ≠ bake_rule_target.BAKE_RULE_TARGET_PATTERN ('$' :: name)) :
    ∃ l3, bake_language_rule l name (some source) target action = some l3 ∧
      l3.nodes = l.nodes ++ [l.heap.length] ∧
      l3.heap[l.heap.length]? =
        some (bake_node.mk bake_rule_kind.BAKE_RULE_RULE (some name)
          (bake_rule_deps_spec
            (fun x => if x = name then some l.heap.length else bake_node_find l x)
            (strtok_tokens source) (l.heap.length + 1)).1
          none (some source) (some target) (some action)) ∧
      l3.heap.drop (l.heap.length + 1) =
        (bake_rule_deps_spec
          (fun x => if x = name then some l.heap.length else bake_node_find l x)
          (strtok_tokens source) (l.heap.length + 1)).2 := by
  obtain ⟨l3, hl3⟩ := bake_language_rule_defined l name source target action
  obtain ⟨s, l1, l2, hs, hh1, hn1, hh2, hn2, hheap, hnodes⟩ :=
    bake_language_rule_accepted l name (some source) target action l3 (by simp) hnew hl3
  have hs2 : source = s := Option.some.inj hs
  subst hs2
  have hlen1 : l1.heap.length = l.heap.length + 1 := by rw [hh1]; simp
  have hfind1 : ∀ y, bake_node_find l1 y =
      (fun x => if x = name then some l.heap.length else bake_node_find l x) y :=
    fun y => bake_node_find_registered l l1 name _ hwf hnew rfl hh1 hn1 y
  have hdeps : (bake_node_addDependencies_loop l1 l.heap.length (strtok_tokens source)).1.nodes =
        l1.nodes ∧
      (bake_node_addDependencies_loop l1 l.heap.length (strtok_tokens source)).1.heap =
        l.heap ++ bake_node.mk bake_rule_kind.BAKE_RULE_RULE (some name)
          (bake_rule_deps_spec
            (fun x => if x = name then some l.heap.length else bake_node_find l x)
            (strtok_tokens source) (l.heap.length + 1)).1
          none (some source) (some target) (some action) ::
          (bake_rule_deps_spec
            (fun x => if x = name then some l.heap.length else bake_node_find l x)
            (strtok_tokens source) (l.heap.length + 1)).2 := by
    obtain ⟨ha, hb⟩ := bake_node_addDependencies_loop_spec l.heap _ (strtok_tokens source) l1 _ []
      hh1 (by
        intro e he
        rw [hn1, List.mem_append, List.mem_singleton] at he
        rw [hlen1]
        rcases he with he | he
        · exact Nat.lt_succ_of_lt (hwf e he)
        · rw [he]; exact Nat.lt_succ_self _) hfind1
    rw [hlen1] at hb
    refine ⟨ha, ?_⟩
    rw [hb]
    simp
  rw [← hh2] at hdeps
  rw [← hn2] at hdeps
  obtain ⟨hd1, hd2⟩ := hdeps
  have hat : l2.heap[l.heap.length]? = some (bake_node.mk bake_rule_kind.BAKE_RULE_RULE
      (some name)
      (bake_rule_deps_spec
        (fun x => if x = name then some l.heap.length else bake_node_find l x)
        (strtok_tokens source) (l.heap.length + 1)).1
      none (some source) (some target) (some action)) := by
    rw [hd2, List.getElem?_append_right (Nat.le_refl _)]
    simp
  have hdrop : l2.heap.drop (l.heap.length + 1) =
      (bake_rule_deps_spec
        (fun x => if x = name then some l.heap.length else bake_node_find l x)
        (strtok_tokens source) (l.heap.length + 1)).2 := by
    rw [hd2]
    simp
  have htgt : (bake_node_addToTarget l2 l.heap.length target).1.nodes = l2.nodes ∧
      (bake_node_addToTarget l2 l.heap.length target).1.heap[l.heap.length]? =
        l2.heap[l.heap.length]? ∧
      (bake_node_addToTarget l2 l.heap.length target).1.heap.drop (l.heap.length + 1) =
        l2.heap.drop (l.heap.length + 1) := by
    unfold bake_node_addToTarget
    cases target with
    | BAKE_RULE_TARGET_MAP m => exact ⟨rfl, rfl, rfl⟩
    | BAKE_RULE_TARGET_PATTERN pat =>
      dsimp only
      by_cases hd : pat.head? = some '$'
      · rw [if_neg (by simp [hd])]
        cases hf : bake_node_find l2 pat.tail with
        | none => exact ⟨rfl, rfl, rfl⟩
        | some tn =>
          obtain ⟨hmem, hnm⟩ := bake_node_find_some l2 _ tn hf
          have hlt : tn < l.heap.length := by
            rw [hd1, hn1, List.mem_append, List.mem_singleton] at hmem
            rcases hmem with hmem | hmem
            · exact hwf tn hmem
            · exfalso
              rw [hmem] at hnm
              unfold bake_heap_name at hnm
              rw [hat] at hnm
              have hnm : name = pat.tail := by simpa using hnm
              apply htarget
              cases pat with
              | nil => simp at hd
              | cons c cs =>
                simp only [List.head?_cons, Option.some.injEq] at hd
                simp only [List.tail_cons] at hnm
                rw [hd, hnm]
          exact ⟨rfl, bake_heap_modify_below _ _ tn _ hlt⟩
      · rw [if_pos hd]
        exact ⟨rfl, rfl, rfl⟩
  obtain ⟨ht1, ht2, ht3⟩ := htgt
  refine ⟨l3, hl3, ?_, ?_, ?_⟩
  · rw [hnodes, ht1, hd1, hn1]
  · rw [hheap, ht2, hat]
  · rw [hheap, ht3, hdrop]

/-- Witness of C23: on the seeded language, the rule `objects` with the source
`$DEFINITION, x.c,$NOPE,y.c` and a mapping target gets the dependencies
DEFINITION and a fresh pattern ` x.c` (with its blank); the unresolved `$NOPE`
ends the list. -/
theorem C23_witness :
    ∃ l3, bake_language_rule bake_language_seed "objects".toList
        (some "$DEFINITION, x.c,$NOPE,y.c".toList)
        (bake_rule_target.BAKE_RULE_TARGET_MAP 7) 0 = some l3 ∧
      l3.nodes = [0, 1, 2] ∧
      l3.heap[2]? =
        some (bake_node.mk bake_rule_kind.BAKE_RULE_RULE (some "objects".toList) [1, 3] none
          (some "$DEFINITION, x.c,$NOPE,y.c".toList)
          (some (bake_rule_target.BAKE_RULE_TARGET_MAP 7)) (some 0)) ∧
      l3.heap.drop 3 =
        [bake_node.mk bake_rule_kind.BAKE_RULE_PATTERN none [] (some " x.c".toList) none none
          none] :=
  C23_rule_dependency_list bake_language_seed "objects".toList
    "$DEFINITION, x.c,$NOPE,y.c".toList (bake_rule_target.BAKE_RULE_TARGET_MAP 7) 0
    (by decide) (by decide) (by decide)

/-! ## Attributes of the project (C25) -/

theorem bake_project_replace_func_indep
    (corto_id_size : Nat)
    (corto_locate : CStr → corto_locate_kind → Option CStr) (p q : bake_project)
    (package_id next output : CStr) :
    bake_project_replace_func corto_id_size corto_locate p package_id next output =
      bake_project_replace_func corto_id_size corto_locate q package_id next output := rfl

theorem bake_project_replace_loop_indep
    (corto_id_size : Nat)
    (corto_locate : CStr → corto_locate_kind → Option CStr) (p q : bake_project)
    (package_id input : CStr) :
    ∀ (fuel : Nat) (func output : CStr) (replaced : Bool),
      bake_project_replace_loop corto_id_size corto_locate p package_id input fuel func output replaced =
        bake_project_replace_loop corto_id_size corto_locate q package_id input fuel func output replaced := by
  intro fuel
  induction fuel with
  | zero => intro func output replaced; rfl
  | succ fuel ih =>
    intro func output replaced
    unfold bake_project_replace_loop
    cases strchr func '$' with
    | none => rfl
    | some next =>
      simp only
      rw [bake_project_replace_func_indep corto_id_size corto_locate p q]
      split_ifs
      · cases bake_project_replace_func corto_id_size corto_locate q package_id next
            (output ++ cstr_between func next) with
        | none => rfl
        | some r =>
          cases r with
          | none => rfl
          | some r => exact ih _ _ _
      · cases strchr (func.drop 1) '$' with
        | none => rfl
        | some ptr => exact ih _ _ _

/-- The expansion of a string does not depend on the project. -/
theorem bake_project_replace_indep
    (corto_id_size : Nat)
    (corto_locate : CStr → corto_locate_kind → Option CStr) (p q : bake_project)
    (package_id input : CStr) :
    bake_project_replace corto_id_size corto_locate p package_id input =
      bake_project_replace corto_id_size corto_locate q package_id input :=
  bake_project_replace_loop_indep corto_id_size corto_locate p q package_id input _ _ _ _

theorem bake_project_parseArray_congr
    (corto_id_size : Nat)
    (corto_locate : CStr → corto_locate_kind → Option CStr) (p q : bake_project)
    (package_id : CStr) :
    ∀ (items : List JSON_Value),
      (∀ v ∈ items, bake_project_parseValue corto_id_size corto_locate p package_id v =
        bake_project_parseValue corto_id_size corto_locate q package_id v) →
      bake_project_parseArray corto_id_size corto_locate p package_id items =
        bake_project_parseArray corto_id_size corto_locate q package_id items := by
  intro items
  induction items with
  | nil => intro _; simp only [bake_project_parseArray]
  | cons v rest ih =>
    intro h
    simp only [bake_project_parseArray]
    rw [h v (List.mem_cons_self _ _), ih (fun x hx => h x (List.mem_cons_of_mem _ hx))]

/-- The attribute of a value does not depend on the project. -/
theorem bake_project_parseValue_indep
    (corto_id_size : Nat)
    (corto_locate : CStr → corto_locate_kind → Option CStr) (p q : bake_project)
    (package_id : CStr) :
    ∀ (v : JSON_Value), bake_project_parseValue corto_id_size corto_locate p package_id v =
      bake_project_parseValue corto_id_size corto_locate q package_id v
  | JSON_Value.JSONArray items => by
    simp only [bake_project_parseValue]
    rw [bake_project_parseArray_congr corto_id_size corto_locate p q package_id items
      (fun v _ => bake_project_parseValue_indep corto_id_size corto_locate p q package_id v)]
  | JSON_Value.JSONString string => by
    simp only [bake_project_parseValue, bake_project_parseString]
    rw [bake_project_replace_indep corto_id_size corto_locate p q]
  | JSON_Value.JSONNumber _ => by simp only [bake_project_parseValue]
  | JSON_Value.JSONBoolean _ => by simp only [bake_project_parseValue]
  | JSON_Value.JSONObject _ => by simp only [bake_project_parseValue]
  | JSON_Value.JSONNull => by simp only [bake_project_parseValue]
termination_by v => sizeOf v
decreasing_by
  simp_wf
  have := List.sizeOf_lt_of_mem ‹_›
  omega

/-- `bake_project_parseArray` is defined when the parse of every element is,
and keeps, in order, the attributes of the elements that have one. -/
theorem bake_project_parseArray_filterMap (corto_id_size : Nat)
    (corto_locate : CStr → corto_locate_kind → Option CStr) (p : bake_project)
    (package_id : CStr) :
    ∀ (items : List JSON_Value),
      bake_project_parseArray corto_id_size corto_locate p package_id items =
        if items.all (fun v =>
            (bake_project_parseValue corto_id_size corto_locate p package_id v).isSome) then
          some (items.filterMap (fun v =>
            (bake_project_parseValue corto_id_size corto_locate p package_id v).join))
        else none := by
  intro items
  induction items with
  | nil => simp only [bake_project_parseArray, List.all_nil, List.filterMap_nil, if_true]
  | cons v rest ih =>
    simp only [bake_project_parseArray, List.all_cons, List.filterMap_cons]
    rw [ih]
    cases bake_project_parseValue corto_id_size corto_locate p package_id v with
    | none => rfl
    | some attr =>
      by_cases hall : rest.all (fun v =>
          (bake_project_parseValue corto_id_size corto_locate p package_id v).isSome) = true
      · rw [if_pos hall]
        simp only [Option.isSome_some, Bool.true_and, hall, if_true, Option.join]
        cases attr <;> rfl
      · rw [if_neg hall]
        simp only [Option.isSome_some, Bool.true_and, hall]
        rfl

theorem bake_project_parseMember_array_frame {α : Type}
    (F : bake_project → α)
    (corto_id_size : Nat)
    (corto_locate : CStr → corto_locate_kind → Option CStr) (package_id : CStr)
    (add : bake_project → CStr → bake_project)
    (hadd : ∀ p s, F (add p s) = F p) :
    ∀ (a : List JSON_Value) (p p1 : bake_project),
      bake_project_parseMember_array corto_id_size corto_locate package_id add a p = some p1 →
      F p1 = F p := by
  intro a
  induction a with
  | nil =>
    intro p p1 h
    simp [bake_project_parseMember_array] at h
    rw [← h]
  | cons v rest ih =>
    intro p p1 h
    unfold bake_project_parseMember_array at h
    cases hs : json_value_get_string v with
    | none => rw [hs] at h; cases h
    | some str =>
      rw [hs] at h
      simp only at h
      cases hr : bake_project_replace corto_id_size corto_locate p package_id str with
      | none => rw [hr] at h; cases h
      | some r =>
        cases r with
        | none => rw [hr] at h; cases h
        | some src =>
          rw [hr] at h
          simp only at h
          rw [ih _ _ h, hadd]

/-- What a call of `bake_project_parseMember` that returns can have done to the
project. -/
theorem bake_project_parseMember_shape
    (corto_id_size : Nat)
    (corto_locate : CStr → corto_locate_kind → Option CStr)
    (p p1 : bake_project) (package_id name : CStr) (v : JSON_Value) (status : Int)
    (h : bake_project_parseMember corto_id_size corto_locate p package_id name v = some (p1, status)) :
    p1 = p ∨ (∃ x, p1 = { p with language := x }) ∨
    (name = "version".toList ∧ ∃ x, p1 = { p with version := x }) ∨
    (∃ x, p1 = { p with managed := x }) ∨ (∃ x, p1 = { p with is_public := x }) ∨
    (name = "sources".toList ∧ ∃ a, bake_project_parseMember_array corto_id_size corto_locate package_id
      bake_project_addSource a p = some p1) ∨
    (name = "includes".toList ∧ ∃ a, bake_project_parseMember_array corto_id_size corto_locate package_id
      bake_project_addInclude a p = some p1) ∨
    (∃ a, bake_project_parseMember_array corto_id_size corto_locate package_id
      bake_project_use a p = some p1) ∨
    (∃ x, p1 = { p with use_generated_api := x }) := by
  unfold bake_project_parseMember at h
  have harr : ∀ (add : bake_project → CStr → bake_project) (a : List JSON_Value),
      (bake_project_parseMember_array corto_id_size corto_locate package_id add a p).map
        (fun p1 => (p1, (0 : Int))) = some (p1, status) →
      bake_project_parseMember_array corto_id_size corto_locate package_id add a p = some p1 := by
    intro add a hm
    cases hr : bake_project_parseMember_array corto_id_size corto_locate package_id add a p with
    | none => rw [hr] at hm; cases hm
    | some q =>
      rw [hr] at hm
      simp at hm
      rw [hm.1]
  split_ifs at h with h1 h2 h3 h4 h5 h6 h7 h8
  · cases v <;> simp only [Option.some.injEq, Prod.mk.injEq] at h <;>
      first
      | exact Or.inl h.1.symm
      | exact Or.inr (Or.inl ⟨_, h.1.symm⟩)
  · cases v <;> simp only [Option.some.injEq, Prod.mk.injEq] at h <;>
      first
      | exact Or.inl h.1.symm
      | exact Or.inr (Or.inr (Or.inl ⟨h2, _, h.1.symm⟩))
  · cases v <;> simp only [Option.some.injEq, Prod.mk.injEq] at h <;>
      first
      | exact Or.inl h.1.symm
      | exact Or.inr (Or.inr (Or.inr (Or.inl ⟨_, h.1.symm⟩)))
  · cases v <;> simp only [Option.some.injEq, Prod.mk.injEq] at h <;>
      first
      | exact Or.inl h.1.symm
      | exact Or.inr (Or.inr (Or.inr (Or.inr (Or.inl ⟨_, h.1.symm⟩))))
  · cases v <;>
      first
      | exact Or.inr (Or.inr (Or.inr (Or.inr (Or.inr (Or.inl ⟨h5, _, harr _ _ h⟩)))))
      | (simp only [Option.some.injEq, Prod.mk.injEq] at h; exact Or.inl h.1.symm)
  · cases v <;>
      first
      | exact Or.inr (Or.inr (Or.inr (Or.inr (Or.inr (Or.inr (Or.inl ⟨h6, _, harr _ _ h⟩))))))
      | (simp only [Option.some.injEq, Prod.mk.injEq] at h; exact Or.inl h.1.symm)
  · cases v <;>
      first
      | exact Or.inr (Or.inr (Or.inr (Or.inr (Or.inr (Or.inr (Or.inr (Or.inl
          ⟨_, harr _ _ h⟩)))))))
      | (simp only [Option.some.injEq, Prod.mk.injEq] at h; exact Or.inl h.1.symm)
  · cases v <;> simp only [Option.some.injEq, Prod.mk.injEq] at h <;>
      first
      | exact Or.inl h.1.symm
      | exact Or.inr (Or.inr (Or.inr (Or.inr (Or.inr (Or.inr (Or.inr (Or.inr
          ⟨_, h.1.symm⟩)))))))
  · simp only [Option.some.injEq, Prod.mk.injEq] at h
    exact Or.inl h.1.symm

theorem bake_project_add_attributes :
    (∀ p s, (bake_project_addSource p s).attributes = p.attributes) ∧
    (∀ p s, (bake_project_addInclude p s).attributes = p.attributes) ∧
    (∀ p s, (bake_project_use p s).attributes = p.attributes) := by
  refine ⟨?_, ?_, ?_⟩
  · intro p s; unfold bake_project_addSource; split <;> rfl
  · intro p s; unfold bake_project_addInclude; split <;> rfl
  · intro p s; unfold bake_project_use; split <;> rfl

theorem bake_project_parseMember_attributes
    (corto_id_size : Nat)
    (corto_locate : CStr → corto_locate_kind → Option CStr)
    (p p1 : bake_project) (package_id name : CStr) (v : JSON_Value) (status : Int)
    (h : bake_project_parseMember corto_id_size corto_locate p package_id name v = some (p1, status)) :
    p1.attributes = p.attributes := by
  rcases bake_project_parseMember_shape corto_id_size corto_locate p p1 package_id name v status h with
    h | ⟨_, h⟩ | ⟨_, _, h⟩ | ⟨_, h⟩ | ⟨_, h⟩ | ⟨_, a, h⟩ | ⟨_, a, h⟩ | ⟨a, h⟩ | ⟨_, h⟩
  · rw [h]
  · rw [h]
  · rw [h]
  · rw [h]
  · rw [h]
  · exact bake_project_parseMember_array_frame (fun q => q.attributes) corto_id_size corto_locate package_id
      _ bake_project_add_attributes.1 a p p1 h
  · exact bake_project_parseMember_array_frame (fun q => q.attributes) corto_id_size corto_locate package_id
      _ bake_project_add_attributes.2.1 a p p1 h
  · exact bake_project_parseMember_array_frame (fun q => q.attributes) corto_id_size corto_locate package_id
      _ bake_project_add_attributes.2.2 a p p1 h
  · rw [h]

/-- A successful run of the loop of `bake_project_parseMembers` has parsed the
value of every member, and these are the attributes that it appends. -/
theorem bake_project_parseMembers_loop_attributes (corto_id_size : Nat)
    (corto_locate : CStr → corto_locate_kind → Option CStr)
    (json_serialize_to_string : JSON_Value → Option CStr) (package_id : CStr)
    (p0 : bake_project) :
    ∀ (jo : List (CStr × JSON_Value)) (p p1 : bake_project),
      bake_project_parseMembers_loop corto_id_size corto_locate json_serialize_to_string
        package_id jo p = some (p1, 0) →
      (∀ m ∈ jo,
        (bake_project_parseValue corto_id_size corto_locate p0 package_id m.2).isSome = true) ∧
      p1.attributes = p.attributes ++ jo.filterMap (fun m =>
        (bake_project_parseValue corto_id_size corto_locate p0 package_id m.2).join.map
          (bake_project_attr.set_name m.1)) := by
  intro jo
  induction jo with
  | nil =>
    intro p p1 h
    simp [bake_project_parseMembers_loop] at h
    rw [← h]
    simp
  | cons m rest ih =>
    intro p p1 h
    unfold bake_project_parseMembers_loop at h
    simp only at h
    have hstep : ∀ (q : bake_project) (st : Int),
        (if m.1 = "dependee".toList then
          some ({ p with dependee_json := json_serialize_to_string m.2 }, (0 : Int))
        else bake_project_parseMember corto_id_size corto_locate p package_id m.1 m.2) =
          some (q, st) →
        q.attributes = p.attributes := by
      intro q st hq
      by_cases hd : m.1 = "dependee".toList
      · rw [if_pos hd] at hq
        simp at hq
        rw [← hq.1]
      · rw [if_neg hd] at hq
        exact bake_project_parseMember_attributes corto_id_size corto_locate p q package_id
          m.1 m.2 st hq
    revert hstep h
    generalize (if m.1 = "dependee".toList then
          some ({ p with dependee_json := json_serialize_to_string m.2 }, (0 : Int))
        else bake_project_parseMember corto_id_size corto_locate p package_id m.1 m.2) = r
    intro h hstep
    cases r with
    | none => cases h
    | some r =>
      obtain ⟨q, st⟩ := r
      simp only at h
      have hq := hstep q st rfl
      by_cases hst : st ≠ 0
      · rw [if_pos hst] at h
        simp at h
      · rw [if_neg hst] at h
        rw [bake_project_parseValue_indep corto_id_size corto_locate q p0 package_id m.2] at h
        cases hv : bake_project_parseValue corto_id_size corto_locate p0 package_id m.2 with
        | none => rw [hv] at h; cases h
        | some attr =>
          rw [hv] at h
          simp only at h
          obtain ⟨hdef, hattrs⟩ := ih _ _ h
          constructor
          · intro m1 hm1
            rcases List.mem_cons.1 hm1 with hm1 | hm1
            · rw [hm1, hv]; rfl
            · exact hdef m1 hm1
          · rw [hattrs, List.filterMap_cons, hv]
            cases attr with
            | none =>
              show q.attributes ++ _ = _
              rw [hq]
              rfl
            | some attr =>
              show (q.attributes ++ [attr.set_name m.1]) ++ _ = _
              rw [hq, List.append_assoc]
              rfl

/-- `bake_project_getattr` returns the first attribute of the list with the
name. -/
theorem bake_project_getattr_some (p : bake_project) (name : CStr) (attr : bake_project_attr) :
    bake_project_getattr p name = some attr ↔
      ∃ before after, p.attributes = before ++ attr :: after ∧ attr.name = some name ∧
        ∀ a ∈ before, a.name ≠ some name := by
  unfold bake_project_getattr
  rw [List.find?_eq_some]
  constructor
  · rintro ⟨h1, before, after, h2, h3⟩
    refine ⟨before, after, h2, by simpa using h1, ?_⟩
    intro a ha
    simpa using h3 a ha
  · rintro ⟨before, after, h2, h1, h3⟩
    refine ⟨by simpa using h1, before, after, h2, ?_⟩
    intro a ha
    simpa using h3 a ha

/-- `bake_project_getattr` returns NULL exactly when no attribute of the list
has the name. -/
theorem bake_project_getattr_none (p : bake_project) (name : CStr) :
    bake_project_getattr p name = none ↔ ∀ a ∈ p.attributes, a.name ≠ some name := by
  unfold bake_project_getattr
  rw [List.find?_eq_none]
  constructor
  · intro h a ha
    simpa using h a ha
  · intro h a ha
    simpa using h a ha

theorem bake_project_parseValue_kind (corto_id_size : Nat)
    (corto_locate : CStr → corto_locate_kind → Option CStr) (p : bake_project)
    (package_id : CStr) (v : JSON_Value) (r : Option bake_project_attr)
    (h : bake_project_parseValue corto_id_size corto_locate p package_id v = some r) :
    r.map bake_project_attr.kind = json_value_attr_kind v := by
  cases v with
  | JSONArray items =>
    simp only [bake_project_parseValue] at h
    cases ha : bake_project_parseArray corto_id_size corto_locate p package_id items with
    | none => rw [ha] at h; cases h
    | some array =>
      rw [ha] at h
      rw [← Option.some.inj h]
      rfl
  | JSONString string =>
    simp only [bake_project_parseValue, bake_project_parseString] at h
    cases hs : bake_project_replace corto_id_size corto_locate p package_id string with
    | none => rw [hs] at h; cases h
    | some s =>
      rw [hs] at h
      rw [← Option.some.inj h]
      rfl
  | JSONNumber _ =>
    simp only [bake_project_parseValue] at h
    rw [← Option.some.inj h]
    rfl
  | JSONBoolean _ =>
    simp only [bake_project_parseValue] at h
    rw [← Option.some.inj h]
    rfl
  | JSONObject _ =>
    simp only [bake_project_parseValue] at h
    rw [← Option.some.inj h]
    rfl
  | JSONNull =>
    simp only [bake_project_parseValue] at h
    rw [← Option.some.inj h]
    rfl

/-- C25: when `bake_project_parseMembers` succeeds on a value object, the
value of every member was parsed, and the attribute list of the project is the
list before the call followed, in member order, by one attribute for each
member whose value has one, carrying the name of the member; a value whose
parse returns has an attribute exactly when it is a string, a number, a
boolean or an array, and the kind of the attribute is the one of that type; the
parse of an array returns when the parse of every element does, and the
attribute of the array holds, in order, the attributes of the elements that
have one (objects and nulls are skipped); and `bake_project_getattr` returns the
first attribute of the list with the given name, and nothing exactly when no
attribute has it. -/
theorem C25_attributes_follow_the_members (corto_id_size : Nat)
    (corto_locate : CStr → corto_locate_kind → Option CStr)
    (json_serialize_to_string : JSON_Value → Option CStr)
    (p p1 : bake_project) (package_id : CStr) (jo : List (CStr × JSON_Value))
    (h : bake_project_parseMembers corto_id_size corto_locate json_serialize_to_string p
      package_id jo = some (p1, 0)) :
    (∀ m ∈ jo,
      (bake_project_parseValue corto_id_size corto_locate p package_id m.2).isSome = true) ∧
    p1.attributes = p.attributes ++ jo.filterMap (fun m =>
      (bake_project_parseValue corto_id_size corto_locate p package_id m.2).join.map
        (bake_project_attr.set_name m.1)) ∧
    (∀ (name : CStr) (attr : bake_project_attr),
      (attr.set_name name).name = some name ∧ (attr.set_name name).kind = attr.kind) ∧
    (∀ v r, bake_project_parseValue corto_id_size corto_locate p package_id v = some r →
      r.map bake_project_attr.kind = json_value_attr_kind v) ∧
    (∀ items,
      bake_project_parseValue corto_id_size corto_locate p package_id
          (JSON_Value.JSONArray items) =
        if items.all (fun v =>
            (bake_project_parseValue corto_id_size corto_locate p package_id v).isSome) then
          some (some (bake_project_attr.BAKE_ATTR_ARRAY none
            (items.filterMap (fun v =>
              (bake_project_parseValue corto_id_size corto_locate p package_id v).join))))
        else none) ∧
    (∀ name attr, bake_project_getattr p1 name = some attr ↔
      ∃ before after, p1.attributes = before ++ attr :: after ∧ attr.name = some name ∧
        ∀ a ∈ before, a.name ≠ some name) ∧
    (∀ name, bake_project_getattr p1 name = none ↔
      ∀ a ∈ p1.attributes, a.name ≠ some name) := by
  obtain ⟨hdef, hattrs⟩ := bake_project_parseMembers_loop_attributes corto_id_size corto_locate
    json_serialize_to_string package_id p jo p p1 h
  refine ⟨hdef, hattrs, ?_, bake_project_parseValue_kind corto_id_size corto_locate p
    package_id, ?_, bake_project_getattr_some p1, bake_project_getattr_none p1⟩
  · intro name attr
    cases attr <;> exact ⟨rfl, rfl⟩
  · intro items
    simp only [bake_project_parseValue]
    rw [bake_project_parseArray_filterMap]
    split_ifs <;> rfl

/-- Witness of C25: a value object with a string, an object, an array that
holds a string, a null and a boolean, and a null. -/
theorem C25_witness :
    ({ bake_project_default none with
        attributes :=
          [bake_project_attr.BAKE_ATTR_STRING (some "author".toList) (some "me".toList),
           bake_project_attr.BAKE_ATTR_ARRAY (some "tags".toList)
            [bake_project_attr.BAKE_ATTR_STRING none (some "a".toList),
             bake_project_attr.BAKE_ATTR_BOOLEAN none true]] } : bake_project).attributes =
      (bake_project_default none).attributes ++
        [("author".toList, JSON_Value.JSONString "me".toList),
         ("nested".toList, JSON_Value.JSONObject []),
         ("tags".toList, JSON_Value.JSONArray
            [JSON_Value.JSONString "a".toList, JSON_Value.JSONNull,
             JSON_Value.JSONBoolean true]),
         ("nothing".toList, JSON_Value.JSONNull)].filterMap (fun m =>
          (bake_project_parseValue 512 (fun _ _ => none) (bake_project_default none)
            "corto/x".toList m.2).join.map (bake_project_attr.set_name m.1)) :=
  (C25_attributes_follow_the_members 512 (fun _ _ => none) (fun _ => none)
    (bake_project_default none)
    { bake_project_default none with
        attributes :=
          [bake_project_attr.BAKE_ATTR_STRING (some "author".toList) (some "me".toList),
           bake_project_attr.BAKE_ATTR_ARRAY (some "tags".toList)
            [bake_project_attr.BAKE_ATTR_STRING none (some "a".toList),
             bake_project_attr.BAKE_ATTR_BOOLEAN none true]] }
    "corto/x".toList
    [("author".toList, JSON_Value.JSONString "me".toList),
     ("nested".toList, JSON_Value.JSONObject []),
     ("tags".toList, JSON_Value.JSONArray
        [JSON_Value.JSONString "a".toList, JSON_Value.JSONNull,
         JSON_Value.JSONBoolean true]),
     ("nothing".toList, JSON_Value.JSONNull)]
    (by
      simp only [bake_project_parseMembers, bake_project_parseMembers_loop,
        bake_project_parseMember, bake_project_parseValue, bake_project_parseArray,
        bake_project_parseString, bake_project_parseBoolean]
      rfl)).2.1

/-! ## Defaults and the version of a project (C26) -/

theorem bake_project_add_frame {α : Type} (F : bake_project → α) :
    ((∀ (r : bake_project) x, F { r with sources := x } = F r) →
      ∀ p s, F (bake_project_addSource p s) = F p) ∧
    ((∀ (r : bake_project) x, F { r with includes := x } = F r) →
      ∀ p s, F (bake_project_addInclude p s) = F p) ∧
    ((∀ (r : bake_project) x, F { r with use := x } = F r) →
      ∀ p s, F (bake_project_use p s) = F p) := by
  refine ⟨?_, ?_, ?_⟩
  · intro h p s; unfold bake_project_addSource; split
    · rfl
    · exact h _ _
  · intro h p s; unfold bake_project_addInclude; split
    · rfl
    · exact h _ _
  · intro h p s; unfold bake_project_use; split
    · rfl
    · exact h _ _

theorem bake_project_parseMember_version
    (corto_id_size : Nat)
    (corto_locate : CStr → corto_locate_kind → Option CStr)
    (p p1 : bake_project) (package_id name : CStr) (v : JSON_Value) (status : Int)
    (hname : name ≠ "version".toList)
    (h : bake_project_parseMember corto_id_size corto_locate p package_id name v = some (p1, status)) :
    p1.version = p.version := by
  have hadd := bake_project_add_frame (fun q => q.version)
  rcases bake_project_parseMember_shape corto_id_size corto_locate p p1 package_id name v status h with
    h | ⟨_, h⟩ | ⟨hn, _, h⟩ | ⟨_, h⟩ | ⟨_, h⟩ | ⟨_, a, h⟩ | ⟨_, a, h⟩ | ⟨a, h⟩ | ⟨_, h⟩
  · rw [h]
  · rw [h]
  · exact absurd hn hname
  · rw [h]
  · rw [h]
  · exact bake_project_parseMember_array_frame (fun q => q.version) corto_id_size corto_locate package_id
      _ (hadd.1 (fun _ _ => rfl)) a p p1 h
  · exact bake_project_parseMember_array_frame (fun q => q.version) corto_id_size corto_locate package_id
      _ (hadd.2.1 (fun _ _ => rfl)) a p p1 h
  · exact bake_project_parseMember_array_frame (fun q => q.version) corto_id_size corto_locate package_id
      _ (hadd.2.2 (fun _ _ => rfl)) a p p1 h
  · rw [h]

theorem bake_project_parseMember_sources
    (corto_id_size : Nat)
    (corto_locate : CStr → corto_locate_kind → Option CStr)
    (p p1 : bake_project) (package_id name : CStr) (v : JSON_Value) (status : Int)
    (hname : name ≠ "sources".toList)
    (h : bake_project_parseMember corto_id_size corto_locate p package_id name v = some (p1, status)) :
    p1.sources = p.sources := by
  have hadd := bake_project_add_frame (fun q => q.sources)
  rcases bake_project_parseMember_shape corto_id_size corto_locate p p1 package_id name v status h with
    h | ⟨_, h⟩ | ⟨_, _, h⟩ | ⟨_, h⟩ | ⟨_, h⟩ | ⟨hn, a, h⟩ | ⟨_, a, h⟩ | ⟨a, h⟩ | ⟨_, h⟩
  · rw [h]
  · rw [h]
  · rw [h]
  · rw [h]
  · rw [h]
  · exact absurd hn hname
  · exact bake_project_parseMember_array_frame (fun q => q.sources) corto_id_size corto_locate package_id
      _ (hadd.2.1 (fun _ _ => rfl)) a p p1 h
  · exact bake_project_parseMember_array_frame (fun q => q.sources) corto_id_size corto_locate package_id
      _ (hadd.2.2 (fun _ _ => rfl)) a p p1 h
  · rw [h]

theorem bake_project_parseMember_includes
    (corto_id_size : Nat)
    (corto_locate : CStr → corto_locate_kind → Option CStr)
    (p p1 : bake_project) (package_id name : CStr) (v : JSON_Value) (status : Int)
    (hname : name ≠ "includes".toList)
    (h : bake_project_parseMember corto_id_size corto_locate p package_id name v = some (p1, status)) :
    p1.includes = p.includes := by
  have hadd := bake_project_add_frame (fun q => q.includes)
  rcases bake_project_parseMember_shape corto_id_size corto_locate p p1 package_id name v status h with
    h | ⟨_, h⟩ | ⟨_, _, h⟩ | ⟨_, h⟩ | ⟨_, h⟩ | ⟨_, a, h⟩ | ⟨hn, a, h⟩ | ⟨a, h⟩ | ⟨_, h⟩
  · rw [h]
  · rw [h]
  · rw [h]
  · rw [h]
  · rw [h]
  · exact bake_project_parseMember_array_frame (fun q => q.includes) corto_id_size corto_locate package_id
      _ (hadd.1 (fun _ _ => rfl)) a p p1 h
  · exact absurd hn hname
  · exact bake_project_parseMember_array_frame (fun q => q.includes) corto_id_size corto_locate package_id
      _ (hadd.2.2 (fun _ _ => rfl)) a p p1 h
  · rw [h]

/-- A part of the project that no member of the object changes is the same
after the loop of `bake_project_parseMembers`. -/
theorem bake_project_parseMembers_loop_frame {α : Type} (F : bake_project → α)
    (corto_id_size : Nat)
    (corto_locate : CStr → corto_locate_kind → Option CStr)
    (json_serialize_to_string : JSON_Value → Option CStr) (package_id : CStr)
    (hdep : ∀ (r : bake_project) x, F { r with dependee_json := x } = F r)
    (hattr : ∀ (r : bake_project) x, F { r with attributes := x } = F r) :
    ∀ (jo : List (CStr × JSON_Value)) (p p1 : bake_project) (status : Int),
      (∀ m ∈ jo, ∀ r r1 st,
        bake_project_parseMember corto_id_size corto_locate r package_id m.1 m.2 = some (r1, st) →
        F r1 = F r) →
      bake_project_parseMembers_loop corto_id_size corto_locate json_serialize_to_string package_id jo p =
        some (p1, status) →
      F p1 = F p := by
  intro jo
  induction jo with
  | nil =>
    intro p p1 status _ h
    simp [bake_project_parseMembers_loop] at h
    rw [← h.1]
  | cons m rest ih =>
    intro p p1 status hmem h
    unfold bake_project_parseMembers_loop at h
    simp only at h
    have hstep : ∀ (q : bake_project) (st : Int),
        (if m.1 = "dependee".toList then
          some ({ p with dependee_json := json_serialize_to_string m.2 }, (0 : Int))
        else bake_project_parseMember corto_id_size corto_locate p package_id m.1 m.2) = some (q, st) →
        F q = F p := by
      intro q st hq
      by_cases hd : m.1 = "dependee".toList
      · rw [if_pos hd] at hq
        simp at hq
        rw [← hq.1]
        exact hdep _ _
      · rw [if_neg hd] at hq
        exact hmem m (List.mem_cons_self _ _) p q st hq
    revert hstep h
    generalize (if m.1 = "dependee".toList then
          some ({ p with dependee_json := json_serialize_to_string m.2 }, (0 : Int))
        else bake_project_parseMember corto_id_size corto_locate p package_id m.1 m.2) = r
    intro h hstep
    cases r with
    | none => cases h
    | some r =>
      obtain ⟨q, st⟩ := r
      simp only at h
      have hq := hstep q st rfl
      by_cases hst : st ≠ 0
      · rw [if_pos hst] at h
        simp at h
        rw [← h.1, hq]
      · rw [if_neg hst] at h
        cases hv : bake_project_parseValue corto_id_size corto_locate q package_id m.2 with
        | none => rw [hv] at h; cases h
        | some attr =>
          rw [hv] at h
          simp only at h
          rw [ih _ _ _ (fun x hx => hmem x (List.mem_cons_of_mem _ hx)) h, ← hq]
          cases attr with
          | none => rfl
          | some attr => exact hattr _ _

/-- A successful run of the loop over `front ++ back` is a successful run over
`front` followed by one over `back`. -/
theorem bake_project_parseMembers_loop_append
    (corto_id_size : Nat)
    (corto_locate : CStr → corto_locate_kind → Option CStr)
    (json_serialize_to_string : JSON_Value → Option CStr) (package_id : CStr)
    (back : List (CStr × JSON_Value)) :
    ∀ (front : List (CStr × JSON_Value)) (p p1 : bake_project),
      bake_project_parseMembers_loop corto_id_size corto_locate json_serialize_to_string package_id
        (front ++ back) p = some (p1, 0) →
      ∃ pm, bake_project_parseMembers_loop corto_id_size corto_locate json_serialize_to_string package_id
        back pm = some (p1, 0) := by
  intro front
  induction front with
  | nil => intro p p1 h; exact ⟨p, h⟩
  | cons m rest ih =>
    intro p p1 h
    rw [List.cons_append] at h
    unfold bake_project_parseMembers_loop at h
    simp only at h
    revert h
    generalize (if m.1 = "dependee".toList then
          some ({ p with dependee_json := json_serialize_to_string m.2 }, (0 : Int))
        else bake_project_parseMember corto_id_size corto_locate p package_id m.1 m.2) = r
    intro h
    cases r with
    | none => cases h
    | some r =>
      obtain ⟨q, st⟩ := r
      simp only at h
      by_cases hst : st ≠ 0
      · rw [if_pos hst] at h
        simp at h
      · rw [if_neg hst] at h
        cases hv : bake_project_parseValue corto_id_size corto_locate q package_id m.2 with
        | none => rw [hv] at h; cases h
        | some attr =>
          rw [hv] at h
          exact ih _ _ h

theorem bake_project_parseMembers_loop_version
    (corto_id_size : Nat)
    (corto_locate : CStr → corto_locate_kind → Option CStr)
    (json_serialize_to_string : JSON_Value → Option CStr) (package_id : CStr)
    (jo : List (CStr × JSON_Value)) (p p1 : bake_project) (status : Int)
    (hno : ∀ m ∈ jo, m.1 ≠ "version".toList)
    (h : bake_project_parseMembers_loop corto_id_size corto_locate json_serialize_to_string package_id jo p =
      some (p1, status)) :
    p1.version = p.version :=
  bake_project_parseMembers_loop_frame (fun q => q.version) corto_id_size corto_locate
    json_serialize_to_string package_id (fun _ _ => rfl) (fun _ _ => rfl) jo p p1 status
    (fun m hm r r1 st hr =>
      bake_project_parseMember_version corto_id_size corto_locate r r1 package_id m.1 m.2 st (hno m hm) hr) h

theorem bake_project_parseMembers_loop_sources
    (corto_id_size : Nat)
    (corto_locate : CStr → corto_locate_kind → Option CStr)
    (json_serialize_to_string : JSON_Value → Option CStr) (package_id : CStr)
    (jo : List (CStr × JSON_Value)) (p p1 : bake_project) (status : Int)
    (hno : ∀ m ∈ jo, m.1 ≠ "sources".toList)
    (h : bake_project_parseMembers_loop corto_id_size corto_locate json_serialize_to_string package_id jo p =
      some (p1, status)) :
    p1.sources = p.sources :=
  bake_project_parseMembers_loop_frame (fun q => q.sources) corto_id_size corto_locate
    json_serialize_to_string package_id (fun _ _ => rfl) (fun _ _ => rfl) jo p p1 status
    (fun m hm r r1 st hr =>
      bake_project_parseMember_sources corto_id_size corto_locate r r1 package_id m.1 m.2 st (hno m hm) hr) h

theorem bake_project_parseMembers_loop_includes
    (corto_id_size : Nat)
    (corto_locate : CStr → corto_locate_kind → Option CStr)
    (json_serialize_to_string : JSON_Value → Option CStr) (package_id : CStr)
    (jo : List (CStr × JSON_Value)) (p p1 : bake_project) (status : Int)
    (hno : ∀ m ∈ jo, m.1 ≠ "includes".toList)
    (h : bake_project_parseMembers_loop corto_id_size corto_locate json_serialize_to_string package_id jo p =
      some (p1, status)) :
    p1.includes = p.includes :=
  bake_project_parseMembers_loop_frame (fun q => q.includes) corto_id_size corto_locate
    json_serialize_to_string package_id (fun _ _ => rfl) (fun _ _ => rfl) jo p p1 status
    (fun m hm r r1 st hr =>
      bake_project_parseMember_includes corto_id_size corto_locate r r1 package_id m.1 m.2 st (hno m hm) hr) h

/-- A string member `version` that no later `version` member follows gives the
project its version. -/
theorem bake_project_parseMembers_loop_version_set
    (corto_id_size : Nat)
    (corto_locate : CStr → corto_locate_kind → Option CStr)
    (json_serialize_to_string : JSON_Value → Option CStr) (package_id : CStr)
    (s : CStr) (back : List (CStr × JSON_Value)) (p p1 : bake_project)
    (hno : ∀ m ∈ back, m.1 ≠ "version".toList)
    (h : bake_project_parseMembers_loop corto_id_size corto_locate json_serialize_to_string package_id
      (("version".toList, JSON_Value.JSONString s) :: back) p = some (p1, 0)) :
    p1.version = some s := by
  unfold bake_project_parseMembers_loop at h
  have hm : bake_project_parseMember corto_id_size corto_locate p package_id "version".toList
      (JSON_Value.JSONString s) = some ({ p with version := some s }, 0) := by
    unfold bake_project_parseMember
    rw [if_neg (by decide), if_pos rfl]
  simp only at h
  rw [if_neg (by decide), hm] at h
  simp only at h
  rw [if_neg (by simp)] at h
  cases hv : bake_project_parseValue corto_id_size corto_locate { p with version := some s }
      package_id (JSON_Value.JSONString s) with
  | none => rw [hv] at h; cases h
  | some attr =>
    rw [hv] at h
    simp only at h
    rw [bake_project_parseMembers_loop_version corto_id_size corto_locate
      json_serialize_to_string package_id back _ p1 0 hno h]
    cases attr <;> rfl

/-- A successful `bake_project_parseConfig` is a successful run of the loop of
`bake_project_parseMembers` over the members of the `value` object, from a
project with the version, sources and includes it was called with. -/
theorem bake_project_parseConfig_members
    (corto_id_size : Nat)
    (corto_locate : CStr → corto_locate_kind → Option CStr)
    (json_serialize_to_string : JSON_Value → Option CStr)
    (project_json : Option (Option JSON_Value)) (p p1 : bake_project)
    (h : bake_project_parseConfig corto_id_size corto_locate json_serialize_to_string project_json p =
      some (p1, 0)) :
    ∃ p0 package_id, p0.version = p.version ∧ p0.sources = p.sources ∧
      p0.includes = p.includes ∧
      bake_project_parseMembers_loop corto_id_size corto_locate json_serialize_to_string package_id
        (bake_descriptor_members project_json) p0 = some (p1, 0) := by
  cases project_json with
  | none =>
    simp only [bake_project_parseConfig, Option.some.injEq, Prod.mk.injEq, and_true] at h
    exact ⟨p1, [], by rw [← h], by rw [← h], by rw [← h], rfl⟩
  | some pj =>
    cases pj with
    | none => simp [bake_project_parseConfig] at h
    | some j =>
      cases j with
      | JSONObject jo =>
        have hobj : json_value_get_object (JSON_Value.JSONObject jo) = some jo := rfl
        simp only [bake_project_parseConfig, hobj] at h
        cases hid : json_object_get_string jo "id".toList with
        | none => rw [hid] at h; simp at h
        | some j_id_member =>
          rw [hid] at h
          simp only at h
          cases hty : json_object_get_string jo "type".toList with
          | none => rw [hty] at h; simp at h
          | some j_type_member =>
            rw [hty] at h
            simp only at h
            have hk : (bake_project_parseConfig_kind { p with id := some j_id_member }
                j_type_member).version = p.version ∧
                (bake_project_parseConfig_kind { p with id := some j_id_member }
                j_type_member).sources = p.sources ∧
                (bake_project_parseConfig_kind { p with id := some j_id_member }
                j_type_member).includes = p.includes := by
              unfold bake_project_parseConfig_kind
              split_ifs <;> exact ⟨rfl, rfl, rfl⟩
            revert hk h
            generalize bake_project_parseConfig_kind { p with id := some j_id_member }
                j_type_member = p2
            intro h hk
            cases hv : json_object_get_value jo "value".toList with
            | none =>
              rw [hv] at h
              simp only [Option.some.injEq, Prod.mk.injEq, and_true] at h
              refine ⟨p2, j_id_member, hk.1, hk.2.1, hk.2.2, ?_⟩
              simp only [bake_descriptor_members, hv]
              rw [← h]
              rfl
            | some j_value_member =>
              rw [hv] at h
              simp only at h
              cases j_value_member with
              | JSONObject jvo =>
                have hobj2 : json_value_get_object (JSON_Value.JSONObject jvo) = some jvo := rfl
                rw [hobj2] at h
                simp only at h
                cases hm : bake_project_parseMembers corto_id_size corto_locate json_serialize_to_string p2
                    j_id_member jvo with
                | none => rw [hm] at h; cases h
                | some r =>
                  obtain ⟨p3, st⟩ := r
                  rw [hm] at h
                  simp only at h
                  by_cases hst : st ≠ 0
                  · rw [if_pos hst] at h; simp at h
                  · rw [if_neg hst] at h
                    simp only [Option.some.injEq, Prod.mk.injEq, and_true] at h
                    refine ⟨p2, j_id_member, hk.1, hk.2.1, hk.2.2, ?_⟩
                    simp only [bake_descriptor_members, hv]
                    have hst0 : st = 0 := by simpa using hst
                    rw [← h, ← hst0]
                    exact hm
              | JSONNull => simp [json_value_get_object] at h
              | JSONString _ => simp [json_value_get_object] at h
              | JSONNumber _ => simp [json_value_get_object] at h
              | JSONArray _ => simp [json_value_get_object] at h
              | JSONBoolean _ => simp [json_value_get_object] at h
      | JSONNull => simp [bake_project_parseConfig, json_value_get_object] at h
      | JSONString _ => simp [bake_project_parseConfig, json_value_get_object] at h
      | JSONNumber _ => simp [bake_project_parseConfig, json_value_get_object] at h
      | JSONArray _ => simp [bake_project_parseConfig, json_value_get_object] at h
      | JSONBoolean _ => simp [bake_project_parseConfig, json_value_get_object] at h

theorem bake_project_use_fields (r : bake_project) (s : CStr) :
    (bake_project_use r s).version = r.version ∧ (bake_project_use r s).sources = r.sources ∧
    (bake_project_use r s).includes = r.includes := by
  unfold bake_project_use
  split <;> exact ⟨rfl, rfl, rfl⟩

theorem bake_project_new_managed_fields (dir : Option (List CStr)) (p r3 : bake_project)
    (h : bake_project_new_managed dir p = some r3) :
    r3.version = p.version ∧ r3.sources = p.sources ∧ r3.includes = p.includes := by
  have hmf : (bake_project_modelFile dir p).1.version = p.version ∧
      (bake_project_modelFile dir p).1.sources = p.sources ∧
      (bake_project_modelFile dir p).1.includes = p.includes := by
    unfold bake_project_modelFile
    cases dir <;> exact ⟨rfl, rfl, rfl⟩
  unfold bake_project_new_managed at h
  by_cases hc : p.language.isSome = true ∧ p.managed = true
  · rw [if_pos hc] at h
    simp only at h
    cases hm : (bake_project_modelFile dir p).2 with
    | none =>
      rw [hm] at h
      simp only at h
      by_cases he : (bake_project_modelFile dir p).1.error = true
      · rw [if_pos he] at h; cases h
      · rw [if_neg he] at h
        have h2 := Option.some.inj h
        rw [← h2, (bake_project_use_fields _ _).1, (bake_project_use_fields _ _).2.1,
          (bake_project_use_fields _ _).2.2]
        exact hmf
    | some model =>
      rw [hm] at h
      have h2 := Option.some.inj h
      rw [← h2, (bake_project_use_fields _ _).1, (bake_project_use_fields _ _).2.1,
        (bake_project_use_fields _ _).2.2]
      cases strrchr model '.' <;> exact hmf
  · rw [if_neg hc] at h
    have h2 := Option.some.inj h
    rw [← h2]
    exact ⟨rfl, rfl, rfl⟩

theorem bake_project_new_finish_fields (dir : Option (List CStr)) (p q : bake_project)
    (h : bake_project_new_finish dir p = some q) :
    q.sources = p.sources ∧ q.includes = p.includes ∧
    q.version = (if p.version.isNone then some "0.0.0".toList else p.version) := by
  unfold bake_project_new_finish at h
  cases hr : bake_project_new_managed dir p with
  | none => rw [hr] at h; cases h
  | some r3 =>
    rw [hr] at h
    have h2 : bake_project_new_defaults r3 = q := Option.some.inj h
    obtain ⟨h3, h1, h4⟩ := bake_project_new_managed_fields dir p r3 hr
    rw [← h2, ← h1, ← h4, ← h3]
    unfold bake_project_new_defaults
    simp only
    have hu := bake_project_use_fields r3 "corto/c".toList
    split_ifs <;> simp_all

/-- C26: for a project that `bake_project_new` returns: when the `value`
object of the descriptor has no member `version` (or there is no descriptor or
no `value` object) the version is `0.0.0`; when it has no member `sources` the
sources are exactly `src`; when it has no member `includes` the includes are
exactly `include`; and when it has a member `version` with a string value,
which no other `version` member follows, the version is that string. -/
theorem C26_defaults_and_version
    (corto_id_size : Nat)
    (corto_locate : CStr → corto_locate_kind → Option CStr)
    (json_serialize_to_string : JSON_Value → Option CStr)
    (project_json : Option (Option JSON_Value)) (dir : Option (List CStr))
    (path : Option CStr) (q : bake_project)
    (h : bake_project_new corto_id_size corto_locate json_serialize_to_string project_json dir path =
      some (some q)) :
    ((∀ m ∈ bake_descriptor_members project_json, m.1 ≠ "version".toList) →
      q.version = some "0.0.0".toList) ∧
    ((∀ m ∈ bake_descriptor_members project_json, m.1 ≠ "sources".toList) →
      q.sources = ["src".toList]) ∧
    ((∀ m ∈ bake_descriptor_members project_json, m.1 ≠ "includes".toList) →
      q.includes = ["include".toList]) ∧
    (∀ front s back,
      bake_descriptor_members project_json =
        front ++ ("version".toList, JSON_Value.JSONString s) :: back →
      (∀ m ∈ back, m.1 ≠ "version".toList) → q.version = some s) := by
  unfold bake_project_new at h
  cases hc : bake_project_parseConfig corto_id_size corto_locate json_serialize_to_string project_json
      (bake_project_default path) with
  | none => rw [hc] at h; cases h
  | some r =>
    obtain ⟨result, status⟩ := r
    rw [hc] at h
    simp only at h
    by_cases hst : status ≠ 0
    · rw [if_pos hst] at h; simp at h
    · rw [if_neg hst] at h
      simp only [Option.some.injEq] at h
      have hst0 : status = 0 := by simpa using hst
      rw [hst0] at hc
      obtain ⟨p0, package_id, hv0, hs0, hi0, hloop⟩ :=
        bake_project_parseConfig_members corto_id_size corto_locate json_serialize_to_string project_json
          _ result hc
      obtain ⟨hqs, hqi, hqv⟩ := bake_project_new_finish_fields dir result q h
      refine ⟨?_, ?_, ?_, ?_⟩
      · intro hno
        have := bake_project_parseMembers_loop_version corto_id_size corto_locate json_serialize_to_string
          package_id _ p0 result 0 hno hloop
        rw [hqv, this, hv0]
        rfl
      · intro hno
        have := bake_project_parseMembers_loop_sources corto_id_size corto_locate json_serialize_to_string
          package_id _ p0 result 0 hno hloop
        rw [hqs, this, hs0]
        rfl
      · intro hno
        have := bake_project_parseMembers_loop_includes corto_id_size corto_locate json_serialize_to_string
          package_id _ p0 result 0 hno hloop
        rw [hqi, this, hi0]
        rfl
      · intro front s back hmem hno
        rw [hmem] at hloop
        obtain ⟨pm, hpm⟩ := bake_project_parseMembers_loop_append corto_id_size corto_locate
          json_serialize_to_string package_id _ front p0 result hloop
        have := bake_project_parseMembers_loop_version_set corto_id_size corto_locate
          json_serialize_to_string package_id s back pm result hno hpm
        rw [hqv, this]
        rfl

/-- Witness of C26: the descriptor of the package `corto/x` whose `value`
object gives the version `1.2.0` and no sources; the project has that version
and the default sources. -/
theorem C26_witness :
    ∃ q, bake_project_new 512 (fun _ _ => none) (fun _ => none)
      (some (some (JSON_Value.JSONObject
        [("id".toList, JSON_Value.JSONString "corto/x".toList),
         ("type".toList, JSON_Value.JSONString "package".toList),
         ("value".toList, JSON_Value.JSONObject
            [("version".toList, JSON_Value.JSONString "1.2.0".toList),
             ("public".toList, JSON_Value.JSONBoolean false)])])))
      (some ["main.c".toList]) (some "x".toList) = some (some q) ∧
      q.sources = ["src".toList] ∧ q.version = some "1.2.0".toList :=
  ⟨{ bake_project_default (some "x".toList) with
        id := some "corto/x".toList, kind := bake_project_kind.BAKE_PACKAGE,
        version := some "1.2.0".toList, is_public := false,
        use := ["corto".toList, "corto/c".toList], use_build := ["driver/tool/pp".toList],
        attributes :=
          [bake_project_attr.BAKE_ATTR_STRING (some "version".toList) (some "1.2.0".toList),
           bake_project_attr.BAKE_ATTR_BOOLEAN (some "public".toList) false] },
    rfl,
    (C26_defaults_and_version 512 (fun _ _ => none) (fun _ => none)
      (some (some (JSON_Value.JSONObject
        [("id".toList, JSON_Value.JSONString "corto/x".toList),
         ("type".toList, JSON_Value.JSONString "package".toList),
         ("value".toList, JSON_Value.JSONObject
            [("version".toList, JSON_Value.JSONString "1.2.0".toList),
             ("public".toList, JSON_Value.JSONBoolean false)])])))
      (some ["main.c".toList]) (some "x".toList)
      { bake_project_default (some "x".toList) with
        id := some "corto/x".toList, kind := bake_project_kind.BAKE_PACKAGE,
        version := some "1.2.0".toList, is_public := false,
        use := ["corto".toList, "corto/c".toList], use_build := ["driver/tool/pp".toList],
        attributes :=
          [bake_project_attr.BAKE_ATTR_STRING (some "version".toList) (some "1.2.0".toList),
           bake_project_attr.BAKE_ATTR_BOOLEAN (some "public".toList) false] }
      rfl).2.1 (by decide),
    (C26_defaults_and_version 512 (fun _ _ => none) (fun _ => none)
      (some (some (JSON_Value.JSONObject
        [("id".toList, JSON_Value.JSONString "corto/x".toList),
         ("type".toList, JSON_Value.JSONString "package".toList),
         ("value".toList, JSON_Value.JSONObject
            [("version".toList, JSON_Value.JSONString "1.2.0".toList),
             ("public".toList, JSON_Value.JSONBoolean false)])])))
      (some ["main.c".toList]) (some "x".toList)
      { bake_project_default (some "x".toList) with
        id := some "corto/x".toList, kind := bake_project_kind.BAKE_PACKAGE,
        version := some "1.2.0".toList, is_public := false,
        use := ["corto".toList, "corto/c".toList], use_build := ["driver/tool/pp".toList],
        attributes :=
          [bake_project_attr.BAKE_ATTR_STRING (some "version".toList) (some "1.2.0".toList),
           bake_project_attr.BAKE_ATTR_BOOLEAN (some "public".toList) false] }
      rfl).2.2.2 [] "1.2.0".toList [("public".toList, JSON_Value.JSONBoolean false)] rfl
      (by decide)⟩

end Bake
